import Mathlib

/-!
# easyLexer: a shallow embedding of the scanning engine

Go strings are byte sequences; they are modelled as lists of byte values.
`len`, slicing and `strings.HasPrefix` work on bytes, while `range` over a
string and the regular-expression engine step over UTF-8 encoded runes, so
the rune decoder of the Go runtime is modelled as well.
-/

namespace EasyLexer

/-- A Go string: its bytes, in order. -/
abbrev Str := List Nat

/-- The bytes of an ASCII text, for writing examples. -/
def ascii (s : String) : Str := s.toList.map Char.toNat

/-! ## Library functions of package strings -/

/-- Go strings.HasPrefix on byte strings. -/
def HasPrefix : Str → Str → Bool
  | _, [] => true
  | [], _ :: _ => false
  | a :: s, b :: x => a == b && HasPrefix s x

/-- Dropping the trailing bytes equal to c, as strings.TrimRight does for a one-byte cutset. -/
def TrimRight (s : Str) (c : Nat) : Str :=
  (s.reverse.dropWhile (fun b => b == c)).reverse

/-- Go strings.Index for a one-byte separator: offset of the first occurrence. -/
def Index : Str → Nat → Option Nat
  | [], _ => none
  | b :: s, c => if b == c then some 0 else (Index s c).map (fun i => i + 1)

/-- Go strings.LastIndex for a one-byte separator: offset of the last occurrence. -/
def LastIndex : Str → Nat → Option Nat
  | [], _ => none
  | b :: s, c =>
    match LastIndex s c with
    | some i => some (i + 1)
    | none => if b == c then some 0 else none

/-! ## UTF-8 decoding, as `range` over a string and package regexp perform it -/

/-- A continuation byte of a UTF-8 sequence. -/
def isCont (b : Nat) : Bool := 0x80 ≤ b && b ≤ 0xBF

/-- Go utf8.DecodeRuneInString: the first rune of the string and its width in
bytes. An empty string gives (0xFFFD, 0), an invalid encoding (0xFFFD, 1). -/
def DecodeRune : Str → Nat × Nat
  | [] => (0xFFFD, 0)
  | b0 :: rest =>
    if b0 < 0x80 then (b0, 1)
    else if 0xC2 ≤ b0 && b0 ≤ 0xDF then
      match rest with
      | b1 :: _ => if isCont b1 then ((b0 - 0xC0) * 64 + (b1 - 0x80), 2) else (0xFFFD, 1)
      | _ => (0xFFFD, 1)
    else if 0xE0 ≤ b0 && b0 ≤ 0xEF then
      match rest with
      | b1 :: b2 :: _ =>
        let lo := if b0 == 0xE0 then 0xA0 else 0x80
        let hi := if b0 == 0xED then 0x9F else 0xBF
        if lo ≤ b1 && b1 ≤ hi && isCont b2 then
          ((b0 - 0xE0) * 4096 + (b1 - 0x80) * 64 + (b2 - 0x80), 3)
        else (0xFFFD, 1)
      | _ => (0xFFFD, 1)
    else if 0xF0 ≤ b0 && b0 ≤ 0xF4 then
      match rest with
      | b1 :: b2 :: b3 :: _ =>
        let lo := if b0 == 0xF0 then 0x90 else 0x80
        let hi := if b0 == 0xF4 then 0x8F else 0xBF
        if lo ≤ b1 && b1 ≤ hi && isCont b2 && isCont b3 then
          ((b0 - 0xF0) * 262144 + (b1 - 0x80) * 4096 + (b2 - 0x80) * 64 + (b3 - 0x80), 4)
        else (0xFFFD, 1)
      | _ => (0xFFFD, 1)
    else (0xFFFD, 1)

/-- Width in bytes of the first rune of a string. -/
def runeWidth (s : Str) : Nat := (DecodeRune s).2

/-! ## Position -/

/-- Zero-based line and column of the cursor. -/
structure Position where
  Line : Int
  Column : Int
  deriving DecidableEq, Repr

/-- Modelled from the spec: shiftPos, the advance of a position by consumed
text, is not among the source files. For each character of the text, in
order: a line terminator increases the line by one and resets the column to
zero, any other character increases the column by one. The characters are
the elements of the string. -/
def shiftPos (p : Position) : Str → Position
  | [] => p
  | c :: s =>
    if c == 10 then shiftPos ⟨p.Line + 1, 0⟩ s
    else shiftPos ⟨p.Line, p.Column + 1⟩ s

/-! ## Package regexp

The lexer uses one method of a compiled expression, FindStringSubmatch. The
expressions are modelled by their syntax tree and a backtracking matcher
that lists the ways an expression can match at a position in priority order,
which is the leftmost-first rule of Go: the search takes the first start
offset at which the expression matches, and there the first alternative. -/

/-- Syntax of a regular expression. Groups carry their number (1, 2, ...) in
the order of their opening parentheses. -/
inductive Regexp
  | empty
  | lit (r : Nat)
  | cls (neg : Bool) (ranges : List (Nat × Nat))
  | anyNotNL
  | beginText
  | cat (a b : Regexp)
  | alt (a b : Regexp)
  | star (a : Regexp)
  | plus (a : Regexp)
  | quest (a : Regexp)
  | group (i : Nat) (a : Regexp)
  | ncgroup (a : Regexp)
  deriving DecidableEq, Repr

/-- A matching thread: offset reached in the input, the input left from
there, and the captures recorded so far (latest first). -/
abbrev Thread := Nat × Str × List (Nat × Str)

/-- Consuming one rune that satisfies a predicate. -/
def stepRune (p : Nat → Bool) (t : Thread) : List Thread :=
  if t.2.1 ≠ [] ∧ p (DecodeRune t.2.1).1 = true then
    [(t.1 + runeWidth t.2.1, t.2.1.drop (runeWidth t.2.1), t.2.2)]
  else []

/-- Membership of a rune in a character class. -/
def inClass (neg : Bool) (ranges : List (Nat × Nat)) (r : Nat) : Bool :=
  xor neg (ranges.any (fun lh => lh.1 ≤ r && r ≤ lh.2))

/-- Greedy repetition of a matcher: iterations that consume input are tried
first, leaving the loop comes last. -/
def starLoop (f : Thread → List Thread) : Nat → Thread → List Thread
  | 0, t => [t]
  | n + 1, t =>
    ((f t).filter (fun u => u.2.1.length < t.2.1.length)).flatMap (starLoop f n) ++ [t]

/-- All the ways an expression matches from a thread, preferred first. -/
def Regexp.ends : Regexp → Thread → List Thread
  | .empty, t => [t]
  | .lit r, t => stepRune (fun x => x == r) t
  | .cls neg ranges, t => stepRune (inClass neg ranges) t
  | .anyNotNL, t => stepRune (fun x => x != 10) t
  | .beginText, t => if t.1 = 0 then [t] else []
  | .cat a b, t => (a.ends t).flatMap (fun u => b.ends u)
  | .alt a b, t => a.ends t ++ b.ends t
  | .star a, t => starLoop (fun u => a.ends u) t.2.1.length t
  | .plus a, t => (a.ends t).flatMap (fun u => starLoop (fun v => a.ends v) u.2.1.length u)
  | .quest a, t => a.ends t ++ [t]
  | .group i a, t =>
    (a.ends t).map (fun u => (u.1, u.2.1, (i, t.2.1.take (u.1 - t.1)) :: u.2.2))
  | .ncgroup a, t => a.ends t

/-- Number of capture groups of an expression (NumSubexp). -/
def Regexp.numGroups : Regexp → Nat
  | .cat a b | .alt a b => max a.numGroups b.numGroups
  | .star a | .plus a | .quest a | .ncgroup a => a.numGroups
  | .group i a => max i a.numGroups
  | _ => 0

/-- The unanchored search: the first start offset, stepping over runes, at
which the expression matches. Yields the start offset and the preferred
thread. -/
def Regexp.search (re : Regexp) : Nat → Nat → Str → Option (Nat × Thread)
  | 0, _, _ => none
  | n + 1, pos, s =>
    match re.ends (pos, s, []) with
    | t :: _ => some (pos, t)
    | [] => if s = [] then none else re.search n (pos + runeWidth s) (s.drop (runeWidth s))

/-- The text captured by a group, empty when the group took no part. -/
def capture (caps : List (Nat × Str)) (i : Nat) : Str :=
  match caps.find? (fun c => c.1 == i) with
  | some c => c.2
  | none => []

/-- Go Regexp.FindStringSubmatch: the leftmost match followed by the texts of
the capture groups, or the empty slice when nothing matches. -/
def Regexp.FindStringSubmatch (re : Regexp) (s : Str) : List Str :=
  match re.search (s.length + 1) 0 s with
  | some (start, t) =>
    ((s.drop start).take (t.1 - start)) ::
      (List.range re.numGroups).map (fun i => capture t.2.2 (i + 1))
  | none => []

/-- Whether the pattern text of an expression begins with the character ^
(strings.HasPrefix(re, "^") on the source of the pattern). -/
def Regexp.startsWithCaret : Regexp → Bool
  | .beginText => true
  | .cat a _ | .alt a _ | .star a | .plus a | .quest a => a.startsWithCaret
  | _ => false

/-! ## Token types and tokens (token.go) -/

/-- TokenID is an int. -/
abbrev TokenID := Int

def OTHER : TokenID := -1
def IDENT : TokenID := -2
def NUMBER : TokenID := -3
def STRING : TokenID := -4

/-- The two implementations of the TokenType interface. -/
inductive TokenType
  | Regexp (ID : TokenID) (Re : Regexp)
  | Pattern (ID : TokenID) (Patterns : List Str)
  deriving DecidableEq, Repr

/-- Data of a found token. The field Typ is the field Type of the source, a
reserved word here. -/
structure Token where
  Typ : TokenType
  Literal : Str
  Submatches : List Str
  Position : Position
  deriving DecidableEq, Repr

/-- NewRegexpTokenType: a pattern that does not begin with ^ is wrapped as ^(?:re). -/
def NewRegexpTokenType (id : TokenID) (re : Regexp) : TokenType :=
  .Regexp id (if re.startsWithCaret then re else .cat .beginText (.ncgroup re))

/-- NewPatternTokenType. -/
def NewPatternTokenType (id : TokenID) (patterns : List Str) : TokenType :=
  .Pattern id patterns

/-- GetID of either token type. -/
def TokenType.GetID : TokenType → TokenID
  | .Regexp id _ => id
  | .Pattern id _ => id

/-- The loop of PatternTokenType.FindToken: the first listed pattern that is a prefix of s. -/
def findPattern (s : Str) : List Str → Option Str
  | [] => none
  | x :: xs => if HasPrefix s x then some x else findPattern s xs

/-- FindToken of either token type. -/
def TokenType.FindToken (tt : TokenType) (s : Str) (p : Position) : Option Token :=
  match tt with
  | .Regexp _ re =>
    match re.FindStringSubmatch s with
    | m0 :: ms => some { Typ := tt, Literal := m0, Submatches := ms, Position := p }
    | [] => none
  | .Pattern _ patterns =>
    match findPattern s patterns with
    | some x => some { Typ := tt, Literal := x, Submatches := [], Position := p }
    | none => none

/-- The decimal digits of a natural number, most significant first, as ASCII
bytes; the first argument bounds the number of digits. -/
def decimalDigits : Nat → Nat → Str
  | 0, _ => []
  | f + 1, n => if n < 10 then [48 + n] else decimalDigits f (n / 10) ++ [48 + n % 10]

/-- Go strconv.Itoa, also what the verb %d prints: the decimal rendering of an
integer, with a minus sign before a negative one. -/
def Itoa (n : Int) : Str :=
  if n < 0 then 45 :: decimalDigits (n.natAbs + 1) n.natAbs
  else decimalDigits (n.natAbs + 1) n.natAbs

/-- TokenID.String. -/
def TokenID.String (id : TokenID) : Str :=
  if id = OTHER then ascii "OTHER"
  else if id = IDENT then ascii "IDENT"
  else if id = NUMBER then ascii "NUMBER"
  else if id = STRING then ascii "STRING"
  else ascii "UNKNOWN(" ++ Itoa id ++ ascii ")"

/-- String of either token type. -/
def TokenType.String (tt : TokenType) : Str := TokenID.String tt.GetID

/-! ## Errors (errors.go) -/

/-- The error returned when an unknown token is found. -/
structure UnknownTokenError where
  Literal : Str
  Position : Position
  deriving DecidableEq, Repr

/-- A lower-case hexadecimal digit. -/
def lowerhex (d : Nat) : Nat := if d < 10 then 48 + d else 87 + d

/-- Go strconv.IsPrint. Up to U+00FF it is a fixed test; beyond, it reads the
Unicode tables of the library, which are taken as the parameter wide. -/
def IsPrint (wide : Nat → Bool) (r : Nat) : Bool :=
  if r ≤ 0xFF then
    (0x20 ≤ r && r ≤ 0x7E) || (0xA1 ≤ r && r ≤ 0xFF && r != 0xAD)
  else wide r

/-- The escape of one rune inside a double-quoted string (appendEscapedRune of
strconv, quote character "), given the bytes that encode the rune. -/
def escapeRune (wide : Nat → Bool) (r : Nat) (enc : Str) : Str :=
  if r == 34 || r == 92 then [92, r]
  else if IsPrint wide r then enc
  else if r == 7 then [92, 97]
  else if r == 8 then [92, 98]
  else if r == 12 then [92, 102]
  else if r == 10 then [92, 110]
  else if r == 13 then [92, 114]
  else if r == 9 then [92, 116]
  else if r == 11 then [92, 118]
  else if r < 32 || r == 0x7F then [92, 120, lowerhex (r / 16), lowerhex (r % 16)]
  else if r < 0x10000 then
    [92, 117, lowerhex (r / 4096 % 16), lowerhex (r / 256 % 16), lowerhex (r / 16 % 16),
      lowerhex (r % 16)]
  else
    [92, 85, lowerhex (r / 268435456 % 16), lowerhex (r / 16777216 % 16),
      lowerhex (r / 1048576 % 16), lowerhex (r / 65536 % 16), lowerhex (r / 4096 % 16),
      lowerhex (r / 256 % 16), lowerhex (r / 16 % 16), lowerhex (r % 16)]

/-- The body of strconv.Quote: every rune escaped, an invalid byte written as \xNN. -/
def quoteBody (wide : Nat → Bool) : Nat → Str → Str
  | 0, _ => []
  | _, [] => []
  | n + 1, b :: s =>
    let rw := DecodeRune (b :: s)
    if rw.2 == 1 && rw.1 == 0xFFFD then
      [92, 120, lowerhex (b / 16), lowerhex (b % 16)] ++ quoteBody wide n s
    else
      escapeRune wide rw.1 ((b :: s).take rw.2) ++ quoteBody wide n ((b :: s).drop rw.2)

/-- Go strconv.Quote, which is what the verb %#v prints for a string. -/
def Quote (wide : Nat → Bool) (s : Str) : Str :=
  [34] ++ quoteBody wide s.length s ++ [34]

/-- UnknownTokenError.Error:
Sprintf("%d:%d:UnknownTokenError: %#v", Line+1, Column+1, Literal). -/
def UnknownTokenError.Error (wide : Nat → Bool) (se : UnknownTokenError) : Str :=
  Itoa (se.Position.Line + 1) ++ ascii ":" ++ Itoa (se.Position.Column + 1) ++
    ascii ":UnknownTokenError: " ++ Quote wide se.Literal

/-! ## The lexer (lexer.go) -/

/-- An io.Reader, as the list of the byte chunks its successive Read calls have
still to deliver. A chunk larger than the space offered is delivered in
pieces; once the list is empty every Read delivers nothing. -/
abbrev Reader := List Str

/-- One call of Read with room for n bytes: the bytes delivered and the reader afterwards. -/
def Read (r : Reader) (n : Nat) : Str × Reader :=
  match r with
  | [] => ([], [])
  | c :: cs => if c.length ≤ n then (c, cs) else (c.take n, c.drop n :: cs)

/-- The lexer. The field consumed is not in the source: it is a history
variable that records every literal consumeBuffer has removed, in order. -/
structure Lexer where
  reader : Reader
  buf : Str
  loadedLine : Str
  nextPos : Position
  Whitespace : Option TokenType
  TokenTypes : List TokenType
  consumed : List Str
  deriving DecidableEq, Repr

/-- DefaultWhitespace: the patterns space, tab, carriage return, line feed. -/
def DefaultWhitespace : TokenType :=
  NewPatternTokenType (-1) [[32], [9], [13], [10]]

/-- The character class [0-9]. -/
def reDigit : Regexp := .cls false [(48, 57)]

/-- DefaultTokenTypes: IDENT [a-zA-Z_][a-zA-Z0-9_]*, NUMBER [0-9]+(?:\.[0-9]+)?,
STRING \"([^"]*)\" and OTHER, a single dot. -/
def DefaultTokenTypes : List TokenType :=
  [ NewRegexpTokenType IDENT
      (.cat (.cls false [(97, 122), (65, 90), (95, 95)])
        (.star (.cls false [(97, 122), (65, 90), (48, 57), (95, 95)]))),
    NewRegexpTokenType NUMBER
      (.cat (.plus reDigit) (.quest (.ncgroup (.cat (.lit 46) (.plus reDigit))))),
    NewRegexpTokenType STRING
      (.cat (.lit 34) (.cat (.group 1 (.star (.cls true [(34, 34)]))) (.lit 34))),
    NewRegexpTokenType OTHER .anyNotNL ]

/-- NewLexer. -/
def NewLexer (reader : Reader) : Lexer :=
  { reader := reader, buf := [], loadedLine := [], nextPos := ⟨0, 0⟩,
    Whitespace := some DefaultWhitespace, TokenTypes := DefaultTokenTypes, consumed := [] }

/-- The method readBufIfNeed: below 1024 buffered bytes, one Read into a fresh zeroed
array of 2048 bytes, whose text with the trailing zero bytes trimmed is
appended to the buffer. The count and the error of Read are ignored. -/
def readBufIfNeed (l : Lexer) : Lexer :=
  if l.buf.length < 1024 then
    let r := Read l.reader 2048
    let buf := r.1 ++ List.replicate (2048 - r.1.length) 0
    { l with reader := r.2, buf := l.buf ++ TrimRight buf 0 }
  else l

/-- The method consumeBuffer. -/
def consumeBuffer (l : Lexer) (t : Option Token) : Lexer :=
  match t with
  | none => l
  | some t =>
    { l with
      buf := l.buf.drop t.Literal.length
      nextPos := shiftPos l.nextPos t.Literal
      loadedLine :=
        match LastIndex t.Literal 10 with
        | some idx => t.Literal.drop (idx + 1)
        | none => l.loadedLine ++ t.Literal
      consumed := l.consumed ++ [t.Literal] }

/-- The loop of skipWhitespace for a whitespace matcher, run for at most fuel
iterations; none when the fuel does not suffice. -/
def skipWhitespaceLoop (ws : TokenType) : Nat → Lexer → Option Lexer
  | 0, _ => none
  | fuel + 1, l =>
    let l1 := readBufIfNeed l
    match ws.FindToken l1.buf l1.nextPos with
    | some t => skipWhitespaceLoop ws fuel (consumeBuffer l1 (some t))
    | none => some l1

/-- The method skipWhitespace. -/
def skipWhitespace (fuel : Nat) (l : Lexer) : Option Lexer :=
  match l.Whitespace with
  | none => some l
  | some ws => skipWhitespaceLoop ws fuel l

/-- Whether the whitespace matcher or some rule matches the text s. -/
def matchesAt (l : Lexer) (s : Str) : Bool :=
  (match l.Whitespace with
    | some ws => (ws.FindToken s l.nextPos).isSome
    | none => false) ||
  l.TokenTypes.any (fun tokenType => (tokenType.FindToken s l.nextPos).isSome)

/-- The loop of makeError from the offset shift on; range over a string steps
from one rune to the next. -/
def makeErrorFrom (l : Lexer) : Nat → Nat → UnknownTokenError
  | 0, _ => { Literal := l.buf, Position := l.nextPos }
  | n + 1, shift =>
    if shift < l.buf.length then
      if matchesAt l (l.buf.drop shift) then
        { Literal := l.buf.take shift, Position := l.nextPos }
      else makeErrorFrom l n (shift + runeWidth (l.buf.drop shift))
    else { Literal := l.buf, Position := l.nextPos }

/-- The method makeError. -/
def makeError (l : Lexer) : UnknownTokenError := makeErrorFrom l l.buf.length 0

/-- The loop of Peek over the token types still to try. -/
def peekLoop (fuel : Nat) : List TokenType → Lexer → Option (Lexer × Option Token)
  | [], l => some (l, none)
  | tokenType :: rest, l =>
    match skipWhitespace fuel l with
    | none => none
    | some l1 =>
      let l2 := readBufIfNeed l1
      match tokenType.FindToken l2.buf l2.nextPos with
      | some t => some (l2, some t)
      | none => peekLoop fuel rest l2

/-- What Peek and Scan return: the token and the error, either of which may be nil. -/
abbrev Result := Option Token × Option UnknownTokenError

/-- The method Peek: the lexer afterwards and the result; none when the fuel of
the whitespace loop does not suffice. -/
def Peek (fuel : Nat) (l : Lexer) : Option (Lexer × Result) :=
  match peekLoop fuel l.TokenTypes l with
  | none => none
  | some (l1, some t) => some (l1, some t, none)
  | some (l1, none) =>
    if l1.buf.length > 0 then some (l1, none, some (makeError l1))
    else some (l1, none, none)

/-- The method Scan. -/
def Scan (fuel : Nat) (l : Lexer) : Option (Lexer × Result) :=
  match Peek fuel l with
  | none => none
  | some (l1, t, e) => some (consumeBuffer l1 t, t, e)

/-- The method GetLastLine: the lexer afterwards and the line. -/
def GetLastLine (l : Lexer) : Lexer × Str :=
  let l1 := readBufIfNeed l
  match Index l1.buf 10 with
  | some idx => (l1, l1.loadedLine ++ l1.buf.take idx)
  | none => (l1, l1.loadedLine ++ l1.buf)

/-! ## Reading of the specification -/

/-- The text after the last line terminator of a literal, in the words of the
specification: the longest final part that holds no line terminator. -/
def textAfterLastTerminator (s : Str) : Str := s.rtakeWhile (fun b => b != 10)

/-- The number a string of decimal digits denotes. -/
def decimalValue (s : Str) : Nat := s.foldl (fun acc d => 10 * acc + (d - 48)) 0

/-- The number of bytes still to be consumed: those buffered and those the
stream has yet to deliver. -/
def pending (l : Lexer) : Nat := l.buf.length + (l.reader.map List.length).sum

/-- The buffer is settled: no refill changes it, because the stream is
exhausted or at least 1024 bytes are buffered. -/
def Settled (l : Lexer) : Prop := l.reader = [] ∨ 1024 ≤ l.buf.length

instance (l : Lexer) : Decidable (Settled l) := by unfold Settled; infer_instance

/-- The token of the earliest rule, in list order, that matches the text s. -/
def firstMatch (rules : List TokenType) (s : Str) (p : Position) : Option Token :=
  rules.findSome? (fun tokenType => tokenType.FindToken s p)

/-! ## Example configurations -/

/-- Three pattern rules, abc, ab and a, in that order. -/
def abcRules : List TokenType :=
  [.Pattern 1 [[97, 98, 99]], .Pattern 2 [[97, 98]], .Pattern 3 [[97]]]

/-- A lexer over one chunk holding a space and ab, with the rules abc, ab, a. -/
def abcLexer : Lexer := { NewLexer [[32, 97, 98]] with TokenTypes := abcRules }

/-- The state of abcLexer once the space is skipped. -/
def abcLexerSkipped : Lexer :=
  { NewLexer [] with
    buf := [97, 98], loadedLine := [32], nextPos := ⟨0, 1⟩, consumed := [[32]],
    TokenTypes := abcRules }

/-- The token of the rule ab at line 0, column 1. -/
def abToken : Token :=
  { Typ := .Pattern 2 [[97, 98]], Literal := [97, 98], Submatches := [], Position := ⟨0, 1⟩ }

/-- The default lexer over a stream that delivers a, b, c in three reads. -/
def slowLexer : Lexer := NewLexer [[97], [98], [99]]

/-- A lexer with the single rule [0-9]+ over a stream that delivers three @ signs in three reads. -/
def atLexer : Lexer :=
  { NewLexer [[64], [64], [64]] with TokenTypes := [NewRegexpTokenType 1 (.plus reDigit)] }

/-- The lexer atLexer once its three reads have been made. -/
def atLexerFull : Lexer := { atLexer with reader := [], buf := [64, 64, 64] }

/-- The offsets at which the characters (runes) of a string start: offset 0,
and after each character start inside the string the offset just past that
character. These are the offsets range over the string yields, together with
the length of the string. -/
inductive RuneStart (s : Str) : Nat → Prop
  | zero : RuneStart s 0
  | step (k : Nat) : RuneStart s k → k < s.length → RuneStart s (k + runeWidth (s.drop k))

/-- The rule [0-9]+. -/
def digitsRule : TokenType := NewRegexpTokenType 1 (.plus reDigit)

/-- The lexer of the minimal-span example: input 12@@34, rules matching digits and whitespace. -/
def spanLexer : Lexer := { NewLexer [[49, 50, 64, 64, 51, 52]] with TokenTypes := [digitsRule] }

/-- The state of spanLexer once the token 12 has been scanned. -/
def spanLexerAt : Lexer :=
  { NewLexer [] with
    buf := [64, 64, 51, 52], loadedLine := [49, 50], nextPos := ⟨0, 2⟩, consumed := [[49, 50]],
    TokenTypes := [digitsRule] }

/-- A lexer over the two bytes that encode the letter e with acute accent,
with one pattern rule, the second of these bytes. -/
def accentLexer : Lexer := { NewLexer [[0xC3, 0xA9]] with TokenTypes := [.Pattern 1 [[0xA9]]] }

/-- The positions of the tokens that n successive calls of Scan return. -/
def scanPositions (fuel : Nat) : Nat → Lexer → List Position
  | 0, _ => []
  | n + 1, l =>
    match Scan fuel l with
    | some (l1, some t, _) => t.Position :: scanPositions fuel n l1
    | _ => []

/-- A rule matching one lower-case letter at a time. -/
def letterRule : TokenType := NewRegexpTokenType 1 (.cls false [(97, 122)])

/-- A lexer over ab, a line feed and cd, with the one-letter rule. -/
def letterLexer : Lexer :=
  { NewLexer [[97, 98, 10, 99, 100]] with TokenTypes := [letterRule] }

/-- The state of letterLexer once a, b and c have been scanned. -/
def letterLexer3 : Lexer :=
  { NewLexer [] with
    buf := [100], loadedLine := [99], nextPos := ⟨1, 1⟩,
    consumed := [[97], [98], [10], [99]], TokenTypes := [letterRule] }

/-- The scan loop of a caller: Scan called until it returns no token or an
error, at most n times. The result is the state the loop ends in and the
error of its last call, if any; none when n calls do not reach the end or
the fuel of a whitespace loop does not suffice. -/
def scanAll (fuel : Nat) : Nat → Lexer → Option (Lexer × Option UnknownTokenError)
  | 0, _ => none
  | n + 1, l =>
    match Scan fuel l with
    | none => none
    | some (l1, some _, none) => scanAll fuel n l1
    | some (l1, _, e) => some (l1, e)

/-- A matcher that only matches at the very beginning of its input: the
literal of a token it returns is a prefix of the text it was given. -/
def PrefixMatcher (tt : TokenType) : Prop :=
  ∀ s p t, tt.FindToken s p = some t → t.Literal <+: s

/-- The default lexer over the input ab, space, 1 in one chunk. -/
def wordLexer : Lexer := NewLexer [[97, 98, 32, 49]]

/-- The state of wordLexer at the end of its scan. -/
def wordLexerEnd : Lexer :=
  { NewLexer [] with
    loadedLine := [97, 98, 32, 49], nextPos := ⟨0, 4⟩, consumed := [[97, 98], [32], [49]] }

/-- The default rule for double-quoted strings. -/
def stringRule : TokenType :=
  NewRegexpTokenType STRING
    (.cat (.lit 34) (.cat (.group 1 (.star (.cls true [(34, 34)]))) (.lit 34)))

/-- A rule built from the pattern ^a|b, which begins with ^ and is compiled as given. -/
def caretAltRule : TokenType :=
  NewRegexpTokenType 1 (.alt (.cat .beginText (.lit 97)) (.lit 98))

/-- A rule built from the pattern a*, which matches the empty text. -/
def starRule : TokenType := NewRegexpTokenType 1 (.star (.lit 97))

/-- A lexer with the rule a* over an empty stream. -/
def starLexer : Lexer := { NewLexer [] with TokenTypes := [starRule] }

/-- An additional rule, built from the pattern x*. -/
def extraRule : TokenType := NewRegexpTokenType 7 (.star (.lit 120))

/-- The default rules followed by the additional rule, over the input a. -/
def extraLexer : Lexer := { NewLexer [[97]] with TokenTypes := DefaultTokenTypes ++ [extraRule] }

/-- A lexer whose whitespace matcher lists the empty pattern. -/
def emptyWsLexer : Lexer :=
  { NewLexer [[97]] with Whitespace := some (.Pattern (-1) [[32], []]) }

/-- The pattern rules abc and zz over a stream that delivers a, b, c in three reads. -/
def abcSlowLexer : Lexer :=
  { NewLexer [[97], [98], [99]] with
    TokenTypes := [.Pattern 1 [[97, 98, 99]], .Pattern 2 [[122, 122]]] }

/-- A lexer whose one rule is the pattern of a single space, over a stream
whose first read delivers nothing and whose second delivers a space and x. -/
def lateSpaceLexer : Lexer :=
  { NewLexer [[], [32, 120]] with TokenTypes := [.Pattern 5 [[32]]] }

/-- A lexer whose buffer holds two @ signs and 34, all input read, with the
pattern rules 3 and 4. -/
def spanPatternLexer : Lexer :=
  { NewLexer [] with buf := [64, 64, 51, 52], TokenTypes := [.Pattern 1 [[51], [52]]] }

/-- A rule that is a Pattern matcher or a regular expression anchored at the
beginning of the text. -/
def AnchoredRule (tt : TokenType) : Prop :=
  (∃ id ps, tt = .Pattern id ps) ∨ (∃ id re, tt = .Regexp id (.cat .beginText re))

/-- The line that contains the cursor, in the words of the specification: the
text after the last line terminator before the cursor, followed by the text
after the cursor up to, not including, the next line terminator. -/
def currentLine (before after : Str) : Str :=
  textAfterLastTerminator before ++ after.takeWhile (fun b => b != 10)

/-- A new lexer over a stream that delivers the line abcd in two reads, ab and then cd with its line feed. -/
def splitLineLexer : Lexer := NewLexer [[97, 98], [99, 100, 10]]

/-- A lexer whose one rule is built from the pattern ^a|b, over the input xb. -/
def caretLexer : Lexer := { NewLexer [[120, 98]] with TokenTypes := [caretAltRule] }

/-- The stream after k reads into an array of 2048 bytes. -/
def readerAfter : Nat → Reader → Reader
  | 0, r => r
  | k + 1, r => readerAfter k (Read r 2048).2

/-- No read of the stream is idle: every read made before the stream is at its
end delivers at least one byte that readBufIfNeed keeps, that is a byte other
than the zero bytes it trims off the end. -/
def Live (r : Reader) : Prop :=
  ∀ k, readerAfter k r ≠ [] → TrimRight (Read (readerAfter k r) 2048).1 0 ≠ []

/-- A lexer without any rule over the input space, x. -/
def noRuleLexer : Lexer := { NewLexer [[32, 120]] with TokenTypes := [] }

/-- Every read of the stream is kept whole by the refill: none ends in a zero
byte, which readBufIfNeed would trim off. -/
def Faithful (r : Reader) : Prop :=
  ∀ k, TrimRight (Read (readerAfter k r) 2048).1 0 = (Read (readerAfter k r) 2048).1

/-- The conservation invariant of a scan: the configuration is fixed, no read
of the stream ends in a zero byte, and the consumed literals, the buffer and
the unread stream make up the input. -/
def Conserves (W : Option TokenType) (R : List TokenType) (I : Str) (x : Lexer) : Prop :=
  x.Whitespace = W ∧ x.TokenTypes = R ∧ Faithful x.reader ∧
  x.consumed.flatten ++ x.buf ++ x.reader.flatten = I

/-- Whether every match of an expression takes at least one character, read
off its syntax. -/
def Regexp.consumes : Regexp → Bool
  | .lit _ | .cls _ _ | .anyNotNL => true
  | .cat a b => a.consumes || b.consumes
  | .alt a b => a.consumes && b.consumes
  | .plus a | .group _ a | .ncgroup a => a.consumes
  | _ => false

/-- The states a lexer reaches from a state by calls of Peek, Scan and
GetLastLine, each with any fuel. -/
inductive Reaches (l0 : Lexer) : Lexer → Prop
  | start : Reaches l0 l0
  | peek (fuel : Nat) (l l2 : Lexer) (r : Result) :
      Reaches l0 l → Peek fuel l = some (l2, r) → Reaches l0 l2
  | scan (fuel : Nat) (l l2 : Lexer) (r : Result) :
      Reaches l0 l → Scan fuel l = some (l2, r) → Reaches l0 l2
  | line (l : Lexer) : Reaches l0 l → Reaches l0 (GetLastLine l).1

/-- The state of letterLexer once a has been scanned. -/
def letterLexer1 : Lexer :=
  { NewLexer [] with
    buf := [98, 10, 99, 100], loadedLine := [97], nextPos := ⟨0, 1⟩,
    consumed := [[97]], TokenTypes := [letterRule] }

/-- The state of letterLexer once a and b have been scanned. -/
def letterLexer2 : Lexer :=
  { NewLexer [] with
    buf := [10, 99, 100], loadedLine := [97, 98], nextPos := ⟨0, 2⟩,
    consumed := [[97], [98]], TokenTypes := [letterRule] }

/-- A lexer whose one rule is built from the pattern ^a|b, over the input xb and a line feed. -/
def caretLineLexer : Lexer := { NewLexer [[120, 98, 10]] with TokenTypes := [caretAltRule] }

/-- Go utf8.AppendRune for a valid rune: its UTF-8 encoding. -/
def EncodeRune (r : Nat) : Str :=
  if r < 0x80 then [r]
  else if r < 0x800 then [0xC0 + r / 64, 0x80 + r % 64]
  else if r < 0x10000 then [0xE0 + r / 4096, 0x80 + r / 64 % 64, 0x80 + r % 64]
  else [0xF0 + r / 262144, 0x80 + r / 4096 % 64, 0x80 + r / 64 % 64, 0x80 + r % 64]

/-- A valid rune: a code point up to U+10FFFF that is not a surrogate. -/
def validRune (v : Nat) : Bool := v < 0xD800 || (0xDFFF < v && v ≤ 0x10FFFF)

/-- The value of a hexadecimal digit. -/
def unhex (c : Nat) : Option Nat :=
  if 48 ≤ c ∧ c ≤ 57 then some (c - 48)
  else if 97 ≤ c ∧ c ≤ 102 then some (c - 87)
  else if 65 ≤ c ∧ c ≤ 70 then some (c - 55)
  else none

/-- The number a string of hexadecimal digits denotes. -/
def hexValue (ds : Str) : Option Nat :=
  ds.foldl (fun acc d => acc.bind (fun a => (unhex d).map (fun v => 16 * a + v))) (some 0)

/-- The k hexadecimal digits of an escape: their value and the text after them. -/
def hexEscape (k : Nat) (s : Str) : Option (Nat × Str) :=
  if k ≤ s.length then (hexValue (s.take k)).map (fun v => (v, s.drop k)) else none

/-- The byte a one-letter escape of a string literal stands for:
\a \b \f \n \r \t \v, the backslash and the double quote. -/
def unescape (e : Nat) : Option Nat :=
  if e == 97 then some 7
  else if e == 98 then some 8
  else if e == 102 then some 12
  else if e == 110 then some 10
  else if e == 114 then some 13
  else if e == 116 then some 9
  else if e == 118 then some 11
  else if e == 92 then some 92
  else if e == 34 then some 34
  else none

/-- The text that the characters between the quotes of an interpreted string
literal of Go denote: a backslash starts an escape, \xhh stands for one byte,
\uhhhh and \Uhhhhhhhh for the UTF-8 encoding of a valid rune; a double quote
or a line feed that is not escaped is not allowed, any other byte stands for
itself. The first argument bounds the number of steps. -/
def unquoteBody : Nat → Str → Option Str
  | _, [] => some []
  | 0, _ :: _ => none
  | n + 1, c :: s =>
    if c == 92 then
      match s with
      | [] => none
      | e :: s1 =>
        if e == 120 then
          (hexEscape 2 s1).bind (fun vs => (unquoteBody n vs.2).map (fun r => vs.1 :: r))
        else if e == 117 then
          (hexEscape 4 s1).bind (fun vs =>
            if validRune vs.1 then (unquoteBody n vs.2).map (fun r => EncodeRune vs.1 ++ r)
            else none)
        else if e == 85 then
          (hexEscape 8 s1).bind (fun vs =>
            if validRune vs.1 then (unquoteBody n vs.2).map (fun r => EncodeRune vs.1 ++ r)
            else none)
        else (unescape e).bind (fun v => (unquoteBody n s1).map (fun r => v :: r))
    else if c == 34 || c == 10 then none
    else (unquoteBody n s).map (fun r => c :: r)

/-- The text a double-quoted string literal denotes (what strconv.Unquote
reads back), none when the text is not such a literal. -/
def Unquote (s : Str) : Option Str :=
  match s with
  | 34 :: rest =>
    if rest.getLast? = some 34 then unquoteBody rest.length rest.dropLast else none
  | _ => none

/-- A valid sequence of w bytes at the head of s, all of them at least 0x80,
that encodes the rune r. -/
def EncodedBy (r w : Nat) (s : Str) : Prop :=
  2 ≤ w ∧ 0x80 ≤ r ∧ r ≤ 0x10FFFF ∧ validRune r = true ∧ EncodeRune r = s.take w ∧
    w ≤ s.length ∧ ∀ c ∈ s.take w, 0x80 ≤ c ∧ c < 256

/-- The characters out, between the quotes of a string literal, denote the
text s, whatever the bound on the number of steps, provided it is at least
their number. -/
def ReadsBack (out s : Str) : Prop := ∀ m, out.length ≤ m → unquoteBody m out = some s

/-! ## Lemmas on the library functions -/

theorem HasPrefix_iff (s x : Str) : HasPrefix s x = true ↔ x <+: s := by
  induction x generalizing s with
  | nil => simp [HasPrefix]
  | cons b x ih =>
    cases s with
    | nil => simp [HasPrefix]
    | cons a s =>
      simp only [HasPrefix, Bool.and_eq_true, beq_iff_eq, ih, List.cons_prefix_cons]
      constructor
      · rintro ⟨h1, h2⟩; exact ⟨h1.symm, h2⟩
      · rintro ⟨h1, h2⟩; exact ⟨h1.symm, h2⟩

theorem LastIndex_none (s : Str) (c : Nat) : LastIndex s c = none ↔ c ∉ s := by
  induction s with
  | nil => simp [LastIndex]
  | cons b s ih =>
    simp only [LastIndex, List.mem_cons, not_or]
    cases h : LastIndex s c with
    | some i =>
      have : ¬ (c ∉ s) := fun hc => by rw [ih.mpr hc] at h; cases h
      simp [this]
    | none =>
      have hc := ih.mp h
      by_cases hb : b = c
      · simp [hb]
      · simp [hb, hc, Ne.symm hb]

theorem LastIndex_some (s : Str) (c i : Nat) (h : LastIndex s c = some i) :
    ∃ pre post, s = pre ++ c :: post ∧ c ∉ post ∧ i = pre.length := by
  induction s generalizing i with
  | nil => simp [LastIndex] at h
  | cons b s ih =>
    simp only [LastIndex] at h
    cases hs : LastIndex s c with
    | some j =>
      rw [hs] at h
      obtain ⟨pre, post, h1, h2, h3⟩ := ih j hs
      refine ⟨b :: pre, post, by simp [h1], h2, ?_⟩
      simp at h
      simp [← h, h3]
    | none =>
      rw [hs] at h
      by_cases hb : b = c
      · simp [hb] at h
        exact ⟨[], s, by simp [hb], (LastIndex_none s c).mp hs, by simp [← h]⟩
      · simp [hb] at h

theorem textAfterLastTerminator_append (pre post : Str) (h : 10 ∉ post) :
    textAfterLastTerminator (pre ++ 10 :: post) = post := by
  unfold textAfterLastTerminator List.rtakeWhile
  have hp : ∀ x ∈ post.reverse, (fun b : Nat => b != 10) x = true := by
    intro x hx
    have : x ≠ 10 := fun e => h (by simpa [e] using hx)
    simpa using this
  simp only [List.reverse_append, List.reverse_cons, List.append_assoc]
  rw [List.takeWhile_append_of_pos hp]
  simp

/-- The slice the source takes after the last line feed is the text after the
last line terminator. -/
theorem LastIndex_drop (s : Str) (i : Nat) (h : LastIndex s 10 = some i) :
    s.drop (i + 1) = textAfterLastTerminator s ∧ 10 ∈ s := by
  obtain ⟨pre, post, h1, h2, h3⟩ := LastIndex_some s 10 i h
  subst h1 h3
  refine ⟨?_, by simp⟩
  rw [textAfterLastTerminator_append pre post h2]
  simp

theorem findPattern_none (s : Str) (patterns : List Str) :
    findPattern s patterns = none ↔ ∀ x ∈ patterns, ¬ x <+: s := by
  induction patterns with
  | nil => simp [findPattern]
  | cons x xs ih =>
    simp only [findPattern, List.mem_cons, forall_eq_or_imp]
    by_cases hx : HasPrefix s x = true
    · simp [hx, (HasPrefix_iff s x).mp hx]
    · have : ¬ x <+: s := fun h => hx ((HasPrefix_iff s x).mpr h)
      simp [hx, this, ih]

theorem findPattern_some (s : Str) (patterns : List Str) (x : Str)
    (h : findPattern s patterns = some x) :
    ∃ pre post, patterns = pre ++ x :: post ∧ x <+: s ∧ ∀ y ∈ pre, ¬ y <+: s := by
  induction patterns with
  | nil => simp [findPattern] at h
  | cons y ys ih =>
    simp only [findPattern] at h
    by_cases hy : HasPrefix s y = true
    · simp [hy] at h
      subst h
      exact ⟨[], ys, rfl, (HasPrefix_iff s y).mp hy, by simp⟩
    · simp [hy] at h
      obtain ⟨pre, post, h1, h2, h3⟩ := ih h
      refine ⟨y :: pre, post, by simp [h1], h2, ?_⟩
      intro z hz
      rcases List.mem_cons.mp hz with rfl | hz
      · exact fun hp => hy ((HasPrefix_iff s z).mpr hp)
      · exact h3 z hz

theorem dropWhile_zeros (n : Nat) (x : Str) :
    (List.replicate n 0 ++ x).dropWhile (fun b => b == 0) = x.dropWhile (fun b => b == 0) := by
  induction n with
  | zero => simp
  | succ n ih => simp [List.replicate_succ, List.dropWhile_cons, ih]

theorem TrimRight_append_zeros (c : Str) (n : Nat) :
    TrimRight (c ++ List.replicate n 0) 0 = TrimRight c 0 := by
  unfold TrimRight
  rw [List.reverse_append, List.reverse_replicate, dropWhile_zeros]

theorem TrimRight_nil : TrimRight [] 0 = [] := rfl

theorem readBufIfNeed_eq (l : Lexer) :
    readBufIfNeed l =
      if l.buf.length < 1024 then
        { l with reader := (Read l.reader 2048).2,
                 buf := l.buf ++ TrimRight (Read l.reader 2048).1 0 }
      else l := by
  unfold readBufIfNeed
  simp only [TrimRight_append_zeros]

theorem readBufIfNeed_settled (l : Lexer) (h : Settled l) : readBufIfNeed l = l := by
  rw [readBufIfNeed_eq]
  split
  · next hlt =>
    rcases h with h | h
    · cases l
      simp only at h
      subst h
      simp [Read, TrimRight_nil]
    · omega
  · rfl

theorem readBufIfNeed_config (l : Lexer) :
    (readBufIfNeed l).Whitespace = l.Whitespace ∧
    (readBufIfNeed l).TokenTypes = l.TokenTypes ∧
    (readBufIfNeed l).nextPos = l.nextPos ∧
    (readBufIfNeed l).loadedLine = l.loadedLine ∧
    (readBufIfNeed l).consumed = l.consumed := by
  rw [readBufIfNeed_eq]
  split <;> simp

theorem consumeBuffer_config (l : Lexer) (t : Option Token) :
    (consumeBuffer l t).Whitespace = l.Whitespace ∧
    (consumeBuffer l t).TokenTypes = l.TokenTypes ∧
    (consumeBuffer l t).reader = l.reader := by
  cases t <;> simp [consumeBuffer]

/-- What holds when the whitespace loop ends: the matcher does not match the
buffer, and the configuration is the one it started with. -/
theorem skipWhitespaceLoop_post (ws : TokenType) (fuel : Nat) (l l1 : Lexer)
    (h : skipWhitespaceLoop ws fuel l = some l1) :
    ws.FindToken l1.buf l1.nextPos = none ∧ 0 < fuel ∧
    l1.Whitespace = l.Whitespace ∧ l1.TokenTypes = l.TokenTypes := by
  induction fuel generalizing l with
  | zero => simp [skipWhitespaceLoop] at h
  | succ n ih =>
    simp only [skipWhitespaceLoop] at h
    cases hf : ws.FindToken (readBufIfNeed l).buf (readBufIfNeed l).nextPos with
    | none =>
      rw [hf] at h
      simp at h
      subst h
      exact ⟨hf, Nat.succ_pos n, (readBufIfNeed_config l).1, (readBufIfNeed_config l).2.1⟩
    | some t =>
      rw [hf] at h
      obtain ⟨h1, _, h3, h4⟩ := ih _ h
      refine ⟨h1, Nat.succ_pos n, ?_, ?_⟩
      · rw [h3, (consumeBuffer_config _ _).1, (readBufIfNeed_config l).1]
      · rw [h4, (consumeBuffer_config _ _).2.1, (readBufIfNeed_config l).2.1]

theorem skipWhitespace_config (fuel : Nat) (l l1 : Lexer) (h : skipWhitespace fuel l = some l1) :
    l1.Whitespace = l.Whitespace ∧ l1.TokenTypes = l.TokenTypes := by
  unfold skipWhitespace at h
  cases hw : l.Whitespace with
  | none => rw [hw] at h; simp at h; subst h; exact ⟨hw, rfl⟩
  | some ws =>
    rw [hw] at h
    simp only at h
    obtain ⟨_, _, h3, h4⟩ := skipWhitespaceLoop_post ws fuel l l1 h
    exact ⟨h3.trans hw, h4⟩

/-- On a settled buffer that whitespace skipping has left, skipping again
changes nothing. -/
theorem skipWhitespace_again (fuel : Nat) (l l1 : Lexer) (h : skipWhitespace fuel l = some l1)
    (hq : Settled l1) : skipWhitespace fuel l1 = some l1 := by
  have hc := skipWhitespace_config fuel l l1 h
  unfold skipWhitespace at h ⊢
  rw [hc.1]
  cases hw : l.Whitespace with
  | none => rfl
  | some ws =>
    rw [hw] at h
    simp only at h ⊢
    obtain ⟨h1, h2, _, _⟩ := skipWhitespaceLoop_post ws fuel l l1 h
    obtain ⟨n, rfl⟩ := Nat.exists_eq_succ_of_ne_zero (Nat.pos_iff_ne_zero.mp h2)
    simp [skipWhitespaceLoop, readBufIfNeed_settled l1 hq, h1]

/-- On a settled buffer that whitespace skipping has left, the rule loop of
Peek keeps the state and yields the first rule that matches. -/
theorem peekLoop_settled (fuel : Nat) (rules : List TokenType) (l1 : Lexer)
    (hs : skipWhitespace fuel l1 = some l1) (hq : Settled l1) :
    peekLoop fuel rules l1 = some (l1, firstMatch rules l1.buf l1.nextPos) := by
  induction rules with
  | nil => rfl
  | cons tt rest ih =>
    simp only [peekLoop, hs, readBufIfNeed_settled l1 hq, firstMatch, List.findSome?_cons]
    cases hf : tt.FindToken l1.buf l1.nextPos with
    | some t => rfl
    | none => simpa [firstMatch] using ih

/-- From any state: once whitespace skipping leaves a settled buffer, the rule
loop of Peek ends in that state with the first rule that matches. -/
theorem peekLoop_of_settled (fuel : Nat) (rules : List TokenType) (l l1 : Lexer)
    (hs : skipWhitespace fuel l = some l1) (hq : Settled l1) (hne : rules ≠ []) :
    peekLoop fuel rules l = some (l1, firstMatch rules l1.buf l1.nextPos) := by
  cases rules with
  | nil => exact absurd rfl hne
  | cons tt rest =>
    have h2 := peekLoop_settled fuel rest l1 (skipWhitespace_again fuel l l1 hs hq) hq
    simp only [peekLoop, hs, readBufIfNeed_settled l1 hq, firstMatch, List.findSome?_cons]
    cases hf : tt.FindToken l1.buf l1.nextPos with
    | some t => rfl
    | none => simpa [firstMatch] using h2

theorem FindToken_Typ (tt : TokenType) (s : Str) (p : Position) (t : Token)
    (h : tt.FindToken s p = some t) : t.Typ = tt ∧ t.Position = p := by
  cases tt with
  | Regexp id re =>
    simp only [TokenType.FindToken] at h
    split at h
    · simp at h; subst h; exact ⟨rfl, rfl⟩
    · simp at h
  | Pattern id ps =>
    simp only [TokenType.FindToken] at h
    split at h
    · simp at h; subst h; exact ⟨rfl, rfl⟩
    · simp at h

theorem firstMatch_some (rules : List TokenType) (s : Str) (p : Position) (t : Token)
    (h : firstMatch rules s p = some t) :
    ∃ pre tt post, rules = pre ++ tt :: post ∧ tt.FindToken s p = some t ∧
      ∀ r ∈ pre, r.FindToken s p = none := by
  induction rules with
  | nil => simp [firstMatch] at h
  | cons r rest ih =>
    simp only [firstMatch, List.findSome?_cons] at h
    cases hf : r.FindToken s p with
    | some t1 =>
      rw [hf] at h
      simp at h
      subst h
      exact ⟨[], r, rest, rfl, hf, by simp⟩
    | none =>
      rw [hf] at h
      obtain ⟨pre, tt, post, h1, h2, h3⟩ := ih h
      refine ⟨r :: pre, tt, post, by simp [h1], h2, ?_⟩
      intro x hx
      rcases List.mem_cons.mp hx with rfl | hx
      · exact hf
      · exact h3 x hx

theorem DecodeRune_cons (b : Nat) (s : Str) :
    1 ≤ (DecodeRune (b :: s)).2 ∧ ((DecodeRune (b :: s)).1 = 10 → b = 10) := by
  simp only [DecodeRune]
  repeat' split
  all_goals (constructor <;> intros <;> simp_all <;> omega)

theorem runeWidth_pos (s : Str) (h : s ≠ []) : 1 ≤ runeWidth s := by
  cases s with
  | nil => exact absurd rfl h
  | cons b s => exact (DecodeRune_cons b s).1

/-- The catch-all rule matches every text that does not begin with a line feed. -/
theorem OTHER_matches (b : Nat) (s : Str) (p : Position) (hb : b ≠ 10) :
    ∃ t, (NewRegexpTokenType OTHER .anyNotNL).FindToken (b :: s) p = some t := by
  have h1 : (DecodeRune (b :: s)).1 ≠ 10 := fun h => hb ((DecodeRune_cons b s).2 h)
  simp [NewRegexpTokenType, Regexp.startsWithCaret, TokenType.FindToken,
    Regexp.FindStringSubmatch, Regexp.search, Regexp.ends, stepRune, h1]

theorem DefaultWhitespace_none (b : Nat) (s : Str) (p : Position)
    (h : DefaultWhitespace.FindToken (b :: s) p = none) : b ≠ 10 := by
  intro hb
  subst hb
  simp [DefaultWhitespace, NewPatternTokenType, TokenType.FindToken, findPattern, HasPrefix] at h

/-- After whitespace skipping the whitespace matcher does not match the buffer. -/
theorem skipWhitespace_post (fuel : Nat) (l l1 : Lexer) (ws : TokenType)
    (hw : l.Whitespace = some ws) (h : skipWhitespace fuel l = some l1) :
    ws.FindToken l1.buf l1.nextPos = none := by
  unfold skipWhitespace at h
  rw [hw] at h
  exact (skipWhitespaceLoop_post ws fuel l l1 h).1

/-- Character starts do not fall inside a character. -/
theorem RuneStart_gap (s : Str) (n : Nat) :
    ∀ j k, RuneStart s j → RuneStart s k → j < k → k ≤ n → j + runeWidth (s.drop j) ≤ k := by
  induction n with
  | zero => intro j k _ _ h1 h2; omega
  | succ n ih =>
    intro j k hj hk hjk hkn
    cases hk with
    | zero => omega
    | step k0 hk0 hlt =>
      have hw : 1 ≤ runeWidth (s.drop k0) :=
        runeWidth_pos _ (by simpa using hlt)
      rcases Nat.lt_trichotomy j k0 with h | h | h
      · have := ih j k0 hj hk0 h (by omega)
        omega
      · subst h; exact le_refl _
      · have := ih k0 j hk0 hj h (by omega)
        omega

theorem RuneStart_ascii (s : Str) (h : ∀ b ∈ s, b < 128) :
    ∀ k, k ≤ s.length → RuneStart s k := by
  intro k
  induction k with
  | zero => intro _; exact RuneStart.zero
  | succ k ih =>
    intro hk
    have hlt : k < s.length := by omega
    have h1 := RuneStart.step k (ih (by omega)) hlt
    have h2 : runeWidth (s.drop k) = 1 := by
      rw [List.drop_eq_getElem_cons hlt]
      have hb : s[k] < 128 := h _ (List.getElem_mem hlt)
      simp [runeWidth, DecodeRune, hb]
    rwa [h2] at h1

/-- The loop of makeError, from a character start on, stops at the first
character start at which the whitespace matcher or a rule matches. -/
theorem makeErrorFrom_spec (l : Lexer) (n : Nat) :
    ∀ shift, RuneStart l.buf shift → l.buf.length ≤ n + shift →
      (∀ j, RuneStart l.buf j → j < shift → matchesAt l (l.buf.drop j) = false) →
      (makeErrorFrom l n shift).Position = l.nextPos ∧
      ((∃ k, RuneStart l.buf k ∧ k < l.buf.length ∧ matchesAt l (l.buf.drop k) = true ∧
          (∀ j, RuneStart l.buf j → j < k → matchesAt l (l.buf.drop j) = false) ∧
          (makeErrorFrom l n shift).Literal = l.buf.take k) ∨
       ((∀ j, RuneStart l.buf j → j < l.buf.length → matchesAt l (l.buf.drop j) = false) ∧
          (makeErrorFrom l n shift).Literal = l.buf)) := by
  induction n with
  | zero =>
    intro shift _ h2 h3
    exact ⟨rfl, Or.inr ⟨fun j hj hlt => h3 j hj (by omega), rfl⟩⟩
  | succ n ih =>
    intro shift h1 h2 h3
    by_cases hlt : shift < l.buf.length
    · by_cases hm : matchesAt l (l.buf.drop shift) = true
      · have he : makeErrorFrom l (n + 1) shift =
            { Literal := l.buf.take shift, Position := l.nextPos } := by
          simp only [makeErrorFrom, if_pos hlt, if_pos hm]
        rw [he]
        exact ⟨rfl, Or.inl ⟨shift, h1, hlt, hm, h3, rfl⟩⟩
      · have he : makeErrorFrom l (n + 1) shift =
            makeErrorFrom l n (shift + runeWidth (l.buf.drop shift)) := by
          simp only [makeErrorFrom, if_pos hlt, if_neg hm]
        rw [he]
        have hw : 1 ≤ runeWidth (l.buf.drop shift) := runeWidth_pos _ (by simpa using hlt)
        refine ih _ (RuneStart.step shift h1 hlt) (by omega) ?_
        intro j hj hjlt
        rcases Nat.lt_trichotomy j shift with h | h | h
        · exact h3 j hj h
        · subst h; simpa using hm
        · have := RuneStart_gap l.buf j shift j h1 hj h (le_refl _)
          omega
    · have he : makeErrorFrom l (n + 1) shift =
          { Literal := l.buf, Position := l.nextPos } := by
        simp only [makeErrorFrom, if_neg hlt]
      rw [he]
      exact ⟨rfl, Or.inr ⟨fun j hj hj2 => h3 j hj (by omega), rfl⟩⟩

/-- An error of Peek is the error makeError builds in the state Peek leaves,
whose buffer is not empty. -/
theorem Peek_error (fuel : Nat) (l l2 : Lexer) (err : UnknownTokenError)
    (hp : Peek fuel l = some (l2, none, some err)) :
    err = makeError l2 ∧ 0 < l2.buf.length := by
  unfold Peek at hp
  split at hp
  · simp at hp
  · simp at hp
  · split at hp
    · next hlen =>
      simp only [Option.some.injEq, Prod.mk.injEq] at hp
      obtain ⟨h1, _, h3⟩ := hp
      subst h1
      exact ⟨h3.symm, hlen⟩
    · simp at hp

theorem skipWhitespaceLoop_inv (P : Lexer → Prop) (ws : TokenType)
    (hread : ∀ l, P l → P (readBufIfNeed l))
    (hcons : ∀ l t, l.Whitespace = some ws → ws.FindToken l.buf l.nextPos = some t → P l →
      P (consumeBuffer l (some t)))
    (fuel : Nat) (l l1 : Lexer) (hw : l.Whitespace = some ws) (hP : P l)
    (h : skipWhitespaceLoop ws fuel l = some l1) :
    ∃ l0, P l0 ∧ l1 = readBufIfNeed l0 := by
  induction fuel generalizing l with
  | zero => simp [skipWhitespaceLoop] at h
  | succ n ih =>
    simp only [skipWhitespaceLoop] at h
    cases hf : ws.FindToken (readBufIfNeed l).buf (readBufIfNeed l).nextPos with
    | none =>
      rw [hf] at h
      simp at h
      exact ⟨l, hP, h.symm⟩
    | some t =>
      rw [hf] at h
      have hw1 : (readBufIfNeed l).Whitespace = some ws := by
        rw [(readBufIfNeed_config l).1]; exact hw
      refine ih _ ?_ (hcons _ t hw1 hf (hread l hP)) h
      rw [(consumeBuffer_config _ _).1]; exact hw1

theorem skipWhitespace_inv (P : Lexer → Prop)
    (hread : ∀ l, P l → P (readBufIfNeed l))
    (hcons : ∀ l ws t, l.Whitespace = some ws → ws.FindToken l.buf l.nextPos = some t → P l →
      P (consumeBuffer l (some t)))
    (fuel : Nat) (l l1 : Lexer) (hP : P l) (h : skipWhitespace fuel l = some l1) : P l1 := by
  unfold skipWhitespace at h
  cases hw : l.Whitespace with
  | none => rw [hw] at h; simp at h; subst h; exact hP
  | some ws =>
    rw [hw] at h
    obtain ⟨l0, h0, rfl⟩ :=
      skipWhitespaceLoop_inv P ws hread (fun l t => hcons l ws t) fuel l l1 hw hP h
    exact hread l0 h0

/-- The state the rule loop of Peek leaves comes out of a refill, and a token
it returns is the token of a rule on the buffer it leaves. -/
theorem peekLoop_inv (P : Lexer → Prop)
    (hread : ∀ l, P l → P (readBufIfNeed l))
    (hcons : ∀ l ws t, l.Whitespace = some ws → ws.FindToken l.buf l.nextPos = some t → P l →
      P (consumeBuffer l (some t)))
    (fuel : Nat) (rules : List TokenType) (l l1 : Lexer) (r : Option Token) (hP : P l)
    (hne : rules ≠ []) (h : peekLoop fuel rules l = some (l1, r)) :
    (∃ l0, P l0 ∧ l1 = readBufIfNeed l0) ∧
    ∀ t, r = some t → ∃ tt ∈ rules, tt.FindToken l1.buf l1.nextPos = some t := by
  induction rules generalizing l with
  | nil => exact absurd rfl hne
  | cons tt rest ih =>
    simp only [peekLoop] at h
    cases hs : skipWhitespace fuel l with
    | none => rw [hs] at h; simp at h
    | some l' =>
      rw [hs] at h
      simp only at h
      have hP' := skipWhitespace_inv P hread hcons fuel l l' hP hs
      cases hf : tt.FindToken (readBufIfNeed l').buf (readBufIfNeed l').nextPos with
      | some t =>
        rw [hf] at h
        simp only [Option.some.injEq, Prod.mk.injEq] at h
        obtain ⟨h1, h2⟩ := h
        subst h1 h2
        refine ⟨⟨l', hP', rfl⟩, ?_⟩
        intro t' ht'
        simp only [Option.some.injEq] at ht'
        subst ht'
        exact ⟨tt, List.mem_cons_self _ _, hf⟩
      | none =>
        rw [hf] at h
        simp only at h
        cases rest with
        | nil =>
          simp only [peekLoop, Option.some.injEq, Prod.mk.injEq] at h
          obtain ⟨h1, h2⟩ := h
          subst h1 h2
          exact ⟨⟨l', hP', rfl⟩, fun t ht => by simp at ht⟩
        | cons tt2 rest2 =>
          obtain ⟨g1, g2⟩ := ih (readBufIfNeed l') (hread l' hP') (by simp) h
          refine ⟨g1, ?_⟩
          intro t ht
          obtain ⟨x, hx, hx2⟩ := g2 t ht
          exact ⟨x, List.mem_cons_of_mem _ hx, hx2⟩

theorem shiftPos_append (p : Position) (a b : Str) :
    shiftPos p (a ++ b) = shiftPos (shiftPos p a) b := by
  induction a generalizing p with
  | nil => rfl
  | cons c a ih =>
    simp only [List.cons_append, shiftPos]
    split <;> exact ih _

theorem textAfterLastTerminator_of_not_mem (s : Str) (h : 10 ∉ s) :
    textAfterLastTerminator s = s := by
  unfold textAfterLastTerminator List.rtakeWhile
  rw [List.takeWhile_eq_self_iff.mpr]
  · simp
  · intro x hx
    have : x ≠ 10 := fun e => h (by simpa [e] using hx)
    simpa using this

theorem textAfterLastTerminator_cons (c : Nat) (s : Str) (h : 10 ∈ s) :
    textAfterLastTerminator (c :: s) = textAfterLastTerminator s := by
  cases hi : LastIndex s 10 with
  | none => exact absurd h ((LastIndex_none s 10).mp hi)
  | some i =>
    obtain ⟨pre, post, h1, h2, _⟩ := LastIndex_some s 10 i hi
    subst h1
    rw [textAfterLastTerminator_append pre post h2]
    have := textAfterLastTerminator_append (c :: pre) post h2
    simpa using this

/-- The closed form of the advance: the line grows by the number of line
terminators, and the column counts the characters after the last one. -/
theorem shiftPos_eq (p : Position) (s : Str) :
    shiftPos p s =
      ⟨p.Line + List.count 10 s,
        if 10 ∈ s then ((textAfterLastTerminator s).length : Int) else p.Column + s.length⟩ := by
  induction s generalizing p with
  | nil => simp [shiftPos]
  | cons c s ih =>
    simp only [shiftPos]
    by_cases hc : c = 10
    · subst hc
      simp only [beq_self_eq_true, if_true, ih]
      by_cases hs : 10 ∈ s
      · simp [hs, textAfterLastTerminator_cons 10 s hs]; omega
      · have := textAfterLastTerminator_append [] s hs
        simp at this
        simp [hs, this]; omega
    · have hc' : (c == 10) = false := by simpa using hc
      simp only [hc', ih]
      by_cases hs : 10 ∈ s
      · simp [hs, textAfterLastTerminator_cons c s hs, List.count_cons, hc]
      · simp [hs, hc, List.count_cons, Ne.symm hc]; omega

/-- Unfolding of Peek once whitespace skipping leaves a settled buffer. -/
theorem Peek_of_settled (fuel : Nat) (l l1 : Lexer)
    (hs : skipWhitespace fuel l = some l1) (hq : Settled l1) (hne : l.TokenTypes ≠ []) :
    Peek fuel l = some (l1,
      match firstMatch l.TokenTypes l1.buf l1.nextPos with
      | some t => (some t, none)
      | none => if l1.buf.length > 0 then (none, some (makeError l1)) else (none, none)) := by
  unfold Peek
  rw [peekLoop_of_settled fuel l.TokenTypes l l1 hs hq hne]
  cases firstMatch l.TokenTypes l1.buf l1.nextPos with
  | some t => rfl
  | none =>
    simp only
    split <;> rfl

theorem Peek_no_rules (fuel : Nat) (l : Lexer) (hne : l.TokenTypes = []) :
    Peek fuel l = some (l, none,
      if l.buf.length > 0 then some (makeError l) else none) := by
  unfold Peek
  rw [hne]
  simp only [peekLoop]
  split <;> rfl

/-- Once whitespace skipping leaves a settled buffer, Peek returns a result and
Peek in the state it leaves returns the same result and the same state. -/
theorem Peek_twice (fuel : Nat) (l l1 : Lexer)
    (hs : skipWhitespace fuel l = some l1) (hq : Settled l1) :
    ∃ l2 r, Peek fuel l = some (l2, r) ∧ Peek fuel l2 = some (l2, r) := by
  by_cases hne : l.TokenTypes = []
  · exact ⟨l, _, Peek_no_rules fuel l hne, Peek_no_rules fuel l hne⟩
  · have hc := skipWhitespace_config fuel l l1 hs
    have hne1 : l1.TokenTypes ≠ [] := by rw [hc.2]; exact hne
    refine ⟨l1, _, Peek_of_settled fuel l l1 hs hq hne, ?_⟩
    rw [Peek_of_settled fuel l1 l1 (skipWhitespace_again fuel l l1 hs hq) hq hne1, hc.2]

theorem Scan_token (fuel : Nat) (l l2 : Lexer) (t : Token) (e : Option UnknownTokenError)
    (hs : Scan fuel l = some (l2, some t, e)) :
    ∃ l1, Peek fuel l = some (l1, some t, e) ∧ l2 = consumeBuffer l1 (some t) := by
  unfold Scan at hs
  cases h : Peek fuel l with
  | none => rw [h] at hs; simp at hs
  | some r =>
    obtain ⟨l1, t1, e1⟩ := r
    rw [h] at hs
    simp only [Option.some.injEq, Prod.mk.injEq] at hs
    obtain ⟨h1, h2, h3⟩ := hs
    subst h2 h3
    exact ⟨l1, rfl, h1.symm⟩

theorem Peek_token (fuel : Nat) (l l1 : Lexer) (t : Token) (e : Option UnknownTokenError)
    (hp : Peek fuel l = some (l1, some t, e)) :
    peekLoop fuel l.TokenTypes l = some (l1, some t) ∧ e = none ∧ l.TokenTypes ≠ [] := by
  have hne : l.TokenTypes ≠ [] := by
    intro h
    rw [Peek_no_rules fuel l h] at hp
    simp at hp
  unfold Peek at hp
  split at hp
  · simp at hp
  · next l' t' heq =>
    simp only [Option.some.injEq, Prod.mk.injEq] at hp
    obtain ⟨h1, h2, h3⟩ := hp
    subst h1 h2
    exact ⟨heq, h3.symm, hne⟩
  · split at hp <;> simp at hp

theorem PrefixMatcher_Pattern (id : TokenID) (patterns : List Str) :
    PrefixMatcher (.Pattern id patterns) := by
  intro s p t h
  simp only [TokenType.FindToken] at h
  cases hf : findPattern s patterns with
  | none => rw [hf] at h; simp at h
  | some x =>
    rw [hf] at h
    simp only [Option.some.injEq] at h
    subst h
    obtain ⟨_, _, _, h2, _⟩ := findPattern_some s patterns x hf
    exact h2

theorem search_anchored_pos (re : Regexp) (n : Nat) :
    ∀ pos s, 0 < pos → (Regexp.cat .beginText re).search n pos s = none := by
  induction n with
  | zero => intro pos s _; rfl
  | succ n ih =>
    intro pos s hpos
    have hne : pos ≠ 0 := by omega
    simp only [Regexp.search, Regexp.ends, hne, if_false, List.flatMap_nil]
    split
    · rfl
    · exact ih _ _ (by omega)

theorem search_anchored (re : Regexp) (n : Nat) (s : Str) (start : Nat) (t : Thread)
    (h : (Regexp.cat .beginText re).search n 0 s = some (start, t)) : start = 0 := by
  cases n with
  | zero => simp [Regexp.search] at h
  | succ n =>
    simp only [Regexp.search] at h
    split at h
    · simp only [Option.some.injEq, Prod.mk.injEq] at h
      exact h.1.symm
    · split at h
      · simp at h
      · next hs =>
        rw [search_anchored_pos re n _ _ (by have := runeWidth_pos s hs; omega)] at h
        simp at h

theorem PrefixMatcher_anchored (id : TokenID) (re : Regexp) :
    PrefixMatcher (.Regexp id (.cat .beginText re)) := by
  intro s p t h
  simp only [TokenType.FindToken, Regexp.FindStringSubmatch] at h
  cases hs : (Regexp.cat .beginText re).search (s.length + 1) 0 s with
  | none => rw [hs] at h; simp at h
  | some r =>
    obtain ⟨start, th⟩ := r
    rw [hs] at h
    have h0 := search_anchored re _ s start th hs
    subst h0
    simp only [Option.some.injEq] at h
    subst h
    simpa using List.take_prefix _ s

theorem PrefixMatcher_default : ∀ tt ∈ DefaultTokenTypes, PrefixMatcher tt := by
  intro tt htt
  simp only [DefaultTokenTypes, List.mem_cons, List.mem_singleton, List.not_mem_nil,
    or_false] at htt
  rcases htt with rfl | rfl | rfl | rfl <;> exact PrefixMatcher_anchored _ _

theorem TrimRight_of_not_mem (c : Str) (h : 0 ∉ c) : TrimRight c 0 = c := by
  unfold TrimRight
  cases hr : c.reverse with
  | nil => simp at hr; simp [hr]
  | cons b r =>
    have hb : b ≠ 0 := by
      intro e
      apply h
      have : b ∈ c.reverse := by rw [hr]; exact List.mem_cons_self _ _
      rw [← e]; simpa using this
    rw [List.dropWhile_cons_of_neg (by simpa using hb), ← hr, List.reverse_reverse]

theorem Peek_end (fuel : Nat) (l l1 : Lexer) (hp : Peek fuel l = some (l1, none, none)) :
    peekLoop fuel l.TokenTypes l = some (l1, none) ∧ l1.buf = [] := by
  unfold Peek at hp
  split at hp
  · simp at hp
  · simp at hp
  · next l' heq =>
    split at hp
    · simp at hp
    · next hlen =>
      simp only [Option.some.injEq, Prod.mk.injEq, and_true] at hp
      subst hp
      exact ⟨heq, by simpa using hlen⟩

theorem decimalValue_append (xs : Str) (d : Nat) :
    decimalValue (xs ++ [d]) = 10 * decimalValue xs + (d - 48) := by
  simp [decimalValue, List.foldl_append]

/-- The decimal rendering reads back as the number and holds digits only. -/
theorem decimalDigits_spec (f : Nat) :
    ∀ n, n < f → decimalValue (decimalDigits f n) = n ∧
      (∀ d ∈ decimalDigits f n, 48 ≤ d ∧ d ≤ 57) ∧ decimalDigits f n ≠ [] := by
  induction f with
  | zero => intro n h; omega
  | succ f ih =>
    intro n h
    simp only [decimalDigits]
    by_cases hn : n < 10
    · simp only [hn, if_true]
      refine ⟨by simp [decimalValue], ?_, by simp⟩
      intro d hd
      simp only [List.mem_singleton] at hd
      omega
    · simp only [hn, if_false]
      obtain ⟨h1, h2, _⟩ := ih (n / 10) (by omega)
      refine ⟨?_, ?_, by simp⟩
      · rw [decimalValue_append, h1]; omega
      · intro d hd
        rcases List.mem_append.mp hd with hd | hd
        · exact h2 d hd
        · simp only [List.mem_singleton] at hd
          omega

/-- Printable ASCII text without a double quote or a backslash is quoted as it stands. -/
theorem quoteBody_plain (wide : Nat → Bool) (s : Str) :
    ∀ n, s.length ≤ n → (∀ b ∈ s, 32 ≤ b ∧ b ≤ 126 ∧ b ≠ 34 ∧ b ≠ 92) →
      quoteBody wide n s = s := by
  induction s with
  | nil => intro n _ _; cases n <;> rfl
  | cons b s ih =>
    intro n hn h
    cases n with
    | zero => simp at hn
    | succ n =>
      obtain ⟨h1, h2, h3, h4⟩ := h b (List.mem_cons_self _ _)
      have hd : DecodeRune (b :: s) = (b, 1) := by
        simp only [DecodeRune]
        rw [if_pos (by omega)]
      have he : escapeRune wide b [b] = [b] := by
        have hp : IsPrint wide b = true := by
          simp only [IsPrint]
          rw [if_pos (by omega)]
          simp
          omega
        simp [escapeRune, h3, h4, hp]
      have hb : ¬ b = 0xFFFD := by omega
      simp only [quoteBody, hd, List.take_succ_cons, List.take_zero, List.drop_succ_cons,
        List.drop_zero, he]
      simp only [hb, beq_self_eq_true, Bool.true_and, beq_iff_eq, if_false]
      rw [ih n (by simpa using hn) (fun x hx => h x (List.mem_cons_of_mem _ hx))]
      rfl

theorem TrimRight_length (s : Str) (c : Nat) : (TrimRight s c).length ≤ s.length := by
  unfold TrimRight
  rw [List.length_reverse]
  have := (List.dropWhile_suffix (fun b => b == c) (l := s.reverse)).length_le
  simpa using this

theorem pending_read (l : Lexer) : pending (readBufIfNeed l) ≤ pending l := by
  rw [readBufIfNeed_eq]
  split
  · simp only [pending, List.length_append]
    cases hr : l.reader with
    | nil => simp [Read, TrimRight_nil]
    | cons c cs =>
      simp only [Read]
      split
      · have := TrimRight_length c 0
        simp only [List.map_cons, List.sum_cons]
        omega
      · have := TrimRight_length (c.take 2048) 0
        simp only [List.map_cons, List.sum_cons, List.length_take, List.length_drop] at this ⊢
        omega
  · exact le_refl _

/-- A whitespace matcher whose tokens are never empty and never longer than
the text makes the whitespace loop end within as many iterations as there
are bytes to consume, plus one. -/
theorem skipWhitespaceLoop_terminates (ws : TokenType)
    (hpos : ∀ s p t, ws.FindToken s p = some t → 0 < t.Literal.length ∧
      t.Literal.length ≤ s.length) (fuel : Nat) :
    ∀ l, pending l < fuel → ∃ l1, skipWhitespaceLoop ws fuel l = some l1 := by
  induction fuel with
  | zero => intro l h; omega
  | succ n ih =>
    intro l h
    simp only [skipWhitespaceLoop]
    cases hf : ws.FindToken (readBufIfNeed l).buf (readBufIfNeed l).nextPos with
    | none => exact ⟨_, rfl⟩
    | some t =>
      simp only
      apply ih
      obtain ⟨h1, h2⟩ := hpos _ _ t hf
      have h3 := pending_read l
      unfold pending at h h3 ⊢
      simp only [consumeBuffer, List.length_drop]
      omega

theorem DefaultWhitespace_pos (s : Str) (p : Position) (t : Token)
    (h : DefaultWhitespace.FindToken s p = some t) :
    0 < t.Literal.length ∧ t.Literal.length ≤ s.length := by
  simp only [DefaultWhitespace, NewPatternTokenType, TokenType.FindToken] at h
  cases hf : findPattern s [[32], [9], [13], [10]] with
  | none => rw [hf] at h; simp at h
  | some x =>
    rw [hf] at h
    simp only [Option.some.injEq] at h
    subst h
    obtain ⟨pre, post, h1, h2, _⟩ := findPattern_some s _ x hf
    have hx : x ∈ [[32], [9], [13], [10]] := by rw [h1]; simp
    have hl := h2.length_le
    simp only [List.mem_cons, List.mem_singleton, List.not_mem_nil, or_false] at hx
    rcases hx with rfl | rfl | rfl | rfl <;> simp at hl ⊢ <;> omega

theorem Itoa_neg (n : Int) (h : n < 0) : Itoa n = 45 :: Itoa (-n) := by
  have h2 : ¬ (-n < 0) := by omega
  simp only [Itoa, h, h2, if_true, if_false, Int.natAbs_neg]

theorem firstMatch_append_some (r1 r2 : List TokenType) (s : Str) (p : Position) (t : Token)
    (h : firstMatch r1 s p = some t) : firstMatch (r1 ++ r2) s p = some t := by
  simp only [firstMatch, List.findSome?_append] at h ⊢
  rw [h]
  rfl

/-- On a buffer that does not begin with a line feed the default rules yield a token. -/
theorem firstMatch_default (b : Nat) (s : Str) (p : Position) (hb : b ≠ 10) :
    ∃ t, firstMatch DefaultTokenTypes (b :: s) p = some t := by
  cases hf : firstMatch DefaultTokenTypes (b :: s) p with
  | some t => exact ⟨t, rfl⟩
  | none =>
    exfalso
    obtain ⟨t, h2⟩ := OTHER_matches b s p hb
    simp only [firstMatch, List.findSome?_eq_none_iff] at hf
    have h3 := hf (NewRegexpTokenType OTHER .anyNotNL) (by simp [DefaultTokenTypes])
    rw [h2] at h3
    cases h3

theorem Pattern_pos (id : TokenID) (ps : List Str) (h : [] ∉ ps) (s : Str) (p : Position)
    (t : Token) (hf : (TokenType.Pattern id ps).FindToken s p = some t) :
    0 < t.Literal.length ∧ t.Literal.length ≤ s.length := by
  simp only [TokenType.FindToken] at hf
  cases hx : findPattern s ps with
  | none => rw [hx] at hf; simp at hf
  | some x =>
    rw [hx] at hf
    simp only [Option.some.injEq] at hf
    subst hf
    obtain ⟨pre, post, h1, h2, _⟩ := findPattern_some s ps x hx
    have hmem : x ∈ ps := by rw [h1]; simp
    refine ⟨?_, h2.length_le⟩
    cases x with
    | nil => exact absurd hmem h
    | cons a b => simp

theorem Pattern_always (id : TokenID) (ps : List Str) (h : [] ∈ ps) (s : Str) (p : Position) :
    ∃ t, (TokenType.Pattern id ps).FindToken s p = some t := by
  cases hf : (TokenType.Pattern id ps).FindToken s p with
  | some t => exact ⟨t, rfl⟩
  | none =>
    simp only [TokenType.FindToken] at hf
    cases hx : findPattern s ps with
    | some x => rw [hx] at hf; simp at hf
    | none => exact absurd (List.nil_prefix) ((findPattern_none s ps).mp hx [] h)

/-- A whitespace matcher that always matches keeps the whitespace loop running for any fuel. -/
theorem skipWhitespaceLoop_diverges (ws : TokenType)
    (h : ∀ s p, ∃ t, ws.FindToken s p = some t) (fuel : Nat) :
    ∀ l, skipWhitespaceLoop ws fuel l = none := by
  induction fuel with
  | zero => intro l; rfl
  | succ n ih =>
    intro l
    obtain ⟨t, ht⟩ := h (readBufIfNeed l).buf (readBufIfNeed l).nextPos
    simp only [skipWhitespaceLoop, ht]
    exact ih _

/-- A whitespace matcher that returns an empty literal on a settled buffer
keeps the whitespace loop running for any fuel: nothing is removed and the
same match is found again. -/
theorem skipWhitespaceLoop_stuck (ws : TokenType) (t : Token) (ht : t.Literal = [])
    (fuel : Nat) :
    ∀ l, Settled l → ws.FindToken l.buf l.nextPos = some t →
      skipWhitespaceLoop ws fuel l = none := by
  induction fuel with
  | zero => intro l _ _; rfl
  | succ n ih =>
    intro l hq hf
    simp only [skipWhitespaceLoop, readBufIfNeed_settled l hq, hf]
    apply ih
    · cases hq with
      | inl h => exact Or.inl (by simp [consumeBuffer, h])
      | inr h => exact Or.inr (by simp [consumeBuffer, ht, h])
    · simp only [consumeBuffer, ht, List.length_nil, List.drop_zero, shiftPos]
      exact hf

theorem pending_consume (l : Lexer) (t : Option Token) :
    pending (consumeBuffer l t) ≤ pending l := by
  cases t with
  | none => exact le_refl _
  | some t =>
    unfold pending
    simp only [consumeBuffer, List.length_drop]
    omega

/-- With a whitespace matcher whose tokens are never empty, or none at all, the
rule loop of Peek returns when the fuel exceeds the bytes to consume. -/
theorem peekLoop_terminates (fuel : Nat) (rules : List TokenType) :
    ∀ l : Lexer,
      (∀ ws, l.Whitespace = some ws → ∀ s p t, ws.FindToken s p = some t →
        0 < t.Literal.length ∧ t.Literal.length ≤ s.length) →
      pending l < fuel → ∃ r, peekLoop fuel rules l = some r := by
  induction rules with
  | nil => intro l _ _; exact ⟨_, rfl⟩
  | cons tt rest ih =>
    intro l hpos hfuel
    have hsk : ∃ l1, skipWhitespace fuel l = some l1 := by
      unfold skipWhitespace
      cases hw : l.Whitespace with
      | none => exact ⟨l, rfl⟩
      | some ws => exact skipWhitespaceLoop_terminates ws (hpos ws hw) fuel l hfuel
    obtain ⟨l1, hl1⟩ := hsk
    have hP : pending l1 < fuel ∧ l1.Whitespace = l.Whitespace :=
      skipWhitespace_inv (fun x => pending x < fuel ∧ x.Whitespace = l.Whitespace)
        (fun x hx => ⟨lt_of_le_of_lt (pending_read x) hx.1,
          (readBufIfNeed_config x).1.trans hx.2⟩)
        (fun x _ t _ _ hx => ⟨lt_of_le_of_lt (pending_consume x (some t)) hx.1,
          (consumeBuffer_config x (some t)).1.trans hx.2⟩)
        fuel l l1 ⟨hfuel, rfl⟩ hl1
    simp only [peekLoop, hl1]
    cases hf : tt.FindToken (readBufIfNeed l1).buf (readBufIfNeed l1).nextPos with
    | some t => exact ⟨_, rfl⟩
    | none =>
      apply ih
      · intro ws hw
        rw [(readBufIfNeed_config l1).1, hP.2] at hw
        exact hpos ws hw
      · exact lt_of_le_of_lt (pending_read l1) hP.1

theorem PrefixMatcher_of_anchored (tt : TokenType) (h : AnchoredRule tt) : PrefixMatcher tt := by
  rcases h with ⟨id, ps, rfl⟩ | ⟨id, re, rfl⟩
  · exact PrefixMatcher_Pattern id ps
  · exact PrefixMatcher_anchored id re

theorem makeError_begins (l : Lexer) :
    (makeError l).Literal <+: l.buf ∧ (makeError l).Position = l.nextPos := by
  have h := makeErrorFrom_spec l l.buf.length 0 RuneStart.zero (by omega)
    (fun j _ hj => absurd hj (Nat.not_lt_zero j))
  refine ⟨?_, h.1⟩
  rcases h.2 with ⟨k, _, _, _, _, hk⟩ | ⟨_, hk⟩
  · rw [show (makeError l).Literal = l.buf.take k from hk]
    exact List.take_prefix _ _
  · rw [show (makeError l).Literal = l.buf from hk]

theorem makeError_nonempty (l : Lexer) (hb : l.buf ≠ []) (h0 : matchesAt l l.buf = false) :
    (makeError l).Literal ≠ [] := by
  have h := makeErrorFrom_spec l l.buf.length 0 RuneStart.zero (by omega)
    (fun j _ hj => absurd hj (Nat.not_lt_zero j))
  rcases h.2 with ⟨k, _, hk1, hk2, _, hk⟩ | ⟨_, hk⟩
  · rw [show (makeError l).Literal = l.buf.take k from hk]
    have hk0 : k ≠ 0 := by
      intro e
      subst e
      simp only [List.drop_zero] at hk2
      rw [h0] at hk2
      cases hk2
    intro e
    have := congrArg List.length e
    simp only [List.length_take, List.length_nil] at this
    omega
  · rw [show (makeError l).Literal = l.buf from hk]
    exact hb

/-- When neither the whitespace matcher nor a rule matches the buffer, nothing matches at offset 0. -/
theorem matchesAt_false (l : Lexer)
    (hws : ∀ ws, l.Whitespace = some ws → ws.FindToken l.buf l.nextPos = none)
    (hr : firstMatch l.TokenTypes l.buf l.nextPos = none) : matchesAt l l.buf = false := by
  simp only [firstMatch, List.findSome?_eq_none_iff] at hr
  simp only [matchesAt, Bool.or_eq_false_iff, List.any_eq_false]
  constructor
  · cases hw : l.Whitespace with
    | none => rfl
    | some ws => simp [hws ws hw]
  · intro tt htt
    simp [hr tt htt]

theorem DefaultWhitespace_chars (b : Nat) (s : Str) (p : Position)
    (h : DefaultWhitespace.FindToken (b :: s) p = none) :
    b ≠ 32 ∧ b ≠ 9 ∧ b ≠ 13 ∧ b ≠ 10 := by
  refine ⟨?_, ?_, ?_, ?_⟩ <;>
  · intro hb
    subst hb
    simp [DefaultWhitespace, NewPatternTokenType, TokenType.FindToken, findPattern,
      HasPrefix] at h

theorem Index_none (s : Str) (c : Nat) (h : Index s c = none) :
    s.takeWhile (fun b => b != c) = s := by
  induction s with
  | nil => rfl
  | cons b s ih =>
    simp only [Index] at h
    by_cases hb : b = c
    · simp [hb] at h
    · have hb' : (b == c) = false := by simpa using hb
      simp only [hb', Bool.false_eq_true, if_false, Option.map_eq_none'] at h
      simp [List.takeWhile_cons, hb, ih h]

theorem Index_some (s : Str) (c i : Nat) (h : Index s c = some i) :
    s.take i = s.takeWhile (fun b => b != c) ∧ c ∈ s := by
  induction s generalizing i with
  | nil => simp [Index] at h
  | cons b s ih =>
    simp only [Index] at h
    by_cases hb : b = c
    · simp only [hb, beq_self_eq_true, if_true, Option.some.injEq] at h
      subst h
      simp [List.takeWhile_cons, hb]
    · have hb' : (b == c) = false := by simpa using hb
      simp only [hb', Bool.false_eq_true, if_false, Option.map_eq_some'] at h
      obtain ⟨j, hj, rfl⟩ := h
      obtain ⟨h1, h2⟩ := ih j hj
      simp [List.takeWhile_cons, hb, h1, h2]

theorem takeWhile_append_of_mem (a rest : Str) (h : 10 ∈ a) :
    (a ++ rest).takeWhile (fun b => b != 10) = a.takeWhile (fun b => b != 10) := by
  induction a with
  | nil => simp at h
  | cons b a ih =>
    by_cases hb : b = 10
    · simp [List.takeWhile_cons, hb]
    · have : 10 ∈ a := by
        rcases List.mem_cons.mp h with e | e
        · exact absurd e.symm hb
        · exact e
      simp [List.takeWhile_cons, hb, ih this]

theorem textAfterLastTerminator_append_mem (a b : Str) (h : 10 ∈ b) :
    textAfterLastTerminator (a ++ b) = textAfterLastTerminator b := by
  induction a with
  | nil => rfl
  | cons c a ih =>
    rw [List.cons_append, textAfterLastTerminator_cons c (a ++ b) (by simp [h]), ih]

theorem textAfterLastTerminator_append_not_mem (a b : Str) (h : 10 ∉ b) :
    textAfterLastTerminator (a ++ b) = textAfterLastTerminator a ++ b := by
  induction a with
  | nil =>
    rw [List.nil_append, textAfterLastTerminator_of_not_mem b h,
      textAfterLastTerminator_of_not_mem [] (by simp)]
    rfl
  | cons c a ih =>
    by_cases ha : 10 ∈ a
    · rw [List.cons_append, textAfterLastTerminator_cons c (a ++ b) (by simp [ha]), ih,
        textAfterLastTerminator_cons c a ha]
    · by_cases hc : c = 10
      · subst hc
        have h1 := textAfterLastTerminator_append [] (a ++ b) (by simp [ha, h])
        have h2 := textAfterLastTerminator_append [] a ha
        simp only [List.nil_append] at h1 h2
        rw [List.cons_append, h1, h2]
      · have hn1 : 10 ∉ c :: (a ++ b) := by simp [ha, h, Ne.symm hc]
        have hn2 : 10 ∉ c :: a := by simp [ha, Ne.symm hc]
        rw [List.cons_append, textAfterLastTerminator_of_not_mem _ hn1,
          textAfterLastTerminator_of_not_mem _ hn2]
        rfl

/-- The method consumeBuffer keeps loadedLine equal to the text consumed since the last line terminator. -/
theorem loadedLine_consume (x : Lexer) (t : Token)
    (h : x.loadedLine = textAfterLastTerminator x.consumed.flatten) :
    (consumeBuffer x (some t)).loadedLine =
      textAfterLastTerminator (consumeBuffer x (some t)).consumed.flatten := by
  simp only [consumeBuffer, List.flatten_append, List.flatten_cons, List.flatten_nil,
    List.append_nil]
  cases hi : LastIndex t.Literal 10 with
  | none =>
    have hn := (LastIndex_none t.Literal 10).mp hi
    simp only [textAfterLastTerminator_append_not_mem _ _ hn, h]
  | some i =>
    obtain ⟨h1, h2⟩ := LastIndex_drop t.Literal i hi
    simp only [textAfterLastTerminator_append_mem _ _ h2, h1]

theorem loadedLine_read (x : Lexer)
    (h : x.loadedLine = textAfterLastTerminator x.consumed.flatten) :
    (readBufIfNeed x).loadedLine =
      textAfterLastTerminator (readBufIfNeed x).consumed.flatten := by
  rw [(readBufIfNeed_config x).2.2.2.1, (readBufIfNeed_config x).2.2.2.2]
  exact h

theorem loadedLine_Peek (fuel : Nat) (l l2 : Lexer) (r : Result)
    (h : l.loadedLine = textAfterLastTerminator l.consumed.flatten)
    (hp : Peek fuel l = some (l2, r)) :
    l2.loadedLine = textAfterLastTerminator l2.consumed.flatten := by
  by_cases hne : l.TokenTypes = []
  · rw [Peek_no_rules fuel l hne] at hp
    simp only [Option.some.injEq, Prod.mk.injEq] at hp
    rw [← hp.1]
    exact h
  · unfold Peek at hp
    cases hl : peekLoop fuel l.TokenTypes l with
    | none => rw [hl] at hp; simp at hp
    | some q =>
      obtain ⟨l1, t⟩ := q
      obtain ⟨⟨l0, h0, hl1⟩, _⟩ :=
        peekLoop_inv (fun x => x.loadedLine = textAfterLastTerminator x.consumed.flatten)
          loadedLine_read (fun x _ t _ _ hx => loadedLine_consume x t hx)
          fuel l.TokenTypes l l1 t h hne hl
      have h1 : l1.loadedLine = textAfterLastTerminator l1.consumed.flatten := by
        rw [hl1]; exact loadedLine_read l0 h0
      rw [hl] at hp
      cases t with
      | some t =>
        simp only [Option.some.injEq, Prod.mk.injEq] at hp
        rw [← hp.1]; exact h1
      | none =>
        simp only at hp
        split at hp <;>
        · simp only [Option.some.injEq, Prod.mk.injEq] at hp
          rw [← hp.1]; exact h1

theorem Live_read (x : Lexer) (h : Live x.reader) : Live (readBufIfNeed x).reader := by
  rw [readBufIfNeed_eq]
  split
  · exact fun k => h (k + 1)
  · exact h

/-- Over a stream without idle reads, a refill that leaves the buffer empty
has found the stream at its end. -/
theorem Live_end (x : Lexer) (h : Live x.reader) (hb : (readBufIfNeed x).buf = []) :
    (readBufIfNeed x).reader = [] := by
  rw [readBufIfNeed_eq] at hb ⊢
  split at hb
  · next hlt =>
    simp only [hlt, if_true]
    simp only [List.append_eq_nil] at hb
    by_cases hr : x.reader = []
    · rw [hr]; rfl
    · exact absurd hb.2 (h 0 hr)
  · next hlt => rw [hb] at hlt; simp at hlt

/-- One read from a stream whose chunks are not empty and hold no zero byte. -/
theorem Read_chunks (r : Reader) (h : ∀ c ∈ r, 0 ∉ c ∧ c ≠ []) :
    (∀ c ∈ (Read r 2048).2, 0 ∉ c ∧ c ≠ []) ∧
    (r ≠ [] → TrimRight (Read r 2048).1 0 ≠ []) := by
  cases r with
  | nil => simp [Read]
  | cons c cs =>
    have hc := h c (List.mem_cons_self _ _)
    have hcs : ∀ d ∈ cs, 0 ∉ d ∧ d ≠ [] := fun d hd => h d (List.mem_cons_of_mem _ hd)
    simp only [Read]
    by_cases hle : c.length ≤ 2048
    · simp only [hle, if_true, TrimRight_of_not_mem c hc.1]
      exact ⟨hcs, fun _ => hc.2⟩
    · have ht : 0 ∉ c.take 2048 := fun hm => hc.1 (List.mem_of_mem_take hm)
      have hd : 0 ∉ c.drop 2048 := fun hm => hc.1 (List.mem_of_mem_drop hm)
      simp only [hle, if_false, TrimRight_of_not_mem _ ht]
      constructor
      · intro d hd'
        rcases List.mem_cons.mp hd' with rfl | hd'
        · refine ⟨hd, ?_⟩
          intro e
          have := congrArg List.length e
          simp at this
          omega
        · exact hcs d hd'
      · intro _ e
        have hl : (c.take 2048).length = 0 := by rw [e]; rfl
        rw [List.length_take] at hl
        omega

/-- A stream whose reads are not empty and hold no zero byte has no idle read. -/
theorem Live_of_chunks (r : Reader) (h : ∀ c ∈ r, 0 ∉ c ∧ c ≠ []) : Live r := by
  intro k
  induction k generalizing r with
  | zero => exact (Read_chunks r h).2
  | succ k ih => exact ih (Read r 2048).2 (Read_chunks r h).1

theorem DefaultWhitespace_first (b : Nat) (s : Str) (p : Position)
    (hb : b ≠ 32 ∧ b ≠ 9 ∧ b ≠ 13 ∧ b ≠ 10) :
    DefaultWhitespace.FindToken (b :: s) p = none := by
  obtain ⟨h1, h2, h3, h4⟩ := hb
  simp [DefaultWhitespace, NewPatternTokenType, TokenType.FindToken, findPattern, HasPrefix,
    h1, h2, h3, h4]

theorem readBufIfNeed_buf (x : Lexer) : x.buf <+: (readBufIfNeed x).buf := by
  rw [readBufIfNeed_eq]
  split
  · exact List.prefix_append _ _
  · exact List.prefix_refl _

/-- The last attempt of the rule loop of Peek: the state it leaves comes out
of whitespace skipping followed by a refill, and when no rule matched, the
last rule was tried on the buffer it leaves. -/
theorem peekLoop_last (P : Lexer → Prop)
    (hread : ∀ l, P l → P (readBufIfNeed l))
    (hcons : ∀ l ws t, l.Whitespace = some ws → ws.FindToken l.buf l.nextPos = some t → P l →
      P (consumeBuffer l (some t)))
    (fuel : Nat) (rules : List TokenType) (l l1 : Lexer) (r : Option Token) (hP : P l)
    (hne : rules ≠ []) (h : peekLoop fuel rules l = some (l1, r)) :
    ∃ la lb, P la ∧ skipWhitespace fuel la = some lb ∧ l1 = readBufIfNeed lb ∧
      (r = none → ∀ tt, rules.getLast? = some tt → tt.FindToken l1.buf l1.nextPos = none) := by
  induction rules generalizing l with
  | nil => exact absurd rfl hne
  | cons tt rest ih =>
    simp only [peekLoop] at h
    cases hs : skipWhitespace fuel l with
    | none => rw [hs] at h; simp at h
    | some l' =>
      rw [hs] at h
      simp only at h
      have hP' := skipWhitespace_inv P hread hcons fuel l l' hP hs
      cases hf : tt.FindToken (readBufIfNeed l').buf (readBufIfNeed l').nextPos with
      | some t =>
        rw [hf] at h
        simp only [Option.some.injEq, Prod.mk.injEq] at h
        obtain ⟨h1, h2⟩ := h
        subst h1 h2
        exact ⟨l, l', hP, hs, rfl, fun hr => by simp at hr⟩
      | none =>
        rw [hf] at h
        simp only at h
        cases rest with
        | nil =>
          simp only [peekLoop, Option.some.injEq, Prod.mk.injEq] at h
          obtain ⟨h1, h2⟩ := h
          subst h1 h2
          refine ⟨l, l', hP, hs, rfl, ?_⟩
          intro _ tt' htt'
          simp only [List.getLast?_singleton, Option.some.injEq] at htt'
          subst htt'
          exact hf
        | cons tt2 rest2 =>
          obtain ⟨la, lb, g1, g2, g3, g4⟩ := ih (readBufIfNeed l') (hread l' hP') (by simp) h
          refine ⟨la, lb, g1, g2, g3, ?_⟩
          intro hr tt' htt'
          rw [List.getLast?_cons_cons] at htt'
          exact g4 hr tt' htt'

/-- Over a stream without idle reads and with the default whitespace matcher,
the buffer the rule loop of Peek leaves does not begin with whitespace. -/
theorem peekLoop_live (fuel : Nat) (rules : List TokenType) (l l1 : Lexer) (r : Option Token)
    (hw : l.Whitespace = some DefaultWhitespace) (hlive : Live l.reader) (hne : rules ≠ [])
    (h : peekLoop fuel rules l = some (l1, r)) :
    DefaultWhitespace.FindToken l1.buf l1.nextPos = none ∧
    (r = none → ∀ tt, rules.getLast? = some tt → tt.FindToken l1.buf l1.nextPos = none) := by
  have hread : ∀ x : Lexer, x.Whitespace = some DefaultWhitespace ∧ Live x.reader →
      (readBufIfNeed x).Whitespace = some DefaultWhitespace ∧ Live (readBufIfNeed x).reader :=
    fun x hx => ⟨(readBufIfNeed_config x).1.trans hx.1, Live_read x hx.2⟩
  have hcons : ∀ (x : Lexer) (ws : TokenType) (t : Token), x.Whitespace = some ws →
      ws.FindToken x.buf x.nextPos = some t →
      x.Whitespace = some DefaultWhitespace ∧ Live x.reader →
      (consumeBuffer x (some t)).Whitespace = some DefaultWhitespace ∧
        Live (consumeBuffer x (some t)).reader :=
    fun x _ t _ _ hx => ⟨(consumeBuffer_config x (some t)).1.trans hx.1,
      by rw [(consumeBuffer_config x (some t)).2.2]; exact hx.2⟩
  obtain ⟨la, lb, hPa, hs, hl1, hlast⟩ :=
    peekLoop_last (fun x => x.Whitespace = some DefaultWhitespace ∧ Live x.reader)
      hread hcons fuel rules l l1 r ⟨hw, hlive⟩ hne h
  refine ⟨?_, hlast⟩
  have hpost := skipWhitespace_post fuel la lb _ hPa.1 hs
  have hsl : skipWhitespaceLoop DefaultWhitespace fuel la = some lb := by
    unfold skipWhitespace at hs
    rw [hPa.1] at hs
    exact hs
  obtain ⟨l0, hP0, hlb⟩ :=
    skipWhitespaceLoop_inv (fun x => x.Whitespace = some DefaultWhitespace ∧ Live x.reader)
      DefaultWhitespace hread (fun x t => hcons x DefaultWhitespace t) fuel la lb hPa.1 hPa hsl
  have hpos : l1.nextPos = lb.nextPos := by rw [hl1]; exact (readBufIfNeed_config lb).2.2.1
  cases hb : lb.buf with
  | nil =>
    have hrd : lb.reader = [] := by
      rw [hlb]
      apply Live_end l0 hP0.2
      rw [← hlb]
      exact hb
    have : l1 = lb := by rw [hl1]; exact readBufIfNeed_settled lb (Or.inl hrd)
    rw [this]
    exact hpost
  | cons b s =>
    rw [hb] at hpost
    have hch := DefaultWhitespace_chars b s _ hpost
    obtain ⟨more, hmore⟩ := readBufIfNeed_buf lb
    rw [hl1, ← hmore, hb]
    exact DefaultWhitespace_first b _ _ hch

/-- What Peek returns, in terms of its rule loop. -/
theorem Peek_cases (fuel : Nat) (l l2 : Lexer) (t : Option Token)
    (e : Option UnknownTokenError) (hp : Peek fuel l = some (l2, t, e)) :
    peekLoop fuel l.TokenTypes l = some (l2, t) ∧
    (e = none ∨ (t = none ∧ l2.buf ≠ [] ∧ e = some (makeError l2))) := by
  unfold Peek at hp
  split at hp
  · simp at hp
  · next l' t' heq =>
    simp only [Option.some.injEq, Prod.mk.injEq] at hp
    obtain ⟨h1, h2, h3⟩ := hp
    subst h1 h2 h3
    exact ⟨heq, Or.inl rfl⟩
  · next l' heq =>
    split at hp
    · next hlen =>
      simp only [Option.some.injEq, Prod.mk.injEq] at hp
      obtain ⟨h1, h2, h3⟩ := hp
      subst h1 h2 h3
      refine ⟨heq, Or.inr ⟨rfl, ?_, rfl⟩⟩
      intro hb
      rw [hb] at hlen
      simp at hlen
    · simp only [Option.some.injEq, Prod.mk.injEq] at hp
      obtain ⟨h1, h2, h3⟩ := hp
      subst h1 h2 h3
      exact ⟨heq, Or.inl rfl⟩

/-- What Peek keeps: the configuration, and the stream stays without idle
reads; the bytes to consume do not grow. -/
theorem Peek_keeps (fuel : Nat) (l l2 : Lexer) (r : Result) (hp : Peek fuel l = some (l2, r)) :
    l2.Whitespace = l.Whitespace ∧ l2.TokenTypes = l.TokenTypes ∧ pending l2 ≤ pending l ∧
    (Live l.reader → Live l2.reader) := by
  by_cases hne : l.TokenTypes = []
  · rw [Peek_no_rules fuel l hne] at hp
    simp only [Option.some.injEq, Prod.mk.injEq] at hp
    rw [← hp.1]
    exact ⟨rfl, rfl, le_refl _, id⟩
  · obtain ⟨t, e⟩ := r
    obtain ⟨hloop, _⟩ := Peek_cases fuel l l2 t e hp
    obtain ⟨⟨l0, h0, hl2⟩, _⟩ :=
      peekLoop_inv (fun x => x.Whitespace = l.Whitespace ∧ x.TokenTypes = l.TokenTypes ∧
          pending x ≤ pending l ∧ (Live l.reader → Live x.reader))
        (fun x hx => ⟨(readBufIfNeed_config x).1.trans hx.1,
          (readBufIfNeed_config x).2.1.trans hx.2.1, le_trans (pending_read x) hx.2.2.1,
          fun h => Live_read x (hx.2.2.2 h)⟩)
        (fun x _ t _ _ hx => ⟨(consumeBuffer_config x (some t)).1.trans hx.1,
          (consumeBuffer_config x (some t)).2.1.trans hx.2.1,
          le_trans (pending_consume x (some t)) hx.2.2.1,
          fun h => by rw [(consumeBuffer_config x (some t)).2.2]; exact hx.2.2.2 h⟩)
        fuel l.TokenTypes l l2 t ⟨rfl, rfl, le_refl _, id⟩ hne hloop
    rw [hl2]
    exact ⟨(readBufIfNeed_config l0).1.trans h0.1, (readBufIfNeed_config l0).2.1.trans h0.2.1,
      le_trans (pending_read l0) h0.2.2.1, fun h => Live_read l0 (h0.2.2.2 h)⟩

/-- With the default whitespace matcher and at least one rule, over a stream
without idle reads or once whitespace skipping leaves the buffer settled, the
buffer Peek leaves does not begin with whitespace, a token it returns is the
token of a rule on that buffer, and when it returns no token the last rule
does not match that buffer. -/
theorem Peek_clean (fuel : Nat) (l l2 : Lexer) (t : Option Token)
    (e : Option UnknownTokenError)
    (hw : l.Whitespace = some DefaultWhitespace) (hne : l.TokenTypes ≠ [])
    (hs : Live l.reader ∨ ∃ l1, skipWhitespace fuel l = some l1 ∧ Settled l1)
    (hp : Peek fuel l = some (l2, t, e)) :
    DefaultWhitespace.FindToken l2.buf l2.nextPos = none ∧
    (∀ tok, t = some tok → ∃ tt ∈ l.TokenTypes, tt.FindToken l2.buf l2.nextPos = some tok) ∧
    (t = none → ∀ tt, l.TokenTypes.getLast? = some tt →
      tt.FindToken l2.buf l2.nextPos = none) := by
  obtain ⟨hloop, _⟩ := Peek_cases fuel l l2 t e hp
  have htok := (peekLoop_inv (fun _ => True) (fun _ _ => trivial)
      (fun _ _ _ _ _ _ => trivial) fuel l.TokenTypes l l2 t trivial hne hloop).2
  rcases hs with hlive | ⟨l1, hsk, hq⟩
  · obtain ⟨g1, g2⟩ := peekLoop_live fuel l.TokenTypes l l2 t hw hlive hne hloop
    exact ⟨g1, htok, g2⟩
  · rw [peekLoop_of_settled fuel l.TokenTypes l l1 hsk hq hne] at hloop
    simp only [Option.some.injEq, Prod.mk.injEq] at hloop
    obtain ⟨h1, h2⟩ := hloop
    subst h1
    refine ⟨skipWhitespace_post fuel l l1 _ hw hsk, htok, ?_⟩
    intro hnone tt htt
    rw [hnone] at h2
    simp only [firstMatch, List.findSome?_eq_none_iff] at h2
    exact h2 tt (List.mem_of_getLast?_eq_some htt)

/-- With the default whitespace matcher Peek returns once the fuel exceeds the
bytes to consume. -/
theorem Peek_default_terminates (fuel : Nat) (l : Lexer)
    (hw : l.Whitespace = some DefaultWhitespace) (hfuel : pending l < fuel) :
    (∃ l1, skipWhitespace fuel l = some l1) ∧ ∃ l2 t e, Peek fuel l = some (l2, t, e) := by
  constructor
  · unfold skipWhitespace
    rw [hw]
    exact skipWhitespaceLoop_terminates DefaultWhitespace DefaultWhitespace_pos fuel l hfuel
  · have hpos : ∀ ws, l.Whitespace = some ws → ∀ s p t, ws.FindToken s p = some t →
        0 < t.Literal.length ∧ t.Literal.length ≤ s.length := by
      intro ws hws
      rw [hw] at hws
      simp only [Option.some.injEq] at hws
      subst hws
      exact DefaultWhitespace_pos
    obtain ⟨r, hr⟩ := peekLoop_terminates fuel l.TokenTypes l hpos hfuel
    unfold Peek
    rw [hr]
    obtain ⟨l1, t⟩ := r
    cases t with
    | some t => exact ⟨_, _, _, rfl⟩
    | none =>
      simp only
      split <;> exact ⟨_, _, _, rfl⟩

/-- With the default configuration, over a stream without idle reads or once
whitespace skipping leaves the buffer settled, Peek returns no error. -/
theorem Peek_default_no_error (fuel : Nat) (l l2 : Lexer) (t : Option Token)
    (e : Option UnknownTokenError)
    (hw : l.Whitespace = some DefaultWhitespace) (ht : l.TokenTypes = DefaultTokenTypes)
    (hs : Live l.reader ∨ ∃ l1, skipWhitespace fuel l = some l1 ∧ Settled l1)
    (hp : Peek fuel l = some (l2, t, e)) : e = none := by
  have hne : l.TokenTypes ≠ [] := by rw [ht]; simp [DefaultTokenTypes]
  obtain ⟨hwsn, _, hlast⟩ := Peek_clean fuel l l2 t e hw hne hs hp
  rcases (Peek_cases fuel l l2 t e hp).2 with he | ⟨htn, hb, _⟩
  · exact he
  · exfalso
    have hO := hlast htn (NewRegexpTokenType OTHER .anyNotNL) (by rw [ht]; rfl)
    cases hbuf : l2.buf with
    | nil => exact hb hbuf
    | cons b s =>
      rw [hbuf] at hwsn hO
      obtain ⟨tok, htok⟩ := OTHER_matches b s l2.nextPos (DefaultWhitespace_none b s _ hwsn)
      rw [htok] at hO
      cases hO

theorem Read_flatten (r : Reader) (n : Nat) :
    (Read r n).1 ++ (Read r n).2.flatten = r.flatten := by
  cases r with
  | nil => simp [Read]
  | cons c cs =>
    simp only [Read]
    split
    · simp
    · simp only [List.flatten_cons]
      rw [← List.append_assoc, List.take_append_drop]

/-- One read from a stream whose chunks hold no zero byte. -/
theorem Read_zero_free (r : Reader) (h : ∀ c ∈ r, 0 ∉ c) :
    (∀ c ∈ (Read r 2048).2, 0 ∉ c) ∧ 0 ∉ (Read r 2048).1 := by
  cases r with
  | nil => simp [Read]
  | cons c cs =>
    have hc := h c (List.mem_cons_self _ _)
    have hcs : ∀ d ∈ cs, 0 ∉ d := fun d hd => h d (List.mem_cons_of_mem _ hd)
    simp only [Read]
    split
    · exact ⟨hcs, hc⟩
    · refine ⟨?_, fun hm => hc (List.mem_of_mem_take hm)⟩
      intro d hd
      rcases List.mem_cons.mp hd with rfl | hd
      · exact fun hm => hc (List.mem_of_mem_drop hm)
      · exact hcs d hd

/-- A stream whose chunks hold no zero byte has every read kept whole. -/
theorem Faithful_of_chunks (r : Reader) (h : ∀ c ∈ r, 0 ∉ c) : Faithful r := by
  intro k
  induction k generalizing r with
  | zero => exact TrimRight_of_not_mem _ (Read_zero_free r h).2
  | succ k ih => exact ih (Read r 2048).2 (Read_zero_free r h).1

theorem Conserves_read (W : Option TokenType) (R : List TokenType) (I : Str) (x : Lexer)
    (h : Conserves W R I x) : Conserves W R I (readBufIfNeed x) := by
  obtain ⟨h1, h2, h3, h4⟩ := h
  rw [readBufIfNeed_eq]
  split
  · refine ⟨h1, h2, fun k => h3 (k + 1), ?_⟩
    have h0 : TrimRight (Read x.reader 2048).1 0 = (Read x.reader 2048).1 := h3 0
    simp only [h0]
    rw [← h4, List.append_assoc, List.append_assoc, List.append_assoc, Read_flatten]
  · exact ⟨h1, h2, h3, h4⟩

theorem Conserves_consume (W : Option TokenType) (R : List TokenType) (I : Str) (x : Lexer)
    (t : Token) (h : Conserves W R I x) (hp : t.Literal <+: x.buf) :
    Conserves W R I (consumeBuffer x (some t)) := by
  obtain ⟨h1, h2, h3, h4⟩ := h
  refine ⟨h1, h2, h3, ?_⟩
  obtain ⟨rest, hrest⟩ := hp
  have hd : x.buf.drop t.Literal.length = rest := by rw [← hrest]; simp
  rw [← h4]
  simp only [consumeBuffer, hd, List.flatten_append, List.flatten_cons, List.flatten_nil,
    List.append_nil, List.append_assoc]
  rw [← hrest, List.append_assoc]

/-- Scan keeps the conservation invariant when the whitespace matcher and the
rules only match at the beginning of the text. -/
theorem Scan_conserves (W : Option TokenType) (R : List TokenType) (I : Str)
    (hws : ∀ ws, W = some ws → PrefixMatcher ws) (hrules : ∀ tt ∈ R, PrefixMatcher tt)
    (fuel : Nat) (l l1 : Lexer) (r : Result)
    (hc : Conserves W R I l) (hs : Scan fuel l = some (l1, r)) : Conserves W R I l1 := by
  unfold Scan at hs
  cases hp : Peek fuel l with
  | none => rw [hp] at hs; simp at hs
  | some q =>
    obtain ⟨l2, t, e⟩ := q
    rw [hp] at hs
    simp only [Option.some.injEq, Prod.mk.injEq] at hs
    rw [← hs.1]
    by_cases hne : l.TokenTypes = []
    · rw [Peek_no_rules fuel l hne] at hp
      simp only [Option.some.injEq, Prod.mk.injEq] at hp
      obtain ⟨g1, g2, _⟩ := hp
      subst g1 g2
      exact hc
    · obtain ⟨hloop, _⟩ := Peek_cases fuel l l2 t e hp
      obtain ⟨⟨l0, h0, hl2⟩, htok⟩ :=
        peekLoop_inv (Conserves W R I) (Conserves_read W R I)
          (fun x ws tok hw hf hx => Conserves_consume W R I x tok hx
            (hws ws (by rw [← hx.1, hw]) _ _ tok hf))
          fuel l.TokenTypes l l2 t hc hne hloop
      have h2 : Conserves W R I l2 := by rw [hl2]; exact Conserves_read W R I l0 h0
      cases t with
      | none => exact h2
      | some tok =>
        obtain ⟨tt, htt, hf⟩ := htok tok rfl
        rw [hc.2.1] at htt
        exact Conserves_consume W R I l2 tok h2 (hrules tt htt _ _ tok hf)

/-- Over a stream without idle reads, a Scan that returns neither token nor
error leaves the buffer and the stream empty. -/
theorem Scan_end (fuel : Nat) (l l1 : Lexer) (hne : l.TokenTypes ≠ []) (hlive : Live l.reader)
    (hs : Scan fuel l = some (l1, none, none)) : l1.buf = [] ∧ l1.reader = [] := by
  unfold Scan at hs
  cases hp : Peek fuel l with
  | none => rw [hp] at hs; simp at hs
  | some q =>
    obtain ⟨l2, t, e⟩ := q
    rw [hp] at hs
    simp only [Option.some.injEq, Prod.mk.injEq] at hs
    obtain ⟨g1, g2, g3⟩ := hs
    subst g2 g3
    simp only [consumeBuffer] at g1
    subst g1
    obtain ⟨hloop, hbuf⟩ := Peek_end fuel l l2 hp
    obtain ⟨⟨l0, h0, hl2⟩, _⟩ :=
      peekLoop_inv (fun x => Live x.reader) Live_read
        (fun x _ tok _ _ hx => by
          show Live (consumeBuffer x (some tok)).reader
          rw [(consumeBuffer_config x (some tok)).2.2]
          exact hx)
        fuel l.TokenTypes l l2 none hlive hne hloop
    refine ⟨hbuf, ?_⟩
    rw [hl2]
    apply Live_end l0 h0
    rw [← hl2]
    exact hbuf

/-- Scan keeps the configuration and leaves the stream without idle reads. -/
theorem Scan_keeps (fuel : Nat) (l l1 : Lexer) (r : Result) (hs : Scan fuel l = some (l1, r)) :
    l1.Whitespace = l.Whitespace ∧ l1.TokenTypes = l.TokenTypes ∧ pending l1 ≤ pending l ∧
    (Live l.reader → Live l1.reader) := by
  unfold Scan at hs
  cases hp : Peek fuel l with
  | none => rw [hp] at hs; simp at hs
  | some q =>
    obtain ⟨l2, t, e⟩ := q
    rw [hp] at hs
    simp only [Option.some.injEq, Prod.mk.injEq] at hs
    rw [← hs.1]
    obtain ⟨k1, k2, k3, k4⟩ := Peek_keeps fuel l l2 (t, e) hp
    refine ⟨(consumeBuffer_config l2 t).1.trans k1, (consumeBuffer_config l2 t).2.1.trans k2,
      le_trans (pending_consume l2 t) k3, ?_⟩
    intro h
    rw [(consumeBuffer_config l2 t).2.2]
    exact k4 h

/-- The last call of a scan loop: it starts in a state that keeps every
invariant the calls that return a token keep, and it returns no token or an error. -/
theorem scanAll_last (Q : Lexer → Prop) (fuel : Nat)
    (hstep : ∀ l l1 tok, Q l → Scan fuel l = some (l1, some tok, none) → Q l1) :
    ∀ n l l2 e, Q l → scanAll fuel n l = some (l2, e) →
      ∃ lk t, Q lk ∧ Scan fuel lk = some (l2, t, e) ∧ (t = none ∨ e ≠ none) := by
  intro n
  induction n with
  | zero => intro l l2 e _ h; simp [scanAll] at h
  | succ n ih =>
    intro l l2 e hQ h
    simp only [scanAll] at h
    cases hs : Scan fuel l with
    | none => rw [hs] at h; simp at h
    | some q =>
      obtain ⟨l1, t, e1⟩ := q
      rw [hs] at h
      cases t with
      | none =>
        simp only [Option.some.injEq, Prod.mk.injEq] at h
        obtain ⟨g1, g2⟩ := h
        subst g1 g2
        exact ⟨l, none, hQ, hs, Or.inl rfl⟩
      | some tok =>
        cases e1 with
        | none =>
          simp only at h
          exact ih l1 l2 e (hstep l l1 tok hQ hs) h
        | some err =>
          simp only [Option.some.injEq, Prod.mk.injEq] at h
          obtain ⟨g1, g2⟩ := h
          subst g1 g2
          exact ⟨l, some tok, hQ, hs, Or.inr (by simp)⟩

/-- With matchers whose tokens are never empty and never longer than the
text, Scan returns once the fuel exceeds the bytes to consume, and a Scan
that returns a token leaves fewer bytes to consume. -/
theorem Scan_progress (fuel : Nat) (l : Lexer)
    (hposW : ∀ ws, l.Whitespace = some ws → ∀ s p t, ws.FindToken s p = some t →
      0 < t.Literal.length ∧ t.Literal.length ≤ s.length)
    (hposR : ∀ tt ∈ l.TokenTypes, ∀ s p t, tt.FindToken s p = some t →
      0 < t.Literal.length ∧ t.Literal.length ≤ s.length)
    (hfuel : pending l < fuel) :
    ∃ l1 t e, Scan fuel l = some (l1, t, e) ∧ (t ≠ none → pending l1 < pending l) := by
  obtain ⟨q, hq⟩ := peekLoop_terminates fuel l.TokenTypes l hposW hfuel
  obtain ⟨l2, t⟩ := q
  have hp : ∃ e, Peek fuel l = some (l2, t, e) := by
    unfold Peek
    rw [hq]
    cases t with
    | some t => exact ⟨_, rfl⟩
    | none =>
      simp only
      split <;> exact ⟨_, rfl⟩
  obtain ⟨e, hp⟩ := hp
  refine ⟨consumeBuffer l2 t, t, e, by simp [Scan, hp], ?_⟩
  intro htn
  cases t with
  | none => exact absurd rfl htn
  | some tok =>
    obtain ⟨_, _, hne⟩ := Peek_token fuel l l2 tok e hp
    obtain ⟨_, htok⟩ := peekLoop_inv (fun _ => True) (fun _ _ => trivial)
      (fun _ _ _ _ _ _ => trivial) fuel l.TokenTypes l l2 (some tok) trivial hne hq
    obtain ⟨tt, htt, hf⟩ := htok tok rfl
    obtain ⟨g1, g2⟩ := hposR tt htt _ _ tok hf
    have k3 := (Peek_keeps fuel l l2 (some tok, e) hp).2.2.1
    unfold pending at k3 ⊢
    simp only [consumeBuffer, List.length_drop]
    omega

/-- With matchers whose tokens are never empty and never longer than the
text, a scan loop ends within one call more than there are bytes to consume. -/
theorem scanAll_terminates (W : Option TokenType) (R : List TokenType) (fuel : Nat)
    (hposW : ∀ ws, W = some ws → ∀ s p t, ws.FindToken s p = some t →
      0 < t.Literal.length ∧ t.Literal.length ≤ s.length)
    (hposR : ∀ tt ∈ R, ∀ s p t, tt.FindToken s p = some t →
      0 < t.Literal.length ∧ t.Literal.length ≤ s.length) :
    ∀ n l, l.Whitespace = W → l.TokenTypes = R → pending l < fuel → pending l < n →
      ∃ res, scanAll fuel n l = some res := by
  intro n
  induction n with
  | zero => intro l _ _ _ h; omega
  | succ n ih =>
    intro l hW hR hfuel hn
    obtain ⟨l1, t, e, hs, hlt⟩ := Scan_progress fuel l
      (fun ws hw => hposW ws (by rw [← hW, hw])) (fun tt htt => hposR tt (by rw [← hR]; exact htt))
      hfuel
    simp only [scanAll, hs]
    cases t with
    | none => exact ⟨_, rfl⟩
    | some tok =>
      cases e with
      | some err => exact ⟨_, rfl⟩
      | none =>
        simp only
        have h1 := hlt (by simp)
        obtain ⟨k1, k2, _, _⟩ := Scan_keeps fuel l l1 _ hs
        exact ih l1 (k1.trans hW) (k2.trans hR) (by omega) (by omega)

theorem runeWidth_le (s : Str) (h : s ≠ []) : runeWidth s ≤ s.length := by
  cases s with
  | nil => exact absurd rfl h
  | cons b s =>
    simp only [runeWidth, DecodeRune]
    repeat' split
    all_goals simp

theorem stepRune_inv (p : Nat → Bool) (t u : Thread) (h : u ∈ stepRune p t) :
    t.1 < u.1 ∧ u.1 + u.2.1.length = t.1 + t.2.1.length := by
  unfold stepRune at h
  split at h
  · next hc =>
    simp only [List.mem_singleton] at h
    subst h
    have h1 := runeWidth_pos t.2.1 hc.1
    have h2 := runeWidth_le t.2.1 hc.1
    simp only [List.length_drop]
    omega
  · simp at h

theorem starLoop_inv (f : Thread → List Thread)
    (hf : ∀ t u, u ∈ f t → t.1 ≤ u.1 ∧ u.1 + u.2.1.length = t.1 + t.2.1.length) :
    ∀ n t u, u ∈ starLoop f n t → t.1 ≤ u.1 ∧ u.1 + u.2.1.length = t.1 + t.2.1.length := by
  intro n
  induction n with
  | zero =>
    intro t u h
    simp only [starLoop, List.mem_singleton] at h
    subst h
    exact ⟨le_refl _, rfl⟩
  | succ n ih =>
    intro t u h
    simp only [starLoop, List.mem_append, List.mem_flatMap, List.mem_filter,
      List.mem_singleton] at h
    rcases h with ⟨v, ⟨hv, _⟩, hu⟩ | h
    · obtain ⟨a1, a2⟩ := hf t v hv
      obtain ⟨b1, b2⟩ := ih v u hu
      exact ⟨le_trans a1 b1, by omega⟩
    · subst h
      exact ⟨le_refl _, rfl⟩

/-- A match never moves backwards, and the offset reached and the input left
always make up the input. -/
theorem ends_inv (re : Regexp) :
    ∀ t u, u ∈ re.ends t → t.1 ≤ u.1 ∧ u.1 + u.2.1.length = t.1 + t.2.1.length := by
  induction re with
  | empty =>
    intro t u h
    simp only [Regexp.ends, List.mem_singleton] at h
    subst h
    exact ⟨le_refl _, rfl⟩
  | lit r =>
    intro t u h
    obtain ⟨h1, h2⟩ := stepRune_inv _ t u h
    exact ⟨le_of_lt h1, h2⟩
  | cls neg ranges =>
    intro t u h
    obtain ⟨h1, h2⟩ := stepRune_inv _ t u h
    exact ⟨le_of_lt h1, h2⟩
  | anyNotNL =>
    intro t u h
    obtain ⟨h1, h2⟩ := stepRune_inv _ t u h
    exact ⟨le_of_lt h1, h2⟩
  | beginText =>
    intro t u h
    simp only [Regexp.ends] at h
    split at h
    · simp only [List.mem_singleton] at h
      subst h
      exact ⟨le_refl _, rfl⟩
    · simp at h
  | cat a b iha ihb =>
    intro t u h
    simp only [Regexp.ends, List.mem_flatMap] at h
    obtain ⟨v, hv, hu⟩ := h
    obtain ⟨a1, a2⟩ := iha t v hv
    obtain ⟨b1, b2⟩ := ihb v u hu
    exact ⟨le_trans a1 b1, by omega⟩
  | alt a b iha ihb =>
    intro t u h
    simp only [Regexp.ends, List.mem_append] at h
    rcases h with h | h
    · exact iha t u h
    · exact ihb t u h
  | star a iha =>
    intro t u h
    exact starLoop_inv _ iha _ t u h
  | plus a iha =>
    intro t u h
    simp only [Regexp.ends, List.mem_flatMap] at h
    obtain ⟨v, hv, hu⟩ := h
    obtain ⟨a1, a2⟩ := iha t v hv
    obtain ⟨b1, b2⟩ := starLoop_inv _ iha _ v u hu
    exact ⟨le_trans a1 b1, by omega⟩
  | quest a iha =>
    intro t u h
    simp only [Regexp.ends, List.mem_append, List.mem_singleton] at h
    rcases h with h | h
    · exact iha t u h
    · subst h
      exact ⟨le_refl _, rfl⟩
  | group i a iha =>
    intro t u h
    simp only [Regexp.ends, List.mem_map] at h
    obtain ⟨v, hv, rfl⟩ := h
    exact iha t v hv
  | ncgroup a iha =>
    intro t u h
    exact iha t u h

/-- An expression every match of which takes a character moves forward. -/
theorem ends_consumes (re : Regexp) :
    re.consumes = true → ∀ t u, u ∈ re.ends t → t.1 < u.1 := by
  induction re with
  | empty => intro h; simp [Regexp.consumes] at h
  | lit r => intro _ t u h; exact (stepRune_inv _ t u h).1
  | cls neg ranges => intro _ t u h; exact (stepRune_inv _ t u h).1
  | anyNotNL => intro _ t u h; exact (stepRune_inv _ t u h).1
  | beginText => intro h; simp [Regexp.consumes] at h
  | cat a b iha ihb =>
    intro hc t u h
    simp only [Regexp.ends, List.mem_flatMap] at h
    obtain ⟨v, hv, hu⟩ := h
    simp only [Regexp.consumes, Bool.or_eq_true] at hc
    rcases hc with hc | hc
    · exact lt_of_lt_of_le (iha hc t v hv) (ends_inv b v u hu).1
    · exact lt_of_le_of_lt (ends_inv a t v hv).1 (ihb hc v u hu)
  | alt a b iha ihb =>
    intro hc t u h
    simp only [Regexp.ends, List.mem_append] at h
    simp only [Regexp.consumes, Bool.and_eq_true] at hc
    rcases h with h | h
    · exact iha hc.1 t u h
    · exact ihb hc.2 t u h
  | star a _ => intro h; simp [Regexp.consumes] at h
  | plus a iha =>
    intro hc t u h
    simp only [Regexp.ends, List.mem_flatMap] at h
    obtain ⟨v, hv, hu⟩ := h
    exact lt_of_lt_of_le (iha hc t v hv) (starLoop_inv _ (ends_inv a) _ v u hu).1
  | quest a _ => intro h; simp [Regexp.consumes] at h
  | group i a iha =>
    intro hc t u h
    simp only [Regexp.ends, List.mem_map] at h
    obtain ⟨v, hv, rfl⟩ := h
    exact iha hc t v hv
  | ncgroup a iha =>
    intro hc t u h
    exact iha hc t u h

/-- The search for an expression anchored at the beginning yields a match
of the expression from offset 0. -/
theorem search_anchored_mem (re : Regexp) (n : Nat) (s : Str) (start : Nat) (th : Thread)
    (h : (Regexp.cat .beginText re).search n 0 s = some (start, th)) :
    start = 0 ∧ th ∈ re.ends (0, s, []) := by
  cases n with
  | zero => simp [Regexp.search] at h
  | succ n =>
    simp only [Regexp.search] at h
    split at h
    · next t ts heq =>
      simp only [Option.some.injEq, Prod.mk.injEq] at h
      obtain ⟨h1, h2⟩ := h
      subst h2
      refine ⟨h1.symm, ?_⟩
      have hm : t ∈ (Regexp.cat .beginText re).ends (0, s, []) := by
        rw [heq]; exact List.mem_cons_self _ _
      simpa [Regexp.ends] using hm
    · split at h
      · simp at h
      · next hs =>
        rw [search_anchored_pos re n _ _ (by have := runeWidth_pos s hs; omega)] at h
        simp at h

/-- A rule built from an anchored expression every match of which takes a
character returns no token of empty literal. -/
theorem Regexp_pos (id : TokenID) (re : Regexp) (hc : re.consumes = true) (s : Str)
    (p : Position) (t : Token)
    (h : (TokenType.Regexp id (.cat .beginText re)).FindToken s p = some t) :
    t.Literal ≠ [] := by
  simp only [TokenType.FindToken, Regexp.FindStringSubmatch] at h
  cases hs : (Regexp.cat .beginText re).search (s.length + 1) 0 s with
  | none => rw [hs] at h; simp at h
  | some r =>
    obtain ⟨start, th⟩ := r
    rw [hs] at h
    obtain ⟨h0, hm⟩ := search_anchored_mem re _ s start th hs
    subst h0
    simp only [Option.some.injEq] at h
    subst h
    have h1 := ends_consumes re hc _ _ hm
    have h2 := (ends_inv re _ _ hm).2
    simp only at h1 h2
    intro e
    have := congrArg List.length e
    simp only [List.drop_zero, Nat.sub_zero, List.length_take, List.length_nil] at this
    omega

theorem DefaultTokenTypes_pos : ∀ tt ∈ DefaultTokenTypes, ∀ s p t,
    tt.FindToken s p = some t → t.Literal ≠ [] := by
  intro tt htt
  simp only [DefaultTokenTypes, List.mem_cons, List.mem_singleton, List.not_mem_nil,
    or_false] at htt
  rcases htt with rfl | rfl | rfl | rfl <;> exact Regexp_pos _ _ (by decide)

theorem Scan_Peek (fuel : Nat) (l l2 : Lexer) (t : Option Token) (e : Option UnknownTokenError)
    (hs : Scan fuel l = some (l2, t, e)) : ∃ l1, Peek fuel l = some (l1, t, e) := by
  unfold Scan at hs
  cases hp : Peek fuel l with
  | none => rw [hp] at hs; simp at hs
  | some q =>
    obtain ⟨l1, t1, e1⟩ := q
    rw [hp] at hs
    simp only [Option.some.injEq, Prod.mk.injEq] at hs
    obtain ⟨_, g2, g3⟩ := hs
    subst g2 g3
    exact ⟨l1, rfl⟩

theorem takeWhile_append_of_not_mem (a rest : Str) (h : 10 ∉ a) :
    (a ++ rest).takeWhile (fun b => b != 10) = a ++ rest.takeWhile (fun b => b != 10) := by
  induction a with
  | nil => rfl
  | cons b a ih =>
    have hb : b ≠ 10 := fun e => h (by rw [e]; exact List.mem_cons_self _ _)
    have ha : 10 ∉ a := fun hm => h (List.mem_cons_of_mem _ hm)
    simp [List.takeWhile_cons, hb, ih ha]

theorem takeWhile_eq_nil (rest : Str) :
    rest.takeWhile (fun b => b != 10) = [] ↔ ∀ b, rest.head? = some b → b = 10 := by
  cases rest with
  | nil => simp
  | cons c rest =>
    by_cases hc : c = 10
    · simp [List.takeWhile_cons, hc]
    · simp [List.takeWhile_cons, hc]

/-- The text before the next line terminator of a buffer is that of the
buffer followed by more text exactly when the buffer holds a line terminator
or the text that follows does not continue the line. -/
theorem takeWhile_append_iff (a rest : Str) :
    a.takeWhile (fun b => b != 10) = (a ++ rest).takeWhile (fun b => b != 10) ↔
      (10 ∈ a ∨ ∀ b, rest.head? = some b → b = 10) := by
  by_cases ha : 10 ∈ a
  · simp only [takeWhile_append_of_mem a rest ha, ha, true_or]
  · have h1 : a.takeWhile (fun b => b != 10) = a := by
      have := takeWhile_append_of_not_mem a [] ha
      simpa using this
    rw [takeWhile_append_of_not_mem a rest ha, h1, ← takeWhile_eq_nil]
    simp [ha]

/-- Peek keeps the conservation invariant when the whitespace matcher only
matches at the beginning of the text. -/
theorem Peek_conserves (W : Option TokenType) (R : List TokenType) (I : Str)
    (hws : ∀ ws, W = some ws → PrefixMatcher ws)
    (fuel : Nat) (l l2 : Lexer) (r : Result)
    (hc : Conserves W R I l) (hp : Peek fuel l = some (l2, r)) : Conserves W R I l2 := by
  by_cases hne : l.TokenTypes = []
  · rw [Peek_no_rules fuel l hne] at hp
    simp only [Option.some.injEq, Prod.mk.injEq] at hp
    rw [← hp.1]
    exact hc
  · obtain ⟨t, e⟩ := r
    obtain ⟨hloop, _⟩ := Peek_cases fuel l l2 t e hp
    obtain ⟨⟨l0, h0, hl2⟩, _⟩ :=
      peekLoop_inv (Conserves W R I) (Conserves_read W R I)
        (fun x ws tok hw hf hx => Conserves_consume W R I x tok hx
          (hws ws (by rw [← hx.1, hw]) _ _ tok hf))
        fuel l.TokenTypes l l2 t hc hne hloop
    rw [hl2]
    exact Conserves_read W R I l0 h0

theorem GetLastLine_fst (l : Lexer) : (GetLastLine l).1 = readBufIfNeed l := by
  simp only [GetLastLine]
  split <;> rfl

theorem GetLastLine_snd (l : Lexer) :
    (GetLastLine l).2 =
      (readBufIfNeed l).loadedLine ++ (readBufIfNeed l).buf.takeWhile (fun b => b != 10) := by
  simp only [GetLastLine]
  split
  · next idx hidx => simp only [(Index_some _ _ _ hidx).1]
  · next hidx => simp only [Index_none _ _ hidx]

/-- In every state reached from a new lexer over a stream none of whose reads
ends in a zero byte, with matchers that only match at the beginning of the
text, the literals consumed, the buffer and the unread stream make up the
input, and loadedLine is the text consumed since the last line terminator. -/
theorem Reaches_inv (r : Reader) (W : Option TokenType) (R : List TokenType) (l : Lexer)
    (hkept : Faithful r)
    (hws : ∀ ws, W = some ws → PrefixMatcher ws) (hrules : ∀ tt ∈ R, PrefixMatcher tt)
    (h : Reaches { NewLexer r with Whitespace := W, TokenTypes := R } l) :
    Conserves W R r.flatten l ∧ l.loadedLine = textAfterLastTerminator l.consumed.flatten := by
  induction h with
  | start => exact ⟨⟨rfl, rfl, hkept, by simp [NewLexer]⟩, rfl⟩
  | peek fuel x x2 res _ hp ih =>
    exact ⟨Peek_conserves W R _ hws fuel x x2 res ih.1 hp, loadedLine_Peek fuel x x2 res ih.2 hp⟩
  | scan fuel x x2 res _ hs ih =>
    refine ⟨Scan_conserves W R _ hws hrules fuel x x2 res ih.1 hs, ?_⟩
    unfold Scan at hs
    cases hp : Peek fuel x with
    | none => rw [hp] at hs; simp at hs
    | some q =>
      obtain ⟨x1, t, e⟩ := q
      rw [hp] at hs
      simp only [Option.some.injEq, Prod.mk.injEq] at hs
      rw [← hs.1]
      have h1 := loadedLine_Peek fuel x x1 (t, e) ih.2 hp
      cases t with
      | none => exact h1
      | some t => exact loadedLine_consume x1 t h1
  | line x _ ih =>
    rw [GetLastLine_fst]
    exact ⟨Conserves_read W R _ x ih.1, loadedLine_read x ih.2⟩

theorem unhex_lowerhex (d : Nat) (h : d < 16) : unhex (lowerhex d) = some d := by
  interval_cases d <;> rfl

theorem lowerhex_range (d : Nat) (h : d < 16) : 48 ≤ lowerhex d ∧ lowerhex d ≤ 102 := by
  interval_cases d <;> decide

theorem DecodeRune_two (b b1 : Nat) (s : Str) (h1 : ¬ b < 0x80)
    (h2 : 0xC2 ≤ b ∧ b ≤ 0xDF) :
    (DecodeRune (b :: b1 :: s) = (0xFFFD, 1)) ∨
    (DecodeRune (b :: b1 :: s) = ((b - 0xC0) * 64 + (b1 - 0x80), 2) ∧
      EncodedBy ((b - 0xC0) * 64 + (b1 - 0x80)) 2 (b :: b1 :: s)) := by
  have h2' : (decide (0xC2 ≤ b) && decide (b ≤ 0xDF)) = true := by simp [h2]
  by_cases hc : isCont b1 = true
  · right
    refine ⟨by simp only [DecodeRune, h1, h2', hc, if_true, if_false], ?_⟩
    simp only [isCont, Bool.and_eq_true, decide_eq_true_eq] at hc
    refine ⟨le_refl _, by omega, by omega, ?_, ?_, by simp, ?_⟩
    · simp only [validRune, Bool.or_eq_true, decide_eq_true_eq]
      left; omega
    · simp only [EncodeRune]
      rw [if_neg (by omega), if_pos (by omega)]
      simp only [List.take_succ_cons, List.take_zero, List.cons.injEq, and_true]
      constructor <;> omega
    · intro c hc'
      simp only [List.take_succ_cons, List.take_zero, List.mem_cons, List.not_mem_nil,
        or_false] at hc'
      rcases hc' with rfl | rfl <;> omega
  · left
    simp only [DecodeRune, h1, h2', hc, if_true, if_false]
    simp

theorem EncodedBy_three (b b1 b2 : Nat) (s : Str) (hb : 0xE0 ≤ b ∧ b ≤ 0xEF)
    (h1 : 0x80 ≤ b1 ∧ b1 ≤ 0xBF) (hlo : b = 0xE0 → 0xA0 ≤ b1) (hhi : b = 0xED → b1 ≤ 0x9F)
    (h2 : 0x80 ≤ b2 ∧ b2 ≤ 0xBF) :
    EncodedBy ((b - 0xE0) * 4096 + (b1 - 0x80) * 64 + (b2 - 0x80)) 3 (b :: b1 :: b2 :: s) := by
  refine ⟨by omega, by omega, by omega, ?_, ?_, by simp, ?_⟩
  · simp only [validRune, Bool.or_eq_true, Bool.and_eq_true, decide_eq_true_eq]
    omega
  · simp only [EncodeRune]
    rw [if_neg (by omega), if_neg (by omega), if_pos (by omega)]
    simp only [List.take_succ_cons, List.take_zero, List.cons.injEq, and_true]
    refine ⟨?_, ?_, ?_⟩ <;> omega
  · intro c hc'
    simp only [List.take_succ_cons, List.take_zero, List.mem_cons, List.not_mem_nil,
      or_false] at hc'
    rcases hc' with rfl | rfl | rfl <;> omega

theorem EncodedBy_four (b b1 b2 b3 : Nat) (s : Str) (hb : 0xF0 ≤ b ∧ b ≤ 0xF4)
    (h1 : 0x80 ≤ b1 ∧ b1 ≤ 0xBF) (hlo : b = 0xF0 → 0x90 ≤ b1) (hhi : b = 0xF4 → b1 ≤ 0x8F)
    (h2 : 0x80 ≤ b2 ∧ b2 ≤ 0xBF) (h3 : 0x80 ≤ b3 ∧ b3 ≤ 0xBF) :
    EncodedBy ((b - 0xF0) * 262144 + (b1 - 0x80) * 4096 + (b2 - 0x80) * 64 + (b3 - 0x80)) 4
      (b :: b1 :: b2 :: b3 :: s) := by
  refine ⟨by omega, by omega, by omega, ?_, ?_, by simp, ?_⟩
  · simp only [validRune, Bool.or_eq_true, Bool.and_eq_true, decide_eq_true_eq]
    omega
  · simp only [EncodeRune]
    rw [if_neg (by omega), if_neg (by omega), if_neg (by omega)]
    simp only [List.take_succ_cons, List.take_zero, List.cons.injEq, and_true]
    refine ⟨?_, ?_, ?_, ?_⟩ <;> omega
  · intro c hc'
    simp only [List.take_succ_cons, List.take_zero, List.mem_cons, List.not_mem_nil,
      or_false] at hc'
    rcases hc' with rfl | rfl | rfl | rfl <;> omega

theorem DecodeRune_three (b b1 b2 : Nat) (s : Str) (h3 : 0xE0 ≤ b ∧ b ≤ 0xEF) :
    (DecodeRune (b :: b1 :: b2 :: s) = (0xFFFD, 1)) ∨
    (DecodeRune (b :: b1 :: b2 :: s) =
        ((b - 0xE0) * 4096 + (b1 - 0x80) * 64 + (b2 - 0x80), 3) ∧
      EncodedBy ((b - 0xE0) * 4096 + (b1 - 0x80) * 64 + (b2 - 0x80)) 3
        (b :: b1 :: b2 :: s)) := by
  have h1 : ¬ b < 0x80 := by omega
  have h2' : (decide (0xC2 ≤ b) && decide (b ≤ 0xDF)) = false := by
    simp only [Bool.and_eq_false_iff, decide_eq_false_iff_not]; omega
  have h3' : (decide (0xE0 ≤ b) && decide (b ≤ 0xEF)) = true := by simp [h3]
  have key : ∀ lo hi : Nat, (b = 0xE0 → 0xA0 ≤ lo) → (b = 0xED → hi ≤ 0x9F) → 0x80 ≤ lo →
      hi ≤ 0xBF →
      ((if (decide (lo ≤ b1) && decide (b1 ≤ hi) && isCont b2) = true then
          ((b - 0xE0) * 4096 + (b1 - 0x80) * 64 + (b2 - 0x80), 3)
        else ((0xFFFD, 1) : Nat × Nat)) = (0xFFFD, 1)) ∨
      ((if (decide (lo ≤ b1) && decide (b1 ≤ hi) && isCont b2) = true then
          ((b - 0xE0) * 4096 + (b1 - 0x80) * 64 + (b2 - 0x80), 3)
        else ((0xFFFD, 1) : Nat × Nat)) =
          ((b - 0xE0) * 4096 + (b1 - 0x80) * 64 + (b2 - 0x80), 3) ∧
        EncodedBy ((b - 0xE0) * 4096 + (b1 - 0x80) * 64 + (b2 - 0x80)) 3
          (b :: b1 :: b2 :: s)) := by
    intro lo hi g1 g2 g3 g4
    by_cases hc : (decide (lo ≤ b1) && decide (b1 ≤ hi) && isCont b2) = true
    · right
      rw [if_pos hc]
      simp only [isCont, Bool.and_eq_true, decide_eq_true_eq] at hc
      exact ⟨rfl, EncodedBy_three b b1 b2 s h3 (by omega) (by omega) (by omega) (by omega)⟩
    · left
      rw [if_neg hc]
  simp only [DecodeRune, h1, h2', h3', if_true, if_false, Bool.false_eq_true]
  apply key
  · intro e; simp [e]
  · intro e; simp [e]
  · split <;> omega
  · split <;> omega

theorem DecodeRune_four (b b1 b2 b3 : Nat) (s : Str) (h4 : 0xF0 ≤ b ∧ b ≤ 0xF4) :
    (DecodeRune (b :: b1 :: b2 :: b3 :: s) = (0xFFFD, 1)) ∨
    (DecodeRune (b :: b1 :: b2 :: b3 :: s) =
        ((b - 0xF0) * 262144 + (b1 - 0x80) * 4096 + (b2 - 0x80) * 64 + (b3 - 0x80), 4) ∧
      EncodedBy ((b - 0xF0) * 262144 + (b1 - 0x80) * 4096 + (b2 - 0x80) * 64 + (b3 - 0x80)) 4
        (b :: b1 :: b2 :: b3 :: s)) := by
  have h1 : ¬ b < 0x80 := by omega
  have h2' : (decide (0xC2 ≤ b) && decide (b ≤ 0xDF)) = false := by
    simp only [Bool.and_eq_false_iff, decide_eq_false_iff_not]; omega
  have h3' : (decide (0xE0 ≤ b) && decide (b ≤ 0xEF)) = false := by
    simp only [Bool.and_eq_false_iff, decide_eq_false_iff_not]; omega
  have h4' : (decide (0xF0 ≤ b) && decide (b ≤ 0xF4)) = true := by simp [h4]
  have key : ∀ lo hi : Nat, (b = 0xF0 → 0x90 ≤ lo) → (b = 0xF4 → hi ≤ 0x8F) → 0x80 ≤ lo →
      hi ≤ 0xBF →
      ((if (decide (lo ≤ b1) && decide (b1 ≤ hi) && isCont b2 && isCont b3) = true then
          ((b - 0xF0) * 262144 + (b1 - 0x80) * 4096 + (b2 - 0x80) * 64 + (b3 - 0x80), 4)
        else ((0xFFFD, 1) : Nat × Nat)) = (0xFFFD, 1)) ∨
      ((if (decide (lo ≤ b1) && decide (b1 ≤ hi) && isCont b2 && isCont b3) = true then
          ((b - 0xF0) * 262144 + (b1 - 0x80) * 4096 + (b2 - 0x80) * 64 + (b3 - 0x80), 4)
        else ((0xFFFD, 1) : Nat × Nat)) =
          ((b - 0xF0) * 262144 + (b1 - 0x80) * 4096 + (b2 - 0x80) * 64 + (b3 - 0x80), 4) ∧
        EncodedBy
          ((b - 0xF0) * 262144 + (b1 - 0x80) * 4096 + (b2 - 0x80) * 64 + (b3 - 0x80)) 4
          (b :: b1 :: b2 :: b3 :: s)) := by
    intro lo hi g1 g2 g3 g4
    by_cases hc : (decide (lo ≤ b1) && decide (b1 ≤ hi) && isCont b2 && isCont b3) = true
    · right
      rw [if_pos hc]
      simp only [isCont, Bool.and_eq_true, decide_eq_true_eq] at hc
      exact ⟨rfl, EncodedBy_four b b1 b2 b3 s h4 (by omega) (by omega) (by omega) (by omega)
        (by omega)⟩
    · left
      rw [if_neg hc]
  simp only [DecodeRune, h1, h2', h3', h4', if_true, if_false, Bool.false_eq_true]
  apply key
  · intro e; simp [e]
  · intro e; simp [e]
  · split <;> omega
  · split <;> omega

/-- What DecodeRune yields on a string that is not empty: an ASCII byte, an
invalid byte, or a valid sequence of two to four bytes that encodes the rune. -/
theorem DecodeRune_spec (b : Nat) (s : Str) :
    (DecodeRune (b :: s) = (b, 1) ∧ b < 0x80) ∨
    (DecodeRune (b :: s) = (0xFFFD, 1) ∧ 0x80 ≤ b) ∨
    EncodedBy (DecodeRune (b :: s)).1 (DecodeRune (b :: s)).2 (b :: s) := by
  by_cases h1 : b < 0x80
  · left
    exact ⟨by simp only [DecodeRune, h1, if_true], h1⟩
  · right
    have hb : 0x80 ≤ b := by omega
    by_cases h2 : 0xC2 ≤ b ∧ b ≤ 0xDF
    · cases s with
      | nil =>
        left
        have h2' : (decide (0xC2 ≤ b) && decide (b ≤ 0xDF)) = true := by simp [h2]
        exact ⟨by simp only [DecodeRune, h1, h2', if_true, if_false], hb⟩
      | cons b1 s =>
        rcases DecodeRune_two b b1 s h1 h2 with h | ⟨h, he⟩
        · exact Or.inl ⟨h, hb⟩
        · right; rw [h]; exact he
    · have h2' : (decide (0xC2 ≤ b) && decide (b ≤ 0xDF)) = false := by
        simp only [Bool.and_eq_false_iff, decide_eq_false_iff_not]; omega
      by_cases h3 : 0xE0 ≤ b ∧ b ≤ 0xEF
      · have h3' : (decide (0xE0 ≤ b) && decide (b ≤ 0xEF)) = true := by simp [h3]
        match s with
        | [] => exact Or.inl ⟨by simp only [DecodeRune, h1, h2', h3', if_true, if_false,
            Bool.false_eq_true], hb⟩
        | [b1] => exact Or.inl ⟨by simp only [DecodeRune, h1, h2', h3', if_true, if_false,
            Bool.false_eq_true], hb⟩
        | b1 :: b2 :: s =>
          rcases DecodeRune_three b b1 b2 s h3 with h | ⟨h, he⟩
          · exact Or.inl ⟨h, hb⟩
          · right; rw [h]; exact he
      · have h3' : (decide (0xE0 ≤ b) && decide (b ≤ 0xEF)) = false := by
          simp only [Bool.and_eq_false_iff, decide_eq_false_iff_not]; omega
        by_cases h4 : 0xF0 ≤ b ∧ b ≤ 0xF4
        · have h4' : (decide (0xF0 ≤ b) && decide (b ≤ 0xF4)) = true := by simp [h4]
          match s with
          | [] => exact Or.inl ⟨by simp only [DecodeRune, h1, h2', h3', h4', if_true, if_false,
              Bool.false_eq_true], hb⟩
          | [b1] => exact Or.inl ⟨by simp only [DecodeRune, h1, h2', h3', h4', if_true,
              if_false, Bool.false_eq_true], hb⟩
          | [b1, b2] => exact Or.inl ⟨by simp only [DecodeRune, h1, h2', h3', h4', if_true,
              if_false, Bool.false_eq_true], hb⟩
          | b1 :: b2 :: b3 :: s =>
            rcases DecodeRune_four b b1 b2 b3 s h4 with h | ⟨h, he⟩
            · exact Or.inl ⟨h, hb⟩
            · right; rw [h]; exact he
        · have h4' : (decide (0xF0 ≤ b) && decide (b ≤ 0xF4)) = false := by
            simp only [Bool.and_eq_false_iff, decide_eq_false_iff_not]; omega
          exact Or.inl ⟨by simp only [DecodeRune, h1, h2', h3', h4', if_true, if_false,
            Bool.false_eq_true], hb⟩

theorem hexValue_two (a b : Nat) (ha : a < 16) (hb : b < 16) :
    hexValue [lowerhex a, lowerhex b] = some (16 * a + b) := by
  simp [hexValue, unhex_lowerhex, ha, hb]

theorem ReadsBack_nil : ReadsBack [] [] := by
  intro m _
  cases m <;> rfl

/-- The escape \xhh reads back as the byte it names. -/
theorem ReadsBack_x (v : Nat) (out s : Str) (hv : v < 256) (h : ReadsBack out s) :
    ReadsBack (92 :: 120 :: lowerhex (v / 16) :: lowerhex (v % 16) :: out) (v :: s) := by
  intro m hm
  cases m with
  | zero => simp at hm
  | succ m =>
    have h1 := h m (by simp only [List.length_cons] at hm; omega)
    have h2 : hexEscape 2 (lowerhex (v / 16) :: lowerhex (v % 16) :: out) = some (v, out) := by
      have e : 16 * (v / 16) + v % 16 = v := Nat.div_add_mod v 16
      simp [hexEscape, hexValue_two (v / 16) (v % 16) (by omega) (by omega), e]
    simp [unquoteBody, h2, h1]

theorem hexValue_four (r : Nat) (hr : r < 0x10000) :
    hexValue [lowerhex (r / 4096 % 16), lowerhex (r / 256 % 16), lowerhex (r / 16 % 16),
      lowerhex (r % 16)] = some r := by
  have h1 : r / 4096 % 16 < 16 := Nat.mod_lt _ (by decide)
  have h2 : r / 256 % 16 < 16 := Nat.mod_lt _ (by decide)
  have h3 : r / 16 % 16 < 16 := Nat.mod_lt _ (by decide)
  have h4 : r % 16 < 16 := Nat.mod_lt _ (by decide)
  simp only [hexValue, List.foldl_cons, List.foldl_nil, unhex_lowerhex _ h1,
    unhex_lowerhex _ h2, unhex_lowerhex _ h3, unhex_lowerhex _ h4, Option.some_bind, Option.bind_some,
    Option.map_some', Option.some.injEq]
  omega

theorem hexValue_eight (r : Nat) (hr : r < 0x100000000) :
    hexValue [lowerhex (r / 268435456 % 16), lowerhex (r / 16777216 % 16),
      lowerhex (r / 1048576 % 16), lowerhex (r / 65536 % 16), lowerhex (r / 4096 % 16),
      lowerhex (r / 256 % 16), lowerhex (r / 16 % 16), lowerhex (r % 16)] = some r := by
  have h1 : r / 268435456 % 16 < 16 := Nat.mod_lt _ (by decide)
  have h2 : r / 16777216 % 16 < 16 := Nat.mod_lt _ (by decide)
  have h3 : r / 1048576 % 16 < 16 := Nat.mod_lt _ (by decide)
  have h4 : r / 65536 % 16 < 16 := Nat.mod_lt _ (by decide)
  have h5 : r / 4096 % 16 < 16 := Nat.mod_lt _ (by decide)
  have h6 : r / 256 % 16 < 16 := Nat.mod_lt _ (by decide)
  have h7 : r / 16 % 16 < 16 := Nat.mod_lt _ (by decide)
  have h8 : r % 16 < 16 := Nat.mod_lt _ (by decide)
  simp only [hexValue, List.foldl_cons, List.foldl_nil, unhex_lowerhex _ h1,
    unhex_lowerhex _ h2, unhex_lowerhex _ h3, unhex_lowerhex _ h4, unhex_lowerhex _ h5,
    unhex_lowerhex _ h6, unhex_lowerhex _ h7, unhex_lowerhex _ h8, Option.some_bind, Option.bind_some,
    Option.map_some', Option.some.injEq]
  omega

/-- The escape \uhhhh reads back as the encoding of the rune it names. -/
theorem ReadsBack_u (r : Nat) (out s : Str) (hr : r < 0x10000) (hv : validRune r = true)
    (h : ReadsBack out s) :
    ReadsBack (92 :: 117 :: lowerhex (r / 4096 % 16) :: lowerhex (r / 256 % 16) ::
      lowerhex (r / 16 % 16) :: lowerhex (r % 16) :: out) (EncodeRune r ++ s) := by
  intro m hm
  cases m with
  | zero => simp at hm
  | succ m =>
    have h1 := h m (by simp only [List.length_cons] at hm; omega)
    have h2 : hexEscape 4 (lowerhex (r / 4096 % 16) :: lowerhex (r / 256 % 16) ::
        lowerhex (r / 16 % 16) :: lowerhex (r % 16) :: out) = some (r, out) := by
      simp [hexEscape, hexValue_four r hr]
    simp [unquoteBody, h2, h1, hv]

/-- The escape \Uhhhhhhhh reads back as the encoding of the rune it names. -/
theorem ReadsBack_U (r : Nat) (out s : Str) (hr : r < 0x100000000) (hv : validRune r = true)
    (h : ReadsBack out s) :
    ReadsBack (92 :: 85 :: lowerhex (r / 268435456 % 16) :: lowerhex (r / 16777216 % 16) ::
      lowerhex (r / 1048576 % 16) :: lowerhex (r / 65536 % 16) :: lowerhex (r / 4096 % 16) ::
      lowerhex (r / 256 % 16) :: lowerhex (r / 16 % 16) :: lowerhex (r % 16) :: out)
      (EncodeRune r ++ s) := by
  intro m hm
  cases m with
  | zero => simp at hm
  | succ m =>
    have h1 := h m (by simp only [List.length_cons] at hm; omega)
    have h2 : hexEscape 8 (lowerhex (r / 268435456 % 16) :: lowerhex (r / 16777216 % 16) ::
        lowerhex (r / 1048576 % 16) :: lowerhex (r / 65536 % 16) ::
        lowerhex (r / 4096 % 16) :: lowerhex (r / 256 % 16) :: lowerhex (r / 16 % 16) ::
        lowerhex (r % 16) :: out) = some (r, out) := by
      simp [hexEscape, hexValue_eight r hr]
    simp [unquoteBody, h2, h1, hv]

/-- A one-letter escape reads back as the byte it stands for. -/
theorem ReadsBack_letter (v e : Nat) (out s : Str) (he : unescape e = some v)
    (hne : e ≠ 120 ∧ e ≠ 117 ∧ e ≠ 85) (h : ReadsBack out s) :
    ReadsBack (92 :: e :: out) (v :: s) := by
  intro m hm
  cases m with
  | zero => simp at hm
  | succ m =>
    have h1 := h m (by simp only [List.length_cons] at hm; omega)
    simp [unquoteBody, hne.1, hne.2.1, hne.2.2, he, h1]

/-- Bytes that are neither a backslash nor a double quote nor a line feed read back as themselves. -/
theorem ReadsBack_raw (enc out s : Str) (hp : ∀ c ∈ enc, c ≠ 92 ∧ c ≠ 34 ∧ c ≠ 10)
    (h : ReadsBack out s) : ReadsBack (enc ++ out) (enc ++ s) := by
  induction enc with
  | nil => exact h
  | cons c enc ih =>
    intro m hm
    cases m with
    | zero => simp at hm
    | succ m =>
      obtain ⟨c1, c2, c3⟩ := hp c (List.mem_cons_self _ _)
      have h1 := ih (fun x hx => hp x (List.mem_cons_of_mem _ hx)) m
        (by simp only [List.cons_append, List.length_cons] at hm; omega)
      simp [unquoteBody, c1, c2, c3, h1]

theorem IsPrint_ascii (wide : Nat → Bool) (r : Nat) (hr : r < 0x80) :
    IsPrint wide r = true ↔ 0x20 ≤ r ∧ r ≤ 0x7E := by
  simp only [IsPrint]
  rw [if_pos (by omega)]
  simp only [Bool.or_eq_true, Bool.and_eq_true, decide_eq_true_eq, bne_iff_ne]
  omega

/-- The escape of an ASCII character reads back as the character. -/
theorem ReadsBack_escape_ascii (wide : Nat → Bool) (r : Nat) (out s : Str) (hr : r < 0x80)
    (h : ReadsBack out s) : ReadsBack (escapeRune wide r [r] ++ out) (r :: s) := by
  unfold escapeRune
  by_cases c1 : (r == 34 || r == 92) = true
  · rw [if_pos c1]
    simp only [Bool.or_eq_true, beq_iff_eq] at c1
    rcases c1 with rfl | rfl
    · exact ReadsBack_letter 34 34 out s rfl (by decide) h
    · exact ReadsBack_letter 92 92 out s rfl (by decide) h
  · rw [if_neg c1]
    simp only [Bool.or_eq_true, beq_iff_eq, not_or] at c1
    by_cases c2 : IsPrint wide r = true
    · rw [if_pos c2]
      have hp := (IsPrint_ascii wide r hr).mp c2
      refine ReadsBack_raw [r] out s ?_ h
      intro c hc
      simp only [List.mem_singleton] at hc
      subst hc
      exact ⟨c1.2, c1.1, by omega⟩
    · rw [if_neg c2]
      have hnp : ¬ (0x20 ≤ r ∧ r ≤ 0x7E) := fun hh => c2 ((IsPrint_ascii wide r hr).mpr hh)
      by_cases e7 : r = 7
      · subst e7; exact ReadsBack_letter 7 97 out s rfl (by decide) h
      by_cases e8 : r = 8
      · subst e8; exact ReadsBack_letter 8 98 out s rfl (by decide) h
      by_cases e12 : r = 12
      · subst e12; exact ReadsBack_letter 12 102 out s rfl (by decide) h
      by_cases e10 : r = 10
      · subst e10; exact ReadsBack_letter 10 110 out s rfl (by decide) h
      by_cases e13 : r = 13
      · subst e13; exact ReadsBack_letter 13 114 out s rfl (by decide) h
      by_cases e9 : r = 9
      · subst e9; exact ReadsBack_letter 9 116 out s rfl (by decide) h
      by_cases e11 : r = 11
      · subst e11; exact ReadsBack_letter 11 118 out s rfl (by decide) h
      have f7 : (r == 7) = false := by simpa using e7
      have f8 : (r == 8) = false := by simpa using e8
      have f12 : (r == 12) = false := by simpa using e12
      have f10 : (r == 10) = false := by simpa using e10
      have f13 : (r == 13) = false := by simpa using e13
      have f9 : (r == 9) = false := by simpa using e9
      have f11 : (r == 11) = false := by simpa using e11
      have fx : (decide (r < 32) || r == 0x7F) = true := by
        simp only [Bool.or_eq_true, decide_eq_true_eq, beq_iff_eq]
        omega
      simp only [f7, f8, f12, f10, f13, f9, f11, fx, Bool.false_eq_true, if_false, if_true]
      exact ReadsBack_x r out s (by omega) h

/-- The escape of a character of several bytes reads back as these bytes. -/
theorem ReadsBack_escape_multi (wide : Nat → Bool) (r w : Nat) (bs out s : Str)
    (he : EncodedBy r w bs) (h : ReadsBack out s) :
    ReadsBack (escapeRune wide r (bs.take w) ++ out) (bs.take w ++ s) := by
  obtain ⟨_, h1, h2, h3, h4, _, h6⟩ := he
  have hs : ∀ k, k < 0x80 → (r == k) = false := by
    intro k hk
    simp only [beq_eq_false_iff_ne, ne_eq]
    omega
  have hlt : decide (r < 32) = false := by
    simp only [decide_eq_false_iff_not]; omega
  simp only [escapeRune, hs 34 (by decide), hs 92 (by decide), hs 7 (by decide),
    hs 8 (by decide), hs 12 (by decide), hs 10 (by decide), hs 13 (by decide),
    hs 9 (by decide), hs 11 (by decide), hs 0x7F (by decide), hlt, Bool.or_false,
    Bool.false_eq_true, if_false]
  by_cases c2 : IsPrint wide r = true
  · rw [if_pos c2]
    refine ReadsBack_raw _ out s ?_ h
    intro c hc
    have := h6 c hc
    omega
  · rw [if_neg c2]
    by_cases c3 : r < 0x10000
    · rw [if_pos c3, ← h4]
      exact ReadsBack_u r out s c3 h3 h
    · rw [if_neg c3, ← h4]
      exact ReadsBack_U r out s (by omega) h3 h

/-- What strconv.Quote writes between the quotes reads back as the string. -/
theorem ReadsBack_quoteBody (wide : Nat → Bool) :
    ∀ n s, s.length ≤ n → (∀ b ∈ s, b < 256) → ReadsBack (quoteBody wide n s) s := by
  intro n
  induction n with
  | zero =>
    intro s hn _
    have : s = [] := List.length_eq_zero.mp (by omega)
    subst this
    exact ReadsBack_nil
  | succ n ih =>
    intro s hn hb
    cases s with
    | nil => exact ReadsBack_nil
    | cons b s =>
      have hbs : ∀ x ∈ s, x < 256 := fun x hx => hb x (List.mem_cons_of_mem _ hx)
      have hlen : s.length ≤ n := by simpa using hn
      simp only [quoteBody]
      rcases DecodeRune_spec b s with ⟨hd, hlt⟩ | ⟨hd, hge⟩ | he
      · have hne : (b == 0xFFFD) = false := by
          simp only [beq_eq_false_iff_ne, ne_eq]; omega
        simp only [hd, hne, Bool.and_false, Bool.false_eq_true, if_false, List.take_succ_cons,
          List.take_zero, List.drop_succ_cons, List.drop_zero]
        exact ReadsBack_escape_ascii wide b _ s hlt (ih s hlen hbs)
      · simp only [hd, beq_self_eq_true, Bool.and_self, if_true]
        exact ReadsBack_x b _ s (hb b (List.mem_cons_self _ _)) (ih s hlen hbs)
      · have hw : ((DecodeRune (b :: s)).2 == 1) = false := by
          simp only [beq_eq_false_iff_ne, ne_eq]
          have := he.1
          omega
        simp only [hw, Bool.false_and, Bool.false_eq_true, if_false]
        have hsplit : b :: s =
            (b :: s).take (DecodeRune (b :: s)).2 ++ (b :: s).drop (DecodeRune (b :: s)).2 :=
          (List.take_append_drop _ _).symm
        have hrest := ih ((b :: s).drop (DecodeRune (b :: s)).2)
          (by simp only [List.length_drop, List.length_cons]; have := he.1; omega)
          (fun x hx => hb x (List.mem_of_mem_drop hx))
        have := ReadsBack_escape_multi wide _ _ (b :: s) _ _ he hrest
        rw [← hsplit] at this
        exact this

/-- Unquote reads back what Quote writes. -/
theorem Unquote_Quote (wide : Nat → Bool) (s : Str) (hb : ∀ b ∈ s, b < 256) :
    Unquote (Quote wide s) = some s := by
  have h := ReadsBack_quoteBody wide s.length s (le_refl _) hb
  have e : Quote wide s = 34 :: (quoteBody wide s.length s ++ [34]) := by simp [Quote]
  rw [e]
  simp only [Unquote]
  rw [if_pos (by simp), List.dropLast_concat]
  exact h _ (by simp)

theorem lowerhex_clean (d : Nat) (h : d < 16) : 32 ≤ lowerhex d ∧ lowerhex d ≠ 127 := by
  have := lowerhex_range d h
  omega

theorem lowerhex_mod (x : Nat) : 32 ≤ lowerhex (x % 16) ∧ lowerhex (x % 16) ≠ 127 :=
  lowerhex_clean _ (Nat.mod_lt _ (by decide))

/-- The escape of a character holds no control character. -/
theorem escapeRune_clean (wide : Nat → Bool) (r : Nat) (enc : Str)
    (hcase : (enc = [r] ∧ r < 0x80) ∨ (0x80 ≤ r ∧ ∀ c ∈ enc, 0x80 ≤ c)) :
    ∀ c ∈ escapeRune wide r enc, 32 ≤ c ∧ c ≠ 127 := by
  have henc : IsPrint wide r = true → ∀ c ∈ enc, 32 ≤ c ∧ c ≠ 127 := by
    intro c2
    rcases hcase with ⟨rfl, hr⟩ | ⟨_, h⟩
    · have := (IsPrint_ascii wide r hr).mp c2
      intro c hc
      simp only [List.mem_singleton] at hc
      subst hc
      omega
    · intro c hc
      have := h c hc
      omega
  unfold escapeRune
  by_cases c1 : (r == 34 || r == 92) = true
  · rw [if_pos c1]
    simp only [Bool.or_eq_true, beq_iff_eq] at c1
    intro c hc
    simp only [List.mem_cons, List.mem_singleton, List.not_mem_nil, or_false] at hc
    omega
  · rw [if_neg c1]
    by_cases c2 : IsPrint wide r = true
    · rw [if_pos c2]
      exact henc c2
    · rw [if_neg c2]
      by_cases e7 : (r == 7) = true
      · rw [if_pos e7]
        intro c hc
        simp only [List.mem_cons, List.mem_singleton, List.not_mem_nil, or_false] at hc
        rcases hc with rfl | rfl <;> omega
      rw [if_neg e7]
      by_cases e8 : (r == 8) = true
      · rw [if_pos e8]
        intro c hc
        simp only [List.mem_cons, List.mem_singleton, List.not_mem_nil, or_false] at hc
        rcases hc with rfl | rfl <;> omega
      rw [if_neg e8]
      by_cases e12 : (r == 12) = true
      · rw [if_pos e12]
        intro c hc
        simp only [List.mem_cons, List.mem_singleton, List.not_mem_nil, or_false] at hc
        rcases hc with rfl | rfl <;> omega
      rw [if_neg e12]
      by_cases e10 : (r == 10) = true
      · rw [if_pos e10]
        intro c hc
        simp only [List.mem_cons, List.mem_singleton, List.not_mem_nil, or_false] at hc
        rcases hc with rfl | rfl <;> omega
      rw [if_neg e10]
      by_cases e13 : (r == 13) = true
      · rw [if_pos e13]
        intro c hc
        simp only [List.mem_cons, List.mem_singleton, List.not_mem_nil, or_false] at hc
        rcases hc with rfl | rfl <;> omega
      rw [if_neg e13]
      by_cases e9 : (r == 9) = true
      · rw [if_pos e9]
        intro c hc
        simp only [List.mem_cons, List.mem_singleton, List.not_mem_nil, or_false] at hc
        rcases hc with rfl | rfl <;> omega
      rw [if_neg e9]
      by_cases e11 : (r == 11) = true
      · rw [if_pos e11]
        intro c hc
        simp only [List.mem_cons, List.mem_singleton, List.not_mem_nil, or_false] at hc
        rcases hc with rfl | rfl <;> omega
      rw [if_neg e11]
      by_cases ex : (decide (r < 32) || r == 0x7F) = true
      · rw [if_pos ex]
        simp only [Bool.or_eq_true, beq_iff_eq, decide_eq_true_eq] at ex
        have k1 := lowerhex_clean (r / 16) (by omega)
        have k2 := lowerhex_mod r
        intro c hc
        simp only [List.mem_cons, List.mem_singleton, List.not_mem_nil, or_false] at hc
        rcases hc with rfl | rfl | rfl | rfl
        · omega
        · omega
        · exact k1
        · exact k2
      rw [if_neg ex]
      by_cases eu : r < 0x10000
      · rw [if_pos eu]
        intro c hc
        simp only [List.mem_cons, List.mem_singleton, List.not_mem_nil, or_false] at hc
        rcases hc with rfl | rfl | rfl | rfl | rfl | rfl
        · omega
        · omega
        all_goals exact lowerhex_mod _
      rw [if_neg eu]
      intro c hc
      simp only [List.mem_cons, List.mem_singleton, List.not_mem_nil, or_false] at hc
      rcases hc with rfl | rfl | rfl | rfl | rfl | rfl | rfl | rfl | rfl | rfl
      · omega
      · omega
      all_goals exact lowerhex_mod _

/-- What strconv.Quote writes between the quotes holds no control character. -/
theorem quoteBody_clean (wide : Nat → Bool) :
    ∀ n s, (∀ b ∈ s, b < 256) → ∀ c ∈ quoteBody wide n s, 32 ≤ c ∧ c ≠ 127 := by
  intro n
  induction n with
  | zero => intro s _ c hc; simp [quoteBody] at hc
  | succ n ih =>
    intro s hb
    cases s with
    | nil => intro c hc; simp [quoteBody] at hc
    | cons b s =>
      have hbs : ∀ x ∈ s, x < 256 := fun x hx => hb x (List.mem_cons_of_mem _ hx)
      have hb0 := hb b (List.mem_cons_self _ _)
      have a1 := lowerhex_clean (b / 16) (by omega)
      have a2 := lowerhex_mod b
      simp only [quoteBody]
      split_ifs with hc0
      · intro c hc
        simp only [List.cons_append, List.nil_append, List.mem_cons] at hc
        rcases hc with rfl | rfl | rfl | rfl | hc
        · omega
        · omega
        · exact a1
        · exact a2
        · exact ih s hbs c hc
      · intro c hc
        simp only [List.mem_append] at hc
        rcases hc with hc | hc
        · refine escapeRune_clean wide _ _ ?_ c hc
          rcases DecodeRune_spec b s with ⟨hd, hlt⟩ | ⟨hd, hge⟩ | he
          · left
            rw [hd]
            exact ⟨rfl, hlt⟩
          · exfalso
            apply hc0
            rw [hd]
            rfl
          · right
            exact ⟨he.2.1, fun x hx => (he.2.2.2.2.2.2 x hx).1⟩
        · exact ih _ (fun x hx => hb x (List.mem_of_mem_drop hx)) c hc

/-- The decimal rendering has no leading zero: it begins with 0 only for the number 0. -/
theorem decimalDigits_head (f : Nat) :
    ∀ n, n < f → (decimalDigits f n).head? = some 48 → n = 0 := by
  induction f with
  | zero => intro n h; omega
  | succ f ih =>
    intro n h hh
    simp only [decimalDigits] at hh
    by_cases hn : n < 10
    · simp only [hn, if_true, List.head?_cons, Option.some.injEq] at hh
      omega
    · simp only [hn, if_false] at hh
      have hne := (decimalDigits_spec f (n / 10) (by omega)).2.2
      rw [List.head?_append_of_ne_nil _ hne] at hh
      have := ih (n / 10) (by omega) hh
      omega

/-! ## The claims -/

/-- C10. Pattern matcher: FindToken of a PatternTokenType returns no token
exactly when no listed pattern is a prefix of s; a token it returns has as
Literal the first listed pattern, in list order, that is a prefix of s, the
position p, the matcher itself as Type and no submatches. -/
theorem pattern_FindToken (id : TokenID) (patterns : List Str) (s : Str) (p : Position) :
    ((TokenType.Pattern id patterns).FindToken s p = none ↔ ∀ x ∈ patterns, ¬ x <+: s) ∧
    ((∃ x ∈ patterns, x <+: s) ↔ ∃ t, (TokenType.Pattern id patterns).FindToken s p = some t) ∧
    ∀ t, (TokenType.Pattern id patterns).FindToken s p = some t →
      (∃ pre post, patterns = pre ++ t.Literal :: post ∧ t.Literal <+: s ∧
        ∀ y ∈ pre, ¬ y <+: s) ∧
      t.Position = p ∧ t.Typ = TokenType.Pattern id patterns ∧ t.Submatches = [] := by
  have key : (TokenType.Pattern id patterns).FindToken s p = none ↔
      ∀ x ∈ patterns, ¬ x <+: s := by
    rw [← findPattern_none]
    simp only [TokenType.FindToken]
    cases findPattern s patterns <;> simp
  refine ⟨key, ?_, ?_⟩
  · constructor
    · rintro ⟨x, hx, hp⟩
      cases h : (TokenType.Pattern id patterns).FindToken s p with
      | none => exact absurd hp (key.mp h x hx)
      | some t => exact ⟨t, rfl⟩
    · rintro ⟨t, ht⟩
      by_contra hne
      push_neg at hne
      rw [key.mpr hne] at ht
      cases ht
  · intro t ht
    simp only [TokenType.FindToken] at ht
    cases hf : findPattern s patterns with
    | none => simp [hf] at ht
    | some x =>
      simp [hf] at ht
      subst ht
      exact ⟨findPattern_some s patterns x hf, rfl, rfl, rfl⟩

/-- C7. Scan decomposition: Scan returns exactly the pair Peek returns, and
its state is the state Peek leaves with, when a token was produced, the
length of the literal removed from the front of the buffer, the cursor
advanced by the literal, and loadedLine set to the text after the last line
terminator of the literal when it has one, else extended by the literal;
without a token the state is the one Peek leaves. -/
theorem Scan_decomposition (fuel : Nat) (l : Lexer) :
    (Peek fuel l = none ↔ Scan fuel l = none) ∧
    ∀ l1 t e, Peek fuel l = some (l1, t, e) →
      ∃ l2, Scan fuel l = some (l2, t, e) ∧
        (t = none → l2 = l1) ∧
        ∀ tok, t = some tok →
          l1.buf.take tok.Literal.length ++ l2.buf = l1.buf ∧
          l2.buf = l1.buf.drop tok.Literal.length ∧
          l2.nextPos = shiftPos l1.nextPos tok.Literal ∧
          l2.loadedLine =
            (if 10 ∈ tok.Literal then textAfterLastTerminator tok.Literal
             else l1.loadedLine ++ tok.Literal) ∧
          l2.reader = l1.reader ∧ l2.Whitespace = l1.Whitespace ∧
          l2.TokenTypes = l1.TokenTypes := by
  constructor
  · unfold Scan
    cases h : Peek fuel l with
    | none => simp
    | some r => obtain ⟨l1, t, e⟩ := r; simp
  · intro l1 t e h
    refine ⟨consumeBuffer l1 t, by simp [Scan, h], ?_, ?_⟩
    · intro ht; subst ht; rfl
    · intro tok ht
      subst ht
      refine ⟨by simp [consumeBuffer], rfl, rfl, ?_, rfl, rfl, rfl⟩
      simp only [consumeBuffer]
      cases hi : LastIndex tok.Literal 10 with
      | none =>
        have := (LastIndex_none tok.Literal 10).mp hi
        simp [this]
      | some i =>
        obtain ⟨h1, h2⟩ := LastIndex_drop tok.Literal i hi
        simp [h1, h2]

/-- C1, as stated, fails on a stream that delivers its input in pieces. The
stream delivers a, b, c in three reads and the rules are the patterns abc and
then ab. The first rule is tried when the buffer holds ab, the refill before
the second attempt brings c, and Peek returns the token of the second rule
although the first rule matches the buffer abc it leaves. -/
theorem Peek_rule_order_counterexample :
    Peek 5 { NewLexer [[97], [98], [99]] with
              TokenTypes := [.Pattern 1 [[97, 98, 99]], .Pattern 2 [[97, 98]]] } =
      some ({ NewLexer [] with
              buf := [97, 98, 99]
              TokenTypes := [.Pattern 1 [[97, 98, 99]], .Pattern 2 [[97, 98]]] },
        some { Typ := .Pattern 2 [[97, 98]], Literal := [97, 98], Submatches := [],
               Position := ⟨0, 0⟩ }, none) ∧
    (TokenType.Pattern 1 [[97, 98, 99]]).FindToken [97, 98, 99] ⟨0, 0⟩ =
      some { Typ := .Pattern 1 [[97, 98, 99]], Literal := [97, 98, 99], Submatches := [],
             Position := ⟨0, 0⟩ } := by
  set_option maxRecDepth 100000 in decide

/-- C1, amended. Rule-order precedence in Peek when no refill delivers input
during the call, that is when whitespace skipping leaves the buffer settled
(stream exhausted or at least 1024 bytes buffered): a token Peek returns is
the token of the earliest rule in TokenTypes that matches the
whitespace-stripped buffer prefix, no earlier rule matches it, the Type of
the token is that rule, and no error comes with it. -/
theorem Peek_rule_order (fuel : Nat) (l l1 l2 : Lexer) (t : Token)
    (e : Option UnknownTokenError)
    (hs : skipWhitespace fuel l = some l1) (hq : Settled l1)
    (hp : Peek fuel l = some (l2, some t, e)) :
    e = none ∧ l2 = l1 ∧
    ∃ pre tt post, l.TokenTypes = pre ++ tt :: post ∧
      tt.FindToken l2.buf l2.nextPos = some t ∧ t.Typ = tt ∧
      ∀ r ∈ pre, r.FindToken l2.buf l2.nextPos = none := by
  by_cases hne : l.TokenTypes = []
  · rw [Peek_no_rules fuel l hne] at hp
    simp at hp
  · rw [Peek_of_settled fuel l l1 hs hq hne] at hp
    cases hf : firstMatch l.TokenTypes l1.buf l1.nextPos with
    | none =>
      rw [hf] at hp
      simp only at hp
      split at hp <;> simp at hp
    | some t1 =>
      rw [hf] at hp
      simp only [Option.some.injEq, Prod.mk.injEq] at hp
      obtain ⟨h1, h2, h3⟩ := hp
      subst h1 h2 h3
      obtain ⟨pre, tt, post, g1, g2, g3⟩ := firstMatch_some _ _ _ _ hf
      exact ⟨rfl, rfl, pre, tt, post, g1, g2, (FindToken_Typ _ _ _ _ g2).1, g3⟩

theorem Peek_rule_order_witness :
    skipWhitespace 5 abcLexer = some abcLexerSkipped ∧ Settled abcLexerSkipped ∧
    Peek 5 abcLexer = some (abcLexerSkipped, some abToken, none) ∧
    ((none : Option UnknownTokenError) = none ∧ abcLexerSkipped = abcLexerSkipped ∧
      ∃ pre tt post, abcLexer.TokenTypes = pre ++ tt :: post ∧
        tt.FindToken abcLexerSkipped.buf abcLexerSkipped.nextPos = some abToken ∧
        abToken.Typ = tt ∧
        ∀ r ∈ pre, r.FindToken abcLexerSkipped.buf abcLexerSkipped.nextPos = none) :=
  have h1 : skipWhitespace 5 abcLexer = some abcLexerSkipped := by
    set_option maxRecDepth 100000 in decide
  have h2 : Settled abcLexerSkipped := Or.inl rfl
  have h3 : Peek 5 abcLexer = some (abcLexerSkipped, some abToken, none) := by
    set_option maxRecDepth 100000 in decide
  ⟨h1, h2, h3, Peek_rule_order 5 abcLexer abcLexerSkipped abcLexerSkipped _ none h1 h2 h3⟩

/-- C6, as stated, fails on a stream that delivers its input in pieces: with
the default rules and reads delivering a, b, c, the first Peek returns the
identifier ab and the second Peek, after its own refill, the identifier abc. -/
theorem Peek_idempotent_counterexample :
    (Peek 5 slowLexer).map (fun r => r.2.1.map Token.Literal) = some (some [97, 98]) ∧
    ((Peek 5 slowLexer).bind (fun r => Peek 5 r.1)).map (fun r => r.2.1.map Token.Literal) =
      some (some [97, 98, 99]) := by
  set_option maxRecDepth 100000 in decide

/-- C6, amended. Peek idempotence when no input arrives between the calls:
for every configuration and every state in which whitespace skipping leaves
the buffer settled (stream exhausted or at least 1024 bytes buffered), Peek
returns a result, a second Peek returns the identical result (same token,
same error, or neither), and the second call leaves the whole state, buffer,
cursor and loadedLine included, as the first call left it. -/
theorem Peek_idempotent (fuel : Nat) (l l1 : Lexer)
    (hs : skipWhitespace fuel l = some l1) (hq : Settled l1) :
    ∃ l2 r, Peek fuel l = some (l2, r) ∧ Peek fuel l2 = some (l2, r) := by
  by_cases hne : l.TokenTypes = []
  · exact ⟨l, _, Peek_no_rules fuel l hne, Peek_no_rules fuel l hne⟩
  · have hc := skipWhitespace_config fuel l l1 hs
    have hne1 : l1.TokenTypes ≠ [] := by rw [hc.2]; exact hne
    have hagain := skipWhitespace_again fuel l l1 hs hq
    refine ⟨l1, _, Peek_of_settled fuel l l1 hs hq hne, ?_⟩
    rw [Peek_of_settled fuel l1 l1 hagain hq hne1, hc.2]

theorem Peek_idempotent_witness :
    skipWhitespace 5 abcLexer = some abcLexerSkipped ∧ Settled abcLexerSkipped ∧
    ∃ l2 r, Peek 5 abcLexer = some (l2, r) ∧ Peek 5 l2 = some (l2, r) :=
  have h1 : skipWhitespace 5 abcLexer = some abcLexerSkipped := by
    set_option maxRecDepth 100000 in decide
  ⟨h1, Or.inl rfl, Peek_idempotent 5 abcLexer abcLexerSkipped h1 (Or.inl rfl)⟩

/-- C3, as stated, fails in its last part on a stream that delivers its input
in pieces: with the rule [0-9]+ and reads delivering three @ signs one at a
time, Scan returns the error of literal @@ and, called again in that state,
the error of literal @@@. -/
theorem Scan_retry_counterexample :
    (Scan 5 atLexer).map (fun r => r.2) = some (none, some ⟨[64, 64], ⟨0, 0⟩⟩) ∧
    ((Scan 5 atLexer).bind (fun r => Scan 5 r.1)).map (fun r => r.2) =
      some (none, some ⟨[64, 64, 64], ⟨0, 0⟩⟩) := by
  set_option maxRecDepth 100000 in decide

/-- C3, amended. Error atomicity: when Scan returns an unrecognized-input
error, it returns what Peek returns and consumes nothing: the state is the
one Peek leaves. When whitespace skipping leaves the buffer settled, that
state is exactly the state after whitespace elision (there being a rule to
try), and calling Scan again in it returns the same error with the same
literal and position. -/
theorem Scan_error_atomic (fuel : Nat) (l l2 : Lexer) (err : UnknownTokenError)
    (hsc : Scan fuel l = some (l2, none, some err)) :
    Peek fuel l = some (l2, none, some err) ∧
    ∀ l1, skipWhitespace fuel l = some l1 → Settled l1 →
      (l.TokenTypes ≠ [] → l2 = l1) ∧ Scan fuel l2 = some (l2, none, some err) := by
  have hp : Peek fuel l = some (l2, none, some err) := by
    unfold Scan at hsc
    cases h : Peek fuel l with
    | none => rw [h] at hsc; simp at hsc
    | some r =>
      obtain ⟨l', t, e⟩ := r
      rw [h] at hsc
      simp only [Option.some.injEq, Prod.mk.injEq] at hsc
      obtain ⟨h1, h2, h3⟩ := hsc
      subst h2 h3
      simp only [consumeBuffer] at h1
      rw [h1]
  refine ⟨hp, ?_⟩
  intro l1 hs hq
  obtain ⟨l3, r, g1, g2⟩ := Peek_twice fuel l l1 hs hq
  rw [hp] at g1
  simp only [Option.some.injEq, Prod.mk.injEq] at g1
  obtain ⟨g3, g4⟩ := g1
  subst g3 g4
  refine ⟨?_, by simp [Scan, g2, consumeBuffer]⟩
  intro hne
  rw [Peek_of_settled fuel l l1 hs hq hne] at hp
  simp only [Option.some.injEq, Prod.mk.injEq] at hp
  exact hp.1.symm

theorem Scan_error_atomic_witness :
    Scan 5 atLexerFull = some (atLexerFull, none, some ⟨[64, 64, 64], ⟨0, 0⟩⟩) ∧
    (Peek 5 atLexerFull = some (atLexerFull, none, some ⟨[64, 64, 64], ⟨0, 0⟩⟩) ∧
    ∀ l1, skipWhitespace 5 atLexerFull = some l1 → Settled l1 →
      (atLexerFull.TokenTypes ≠ [] → atLexerFull = l1) ∧
      Scan 5 atLexerFull = some (atLexerFull, none, some ⟨[64, 64, 64], ⟨0, 0⟩⟩)) :=
  have h : Scan 5 atLexerFull = some (atLexerFull, none, some ⟨[64, 64, 64], ⟨0, 0⟩⟩) := by
    set_option maxRecDepth 100000 in decide
  ⟨h, Scan_error_atomic 5 _ _ _ h⟩

/-- C2, as stated, fails when a rule matches at an offset inside a character:
makeError steps from one character of the buffer to the next and tests no
offset in between. The buffer holds the two bytes C3 A9 of one character and
the rule is the pattern A9: the smallest offset at which a rule matches the
rest of the buffer is 1, and the error literal is the whole buffer, not its
first byte. -/
theorem Peek_error_span_counterexample :
    Peek 5 accentLexer =
      some ({ accentLexer with reader := [], buf := [0xC3, 0xA9] }, none,
        some ⟨[0xC3, 0xA9], ⟨0, 0⟩⟩) ∧
    matchesAt accentLexer ([0xC3, 0xA9].drop 0) = false ∧
    matchesAt accentLexer ([0xC3, 0xA9].drop 1) = true ∧
    [0xC3, 0xA9].take 1 ≠ [0xC3, 0xA9] := by
  set_option maxRecDepth 100000 in decide

/-- C2, amended. Minimal-span error: whenever Peek returns an error, the
buffer is not empty, the Position of the error is the current cursor and its
Literal is buffer[:k], where k is the smallest offset starting a character
(rune) of the buffer at which the whitespace matcher or a configured rule
matches the rest of the buffer; when there is no such offset the Literal is
the whole remaining buffer. In a buffer of ASCII text every offset starts a
character. -/
theorem Peek_error_minimal (fuel : Nat) (l l2 : Lexer) (err : UnknownTokenError)
    (hp : Peek fuel l = some (l2, none, some err)) :
    err.Position = l2.nextPos ∧ l2.buf ≠ [] ∧
    ((∃ k, RuneStart l2.buf k ∧ k < l2.buf.length ∧ matchesAt l2 (l2.buf.drop k) = true ∧
        (∀ j, RuneStart l2.buf j → j < k → matchesAt l2 (l2.buf.drop j) = false) ∧
        err.Literal = l2.buf.take k) ∨
     ((∀ j, RuneStart l2.buf j → j < l2.buf.length → matchesAt l2 (l2.buf.drop j) = false) ∧
        err.Literal = l2.buf)) ∧
    ((∀ b ∈ l2.buf, b < 128) → ∀ k, k ≤ l2.buf.length → RuneStart l2.buf k) := by
  obtain ⟨h1, h2⟩ := Peek_error fuel l l2 err hp
  subst h1
  have h := makeErrorFrom_spec l2 l2.buf.length 0 RuneStart.zero (by omega)
    (fun j _ hj => absurd hj (Nat.not_lt_zero j))
  refine ⟨h.1, ?_, h.2, RuneStart_ascii l2.buf⟩
  intro hb
  rw [hb] at h2
  simp at h2

theorem Peek_error_minimal_witness :
    Scan 5 spanLexer =
      some (spanLexerAt, some ⟨digitsRule, [49, 50], [], ⟨0, 0⟩⟩, none) ∧
    Peek 5 spanLexerAt = some (spanLexerAt, none, some ⟨[64, 64], ⟨0, 2⟩⟩) ∧
    ((⟨[64, 64], ⟨0, 2⟩⟩ : UnknownTokenError).Position = spanLexerAt.nextPos ∧
      spanLexerAt.buf ≠ [] ∧
      ((∃ k, RuneStart spanLexerAt.buf k ∧ k < spanLexerAt.buf.length ∧
          matchesAt spanLexerAt (spanLexerAt.buf.drop k) = true ∧
          (∀ j, RuneStart spanLexerAt.buf j → j < k →
            matchesAt spanLexerAt (spanLexerAt.buf.drop j) = false) ∧
          (⟨[64, 64], ⟨0, 2⟩⟩ : UnknownTokenError).Literal = spanLexerAt.buf.take k) ∨
       ((∀ j, RuneStart spanLexerAt.buf j → j < spanLexerAt.buf.length →
            matchesAt spanLexerAt (spanLexerAt.buf.drop j) = false) ∧
          (⟨[64, 64], ⟨0, 2⟩⟩ : UnknownTokenError).Literal = spanLexerAt.buf)) ∧
      ((∀ b ∈ spanLexerAt.buf, b < 128) →
        ∀ k, k ≤ spanLexerAt.buf.length → RuneStart spanLexerAt.buf k)) :=
  have h1 : Scan 5 spanLexer =
      some (spanLexerAt, some ⟨digitsRule, [49, 50], [], ⟨0, 0⟩⟩, none) := by
    set_option maxRecDepth 100000 in decide
  have h2 : Peek 5 spanLexerAt = some (spanLexerAt, none, some ⟨[64, 64], ⟨0, 2⟩⟩) := by
    set_option maxRecDepth 100000 in decide
  ⟨h1, h2, Peek_error_minimal 5 spanLexerAt spanLexerAt _ h2⟩

/-- C9. Position correctness: in a state whose cursor is the advance of the
origin by all text consumed so far (as in a new lexer, and as this theorem
keeps it), the Position of a token Scan returns is the advance of the origin
(line 0, column 0) by all text consumed before the token, earlier tokens and
elided whitespace: its line is the number of line terminators in that text
and its column the number of characters after the last of them (all of them
when there is none). -/
theorem Position_correct (fuel : Nat) (l l2 : Lexer) (t : Token)
    (e : Option UnknownTokenError)
    (hinv : l.nextPos = shiftPos ⟨0, 0⟩ l.consumed.flatten)
    (hs : Scan fuel l = some (l2, some t, e)) :
    ∃ before, l2.consumed = before ++ [t.Literal] ∧
      t.Position = shiftPos ⟨0, 0⟩ before.flatten ∧
      t.Position.Line = List.count 10 before.flatten ∧
      t.Position.Column = (textAfterLastTerminator before.flatten).length ∧
      l2.nextPos = shiftPos ⟨0, 0⟩ l2.consumed.flatten := by
  obtain ⟨l1, hp, hl2⟩ := Scan_token fuel l l2 t e hs
  obtain ⟨hloop, _, hne⟩ := Peek_token fuel l l1 t e hp
  have hread : ∀ x : Lexer, x.nextPos = shiftPos ⟨0, 0⟩ x.consumed.flatten →
      (readBufIfNeed x).nextPos = shiftPos ⟨0, 0⟩ (readBufIfNeed x).consumed.flatten := by
    intro x hx
    rw [(readBufIfNeed_config x).2.2.1, (readBufIfNeed_config x).2.2.2.2]
    exact hx
  have hcons : ∀ (x : Lexer) (tok : Token), x.nextPos = shiftPos ⟨0, 0⟩ x.consumed.flatten →
      (consumeBuffer x (some tok)).nextPos =
        shiftPos ⟨0, 0⟩ (consumeBuffer x (some tok)).consumed.flatten := by
    intro x tok hx
    simp only [consumeBuffer, List.flatten_append, List.flatten_cons, List.flatten_nil,
      List.append_nil, shiftPos_append, ← hx]
  obtain ⟨⟨l0, h0, hl1⟩, htok⟩ :=
    peekLoop_inv (fun x => x.nextPos = shiftPos ⟨0, 0⟩ x.consumed.flatten) hread
      (fun x _ tok _ _ hx => hcons x tok hx) fuel l.TokenTypes l l1 (some t) hinv hne hloop
  have h1 : l1.nextPos = shiftPos ⟨0, 0⟩ l1.consumed.flatten := by
    rw [hl1]; exact hread l0 h0
  obtain ⟨tt, _, hf⟩ := htok t rfl
  have hpos : t.Position = l1.nextPos := (FindToken_Typ tt _ _ t hf).2
  have hline := shiftPos_eq ⟨0, 0⟩ l1.consumed.flatten
  refine ⟨l1.consumed, by rw [hl2]; rfl, by rw [hpos, h1], ?_, ?_, by rw [hl2]; exact hcons l1 t h1⟩
  · rw [hpos, h1, hline]; simp
  · rw [hpos, h1, hline]
    by_cases hm : 10 ∈ l1.consumed.flatten
    · simp [hm]
    · simp [hm, textAfterLastTerminator_of_not_mem _ hm]

theorem Position_correct_witness :
    scanPositions 5 4 letterLexer = [⟨0, 0⟩, ⟨0, 1⟩, ⟨1, 0⟩, ⟨1, 1⟩] ∧
    letterLexer3.nextPos = shiftPos ⟨0, 0⟩ letterLexer3.consumed.flatten ∧
    Scan 5 letterLexer3 =
      some (consumeBuffer letterLexer3 (some ⟨letterRule, [100], [], ⟨1, 1⟩⟩),
        some ⟨letterRule, [100], [], ⟨1, 1⟩⟩, none) ∧
    ∃ before,
      (consumeBuffer letterLexer3 (some ⟨letterRule, [100], [], ⟨1, 1⟩⟩)).consumed =
        before ++ [[100]] ∧
      (⟨1, 1⟩ : Position) = shiftPos ⟨0, 0⟩ before.flatten ∧
      (1 : Int) = List.count 10 before.flatten ∧
      (1 : Int) = (textAfterLastTerminator before.flatten).length ∧
      (consumeBuffer letterLexer3 (some ⟨letterRule, [100], [], ⟨1, 1⟩⟩)).nextPos =
        shiftPos ⟨0, 0⟩
          (consumeBuffer letterLexer3 (some ⟨letterRule, [100], [], ⟨1, 1⟩⟩)).consumed.flatten :=
  have h0 : scanPositions 5 4 letterLexer = [⟨0, 0⟩, ⟨0, 1⟩, ⟨1, 0⟩, ⟨1, 1⟩] := by
    set_option maxRecDepth 100000 in decide
  have h1 : letterLexer3.nextPos = shiftPos ⟨0, 0⟩ letterLexer3.consumed.flatten := by decide
  have h2 : Scan 5 letterLexer3 =
      some (consumeBuffer letterLexer3 (some ⟨letterRule, [100], [], ⟨1, 1⟩⟩),
        some ⟨letterRule, [100], [], ⟨1, 1⟩⟩, none) := by
    set_option maxRecDepth 100000 in decide
  ⟨h0, h1, h2, Position_correct 5 letterLexer3 _ _ none h1 h2⟩

/-- C17. Classification-id display: String of a TokenID is OTHER for -1, IDENT
for -2, NUMBER for -3, STRING for -4, and for every other integer n the text
UNKNOWN( followed by the decimal rendering of n and a closing parenthesis;
the four built-in ids are pairwise distinct, and String of either matcher
variant is the rendering of its id. -/
theorem TokenID_String :
    (OTHER = -1 ∧ IDENT = -2 ∧ NUMBER = -3 ∧ STRING = -4) ∧
    (TokenID.String (-1) = ascii "OTHER" ∧ TokenID.String (-2) = ascii "IDENT" ∧
      TokenID.String (-3) = ascii "NUMBER" ∧ TokenID.String (-4) = ascii "STRING") ∧
    (∀ n : Int, n ≠ -1 → n ≠ -2 → n ≠ -3 → n ≠ -4 →
      TokenID.String n = ascii "UNKNOWN(" ++ Itoa n ++ ascii ")") ∧
    (∀ n : Int, (0 ≤ n → (decimalValue (Itoa n) : Int) = n ∧ ∀ d ∈ Itoa n, 48 ≤ d ∧ d ≤ 57) ∧
      (n < 0 → Itoa n = 45 :: Itoa (-n))) ∧
    (OTHER ≠ IDENT ∧ OTHER ≠ NUMBER ∧ OTHER ≠ STRING ∧ IDENT ≠ NUMBER ∧ IDENT ≠ STRING ∧
      NUMBER ≠ STRING) ∧
    (∀ id re, (TokenType.Regexp id re).String = TokenID.String id) ∧
    (∀ id ps, (TokenType.Pattern id ps).String = TokenID.String id) ∧
    TokenID.String 7 = ascii "UNKNOWN(7)" ∧ TokenID.String (-5) = ascii "UNKNOWN(-5)" := by
  refine ⟨⟨rfl, rfl, rfl, rfl⟩, ⟨by decide, by decide, by decide, by decide⟩, ?_, ?_,
    by decide, fun _ _ => rfl, fun _ _ => rfl, by decide, by decide⟩
  · intro n h1 h2 h3 h4
    simp only [TokenID.String, OTHER, IDENT, NUMBER, STRING]
    rw [if_neg h1, if_neg h2, if_neg h3, if_neg h4]
  · intro n
    refine ⟨?_, Itoa_neg n⟩
    intro hn
    have hlt : ¬ n < 0 := by omega
    obtain ⟨h1, h2, _⟩ := decimalDigits_spec (n.natAbs + 1) n.natAbs (by omega)
    simp only [Itoa, hlt, if_false]
    refine ⟨?_, h2⟩
    rw [h1]
    omega

/-- C12. Capture propagation: FindToken of a RegexpTokenType returns a token
exactly when the expression matches somewhere in the input; the Literal of
the token is the full match, its Submatches are the texts of the capture
groups 1, 2, ... in order, the whole match left out, as many as the
expression has groups, its Position is the position argument and its Type
the matcher. The pattern \"([^"]*)\" on the input hello between double
quotes yields the quoted text as literal and the one submatch hello. -/
theorem Regexp_FindToken (id : TokenID) (re : Regexp) (s : Str) (p : Position) :
    ((TokenType.Regexp id re).FindToken s p = none ↔ re.search (s.length + 1) 0 s = none) ∧
    (∀ t, (TokenType.Regexp id re).FindToken s p = some t →
      ∃ start th, re.search (s.length + 1) 0 s = some (start, th) ∧
        t.Literal = (s.drop start).take (th.1 - start) ∧
        t.Submatches = (List.range re.numGroups).map (fun i => capture th.2.2 (i + 1)) ∧
        t.Submatches.length = re.numGroups ∧
        re.FindStringSubmatch s = t.Literal :: t.Submatches ∧
        t.Position = p ∧ t.Typ = TokenType.Regexp id re) ∧
    DefaultTokenTypes[2]? = some stringRule ∧
    stringRule.FindToken (ascii "\"hello\"") p =
      some ⟨stringRule, ascii "\"hello\"", [ascii "hello"], p⟩ := by
  refine ⟨?_, ?_, rfl, rfl⟩
  · simp only [TokenType.FindToken, Regexp.FindStringSubmatch]
    cases re.search (s.length + 1) 0 s with
    | none => simp
    | some r => simp
  · intro t h
    simp only [TokenType.FindToken, Regexp.FindStringSubmatch] at h
    cases hs : re.search (s.length + 1) 0 s with
    | none => rw [hs] at h; simp at h
    | some r =>
      obtain ⟨start, th⟩ := r
      rw [hs] at h
      simp only [Option.some.injEq] at h
      subst h
      refine ⟨start, th, rfl, rfl, rfl, by simp, ?_, rfl, rfl⟩
      simp only [Regexp.FindStringSubmatch, hs]

/-- C18. Refill exactness fails for zero bytes: readBufIfNeed leaves a buffer
of at least 1024 bytes unchanged and otherwise makes one read of at most
2048 bytes, but what it appends is the delivered text with its trailing zero
bytes trimmed off. A stream that delivers the byte a followed by a zero byte
leaves only a in the buffer, and the stream is then exhausted: the zero byte
of the input is lost. -/
theorem readBufIfNeed_drops_zero :
    (∀ l : Lexer, 1024 ≤ l.buf.length → readBufIfNeed l = l) ∧
    (∀ l : Lexer, l.buf.length < 1024 →
      (readBufIfNeed l).buf = l.buf ++ TrimRight (Read l.reader 2048).1 0 ∧
      (readBufIfNeed l).reader = (Read l.reader 2048).2 ∧
      (Read l.reader 2048).1.length ≤ 2048) ∧
    Read [[97, 0]] 2048 = ([97, 0], []) ∧
    (readBufIfNeed (NewLexer [[97, 0]])).buf = [97] ∧
    (readBufIfNeed (NewLexer [[97, 0]])).reader = [] ∧
    (NewLexer [[97, 0]]).buf ++ (Read [[97, 0]] 2048).1 ≠
      (readBufIfNeed (NewLexer [[97, 0]])).buf := by
  refine ⟨fun l h => readBufIfNeed_settled l (Or.inr h), ?_, by decide, ?_, ?_, ?_⟩
  · intro l h
    rw [readBufIfNeed_eq]
    simp only [h, if_true, true_and]
    unfold Read
    split
    · simp
    · split
      · next hle => simpa using hle
      · simp
  · rw [readBufIfNeed_eq]; decide
  · rw [readBufIfNeed_eq]; decide
  · rw [readBufIfNeed_eq]; decide

/-- C13. End of input: Peek returns neither token nor error only when the
buffer is empty, and when the rule loop ends without a match on an empty
buffer it returns neither. But Peek tries the rules before it looks whether
the buffer is empty: over an empty stream, with the one rule a*, which
matches the empty text, Peek returns a token (of empty literal) although the
buffer is empty. -/
theorem Peek_end_of_input :
    (∀ fuel l l1, Peek fuel l = some (l1, none, none) → l1.buf = []) ∧
    (∀ fuel l l1, peekLoop fuel l.TokenTypes l = some (l1, none) → l1.buf = [] →
      Peek fuel l = some (l1, none, none)) ∧
    Peek 5 starLexer = some (starLexer, some ⟨starRule, [], [], ⟨0, 0⟩⟩, none) ∧
    starLexer.buf = [] ∧ starLexer.reader = [] := by
  refine ⟨fun fuel l l1 h => (Peek_end fuel l l1 h).2, ?_,
    by set_option maxRecDepth 100000 in decide, rfl, rfl⟩
  intro fuel l l1 h hb
  simp [Peek, h, hb]

/-- C16. Shadowing by the catch-all: with the default whitespace matcher and
the default rules followed by an additional rule, on a settled buffer that is
not empty Peek returns a token of one of the four default rules. But on an
empty buffer the catch-all matches nothing and the additional rule is tried:
with the additional rule x* and the input a, the second Scan returns a token
of the additional rule (of empty literal). -/
theorem extra_rule_used :
    (∀ fuel l l1 extra, l.Whitespace = some DefaultWhitespace →
      l.TokenTypes = DefaultTokenTypes ++ [extra] → skipWhitespace fuel l = some l1 →
      Settled l1 → l1.buf ≠ [] →
      ∃ t, Peek fuel l = some (l1, some t, none) ∧
        ∃ tt ∈ DefaultTokenTypes, tt.FindToken l1.buf l1.nextPos = some t) ∧
    extraRule ∉ DefaultTokenTypes ∧
    (Scan 5 extraLexer).map (fun r => r.2.1.map (fun t => (t.Typ.GetID, t.Literal))) =
      some (some (IDENT, [97])) ∧
    ((Scan 5 extraLexer).bind (fun r => Scan 5 r.1)).map (fun r => r.2) =
      some (some ⟨extraRule, [], [], ⟨0, 1⟩⟩, none) := by
  refine ⟨?_, by decide, by set_option maxRecDepth 100000 in decide,
    by set_option maxRecDepth 100000 in decide⟩
  intro fuel l l1 extra hw ht hs hq hb
  have hne : l.TokenTypes ≠ [] := by rw [ht]; simp [DefaultTokenTypes]
  have hp := Peek_of_settled fuel l l1 hs hq hne
  cases hbuf : l1.buf with
  | nil => exact absurd hbuf hb
  | cons b s =>
    have h1 := skipWhitespace_post fuel l l1 _ hw hs
    rw [hbuf] at h1
    obtain ⟨t, h2⟩ := firstMatch_default b s l1.nextPos (DefaultWhitespace_none b s _ h1)
    have h3 := firstMatch_append_some DefaultTokenTypes [extra] _ _ t h2
    rw [ht, hbuf, h3] at hp
    refine ⟨t, hp, ?_⟩
    obtain ⟨pre, tt, post, g1, g2, _⟩ := firstMatch_some _ _ _ _ h2
    exact ⟨tt, by rw [g1]; simp, g2⟩

/-- C19. Termination of whitespace skipping: with a whitespace Pattern matcher
none of whose entries is the empty string, skipWhitespace, Peek and Scan
return once the fuel exceeds the number of bytes buffered and still to be
delivered, each iteration of the loop removing a literal that is not empty;
with a whitespace Pattern matcher that lists the empty string the matcher
always matches, and skipWhitespace, and Peek and Scan when there is a rule,
return for no fuel at all. -/
theorem skipWhitespace_termination (id : TokenID) (ps : List Str) (l : Lexer)
    (hw : l.Whitespace = some (.Pattern id ps)) :
    ([] ∉ ps → ∀ fuel, pending l < fuel →
      (∃ l1, skipWhitespace fuel l = some l1) ∧ (∃ r, Peek fuel l = some r) ∧
      (∃ r, Scan fuel l = some r) ∧
      ∀ s p t, (TokenType.Pattern id ps).FindToken s p = some t → 0 < t.Literal.length) ∧
    ([] ∈ ps → ∀ fuel, skipWhitespace fuel l = none ∧
      (l.TokenTypes ≠ [] → Peek fuel l = none ∧ Scan fuel l = none)) ∧
    (∀ (ws : TokenType) (x : Lexer) (t : Token), Settled x →
      ws.FindToken x.buf x.nextPos = some t → t.Literal = [] →
      ∀ fuel, skipWhitespaceLoop ws fuel x = none) := by
  refine ⟨?_, ?_, fun ws x t hq hf ht fuel => skipWhitespaceLoop_stuck ws t ht fuel x hq hf⟩
  · intro hps fuel hfuel
    have hpos : ∀ ws, l.Whitespace = some ws → ∀ s p t, ws.FindToken s p = some t →
        0 < t.Literal.length ∧ t.Literal.length ≤ s.length := by
      intro ws hws
      rw [hw] at hws
      simp only [Option.some.injEq] at hws
      subst hws
      exact Pattern_pos id ps hps
    have h1 : ∃ l1, skipWhitespace fuel l = some l1 := by
      unfold skipWhitespace
      rw [hw]
      exact skipWhitespaceLoop_terminates _ (Pattern_pos id ps hps) fuel l hfuel
    obtain ⟨r, hr⟩ := peekLoop_terminates fuel l.TokenTypes l hpos hfuel
    have h2 : ∃ r, Peek fuel l = some r := by
      unfold Peek
      rw [hr]
      obtain ⟨l1, t⟩ := r
      cases t with
      | some t => exact ⟨_, rfl⟩
      | none =>
        simp only
        split <;> exact ⟨_, rfl⟩
    obtain ⟨r2, hr2⟩ := h2
    refine ⟨h1, ⟨r2, hr2⟩, ?_, fun s p t h => (Pattern_pos id ps hps s p t h).1⟩
    obtain ⟨a, b, c⟩ := r2
    exact ⟨(consumeBuffer a b, b, c), by simp [Scan, hr2]⟩
  · intro hps fuel
    have h1 : skipWhitespace fuel l = none := by
      unfold skipWhitespace
      rw [hw]
      exact skipWhitespaceLoop_diverges _ (Pattern_always id ps hps) fuel l
    refine ⟨h1, ?_⟩
    intro hne
    have h2 : Peek fuel l = none := by
      unfold Peek
      cases hr : l.TokenTypes with
      | nil => exact absurd hr hne
      | cons tt rest => simp [peekLoop, h1]
    exact ⟨h2, by simp [Scan, h2]⟩

theorem skipWhitespace_termination_witness :
    emptyWsLexer.Whitespace = some (.Pattern (-1) [[32], []]) ∧
    abcLexer.Whitespace = some (.Pattern (-1) [[32], [9], [13], [10]]) ∧
    (([] ∉ [[32], [9], [13], [10]] → ∀ fuel, pending abcLexer < fuel →
      (∃ l1, skipWhitespace fuel abcLexer = some l1) ∧ (∃ r, Peek fuel abcLexer = some r) ∧
      (∃ r, Scan fuel abcLexer = some r) ∧
      ∀ s p t, (TokenType.Pattern (-1) [[32], [9], [13], [10]]).FindToken s p = some t →
        0 < t.Literal.length) ∧
    ([] ∈ [[32], [9], [13], [10]] → ∀ fuel, skipWhitespace fuel abcLexer = none ∧
      (abcLexer.TokenTypes ≠ [] → Peek fuel abcLexer = none ∧ Scan fuel abcLexer = none)) ∧
    (∀ (ws : TokenType) (x : Lexer) (t : Token), Settled x →
      ws.FindToken x.buf x.nextPos = some t → t.Literal = [] →
      ∀ fuel, skipWhitespaceLoop ws fuel x = none)) ∧
    (∀ fuel, skipWhitespace fuel emptyWsLexer = none) :=
  ⟨rfl, rfl, skipWhitespace_termination (-1) [[32], [9], [13], [10]] abcLexer rfl,
    fun fuel => ((skipWhitespace_termination (-1) [[32], []] emptyWsLexer rfl).2.1
      (by decide) fuel).1⟩

/-- C20, as stated, fails for the error on a stream that delivers its input in
pieces. The rules are the patterns abc and zz and the reads deliver a, b, c.
The first rule is tried on the buffer ab, the second on abc; no rule matched,
and makeError finds that the first rule matches at offset 0: the literal of
the error is empty. -/
theorem Peek_wellformed_counterexample :
    Peek 5 abcSlowLexer =
      some ({ abcSlowLexer with reader := [], buf := [97, 98, 99] }, none,
        some ⟨[], ⟨0, 0⟩⟩) := by
  set_option maxRecDepth 100000 in decide

/-- C20, amended. Well-formed results of Peek, for every stream and every rule
list of Pattern matchers: a token Peek returns has a Literal that is a
prefix of the buffer, so no longer than it, and the cursor as Position; an
error Peek returns has a Literal that is a prefix of the buffer and the
cursor as Position, and its Literal is not empty when whitespace skipping
leaves the buffer settled. -/
theorem Peek_wellformed (fuel : Nat) (l l2 : Lexer) (r : Result)
    (hrules : ∀ tt ∈ l.TokenTypes, ∃ id ps, tt = TokenType.Pattern id ps)
    (hp : Peek fuel l = some (l2, r)) :
    (∀ t, r.1 = some t →
      t.Literal <+: l2.buf ∧ t.Literal.length ≤ l2.buf.length ∧ t.Position = l2.nextPos) ∧
    (∀ err, r.2 = some err →
      err.Literal <+: l2.buf ∧ err.Position = l2.nextPos ∧
      (l.TokenTypes ≠ [] → ∀ l1, skipWhitespace fuel l = some l1 → Settled l1 →
        err.Literal ≠ [])) := by
  obtain ⟨rt, re⟩ := r
  constructor
  · intro t ht
    simp only at ht
    subst ht
    obtain ⟨hloop, _, hne⟩ := Peek_token fuel l l2 t re hp
    obtain ⟨_, htok⟩ := peekLoop_inv (fun _ => True) (fun _ _ => trivial)
      (fun _ _ _ _ _ _ => trivial) fuel l.TokenTypes l l2 (some t) trivial hne hloop
    obtain ⟨tt, htt, hf⟩ := htok t rfl
    obtain ⟨id, ps, rfl⟩ := hrules tt htt
    have hpre := PrefixMatcher_Pattern id ps _ _ t hf
    exact ⟨hpre, hpre.length_le, (FindToken_Typ _ _ _ t hf).2⟩
  · intro err he
    simp only at he
    subst he
    have hrt : rt = none := by
      cases rt with
      | none => rfl
      | some t =>
        have := (Peek_token fuel l l2 t (some err) hp).2.1
        cases this
    subst hrt
    obtain ⟨h1, h2⟩ := Peek_error fuel l l2 err hp
    subst h1
    refine ⟨(makeError_begins l2).1, (makeError_begins l2).2, ?_⟩
    intro hne l1 hs hq
    rw [Peek_of_settled fuel l l1 hs hq hne] at hp
    simp only [Option.some.injEq, Prod.mk.injEq] at hp
    obtain ⟨hl, hres⟩ := hp
    subst hl
    have hc := skipWhitespace_config fuel l l1 hs
    have hfm : firstMatch l1.TokenTypes l1.buf l1.nextPos = none := by
      rw [hc.2]
      cases hf : firstMatch l.TokenTypes l1.buf l1.nextPos with
      | none => rfl
      | some t => rw [hf] at hres; simp at hres
    apply makeError_nonempty l1 (by intro e; rw [e] at h2; simp at h2)
    apply matchesAt_false l1 _ hfm
    intro ws hws
    rw [hc.1] at hws
    exact skipWhitespace_post fuel l l1 ws hws hs

theorem Peek_wellformed_witness :
    (∀ tt ∈ spanPatternLexer.TokenTypes, ∃ id ps, tt = TokenType.Pattern id ps) ∧
    Peek 5 spanPatternLexer = some (spanPatternLexer, none, some ⟨[64, 64], ⟨0, 0⟩⟩) ∧
    ((∀ t, (none : Option Token) = some t →
      t.Literal <+: spanPatternLexer.buf ∧ t.Literal.length ≤ spanPatternLexer.buf.length ∧
        t.Position = spanPatternLexer.nextPos) ∧
    (∀ err, some (⟨[64, 64], ⟨0, 0⟩⟩ : UnknownTokenError) = some err →
      err.Literal <+: spanPatternLexer.buf ∧ err.Position = spanPatternLexer.nextPos ∧
      (spanPatternLexer.TokenTypes ≠ [] → ∀ l1, skipWhitespace 5 spanPatternLexer = some l1 →
        Settled l1 → err.Literal ≠ []))) :=
  have h1 : ∀ tt ∈ spanPatternLexer.TokenTypes, ∃ id ps, tt = TokenType.Pattern id ps := by
    intro tt h
    simp only [spanPatternLexer, List.mem_singleton] at h
    exact ⟨_, _, h⟩
  have h2 : Peek 5 spanPatternLexer =
      some (spanPatternLexer, none, some ⟨[64, 64], ⟨0, 0⟩⟩) := by
    set_option maxRecDepth 100000 in decide
  ⟨h1, h2, Peek_wellformed 5 spanPatternLexer spanPatternLexer _ h1 h2⟩

/-- C11. Regular-expression anchoring holds for every pattern that does not
begin with ^: NewRegexpTokenType wraps it as ^(?:pattern), the search for the
wrapped expression never succeeds at an offset after the beginning, and the
Literal of a token FindToken returns is a prefix of the input. It fails for a
pattern that begins with ^, which is compiled as given: ^a|b is the
alternation of ^a and b, and on the input xb FindToken returns the token b,
found at offset 1, whose literal is not a prefix of the input. In the lexer
Scan then returns b and removes the first byte of the buffer, x. -/
theorem Regexp_anchored :
    (∀ id re s p t, re.startsWithCaret = false →
      (NewRegexpTokenType id re).FindToken s p = some t →
        t.Literal <+: s ∧ t.Typ = NewRegexpTokenType id re ∧ t.Position = p) ∧
    (∀ re n pos s, 0 < pos →
      (Regexp.cat .beginText (.ncgroup re)).search n pos s = none) ∧
    (∀ id re, re.startsWithCaret = false →
      NewRegexpTokenType id re = .Regexp id (.cat .beginText (.ncgroup re))) ∧
    (∀ id re, re.startsWithCaret = true → NewRegexpTokenType id re = .Regexp id re) ∧
    (Regexp.alt (.cat .beginText (.lit 97)) (.lit 98)).startsWithCaret = true ∧
    caretAltRule.FindToken [120, 98] ⟨0, 0⟩ = some ⟨caretAltRule, [98], [], ⟨0, 0⟩⟩ ∧
    ¬ [98] <+: [120, 98] ∧
    (Scan 5 caretLexer).map (fun r => (r.1.buf, r.2)) =
      some ([98], some ⟨caretAltRule, [98], [], ⟨0, 0⟩⟩, none) := by
  have hwrap : ∀ id re, re.startsWithCaret = false →
      NewRegexpTokenType id re = .Regexp id (.cat .beginText (.ncgroup re)) := by
    intro id re hc
    simp [NewRegexpTokenType, hc]
  refine ⟨?_, fun re n pos s hpos => search_anchored_pos _ n pos s hpos, hwrap, ?_,
    by decide, by decide, by decide, by set_option maxRecDepth 100000 in decide⟩
  · intro id re s p t hc h
    refine ⟨?_, (FindToken_Typ _ _ _ _ h).1, (FindToken_Typ _ _ _ _ h).2⟩
    rw [hwrap id re hc] at h
    exact PrefixMatcher_anchored id _ s p t h
  · intro id re hc
    simp [NewRegexpTokenType, hc]

/-- C4, as stated, fails when a line feed arrives by the refill that follows
whitespace skipping, after a read that brought nothing. With the default
configuration and a stream whose first seven reads deliver nothing, or
nothing but a zero byte, which the refill trims off, and whose eighth
delivers a line feed, every whitespace skipping of Peek sees an empty buffer,
the refill before the last rule brings the line feed, the catch-all rule does
not match a line feed, and Peek returns an unrecognized-input error. -/
theorem default_error_counterexample :
    (Peek 5 (NewLexer [[], [], [], [], [], [], [], [10]])).map (fun r => r.2) =
      some (none, some ⟨[], ⟨0, 0⟩⟩) ∧
    (Peek 5 (NewLexer [[0], [0], [0], [0], [0], [0], [0], [10]])).map (fun r => r.2) =
      some (none, some ⟨[], ⟨0, 0⟩⟩) := by
  constructor <;> set_option maxRecDepth 100000 in decide

/-- C4, amended. Catch-all safety: with the default configuration, once the
fuel exceeds the bytes to consume, whitespace skipping, Peek and Scan return,
and over a stream none of whose reads is idle (each read before the end of
the stream brings at least one byte that the refill keeps), as also whenever
whitespace skipping leaves the buffer settled, Peek and Scan return no
unrecognized-input error: the result is a token or the clean end of input.
Then Peek leaves the state whitespace skipping left when that one is settled.
This holds at every point of a scan loop: Scan keeps the configuration,
leaves the stream without idle reads and does not add to the bytes to
consume. -/
theorem default_no_error (fuel : Nat) (l : Lexer)
    (hw : l.Whitespace = some DefaultWhitespace) (ht : l.TokenTypes = DefaultTokenTypes)
    (hfuel : pending l < fuel) :
    (∃ l1, skipWhitespace fuel l = some l1) ∧
    ∃ l2 t e, Peek fuel l = some (l2, t, e) ∧
      Scan fuel l = some (consumeBuffer l2 t, t, e) ∧
      ((Live l.reader ∨ ∃ l1, skipWhitespace fuel l = some l1 ∧ Settled l1) → e = none) ∧
      (∀ l1, skipWhitespace fuel l = some l1 → Settled l1 → l2 = l1) ∧
      (consumeBuffer l2 t).Whitespace = some DefaultWhitespace ∧
      (consumeBuffer l2 t).TokenTypes = DefaultTokenTypes ∧
      pending (consumeBuffer l2 t) ≤ pending l ∧
      (Live l.reader → Live (consumeBuffer l2 t).reader) := by
  obtain ⟨hsk, l2, t, e, hp⟩ := Peek_default_terminates fuel l hw hfuel
  have hne : l.TokenTypes ≠ [] := by rw [ht]; simp [DefaultTokenTypes]
  obtain ⟨k1, k2, k3, k4⟩ := Peek_keeps fuel l l2 (t, e) hp
  refine ⟨hsk, l2, t, e, hp, by simp [Scan, hp],
    fun hs => Peek_default_no_error fuel l l2 t e hw ht hs hp, ?_, ?_, ?_, ?_, ?_⟩
  · intro l1 hs hq
    rw [Peek_of_settled fuel l l1 hs hq hne] at hp
    simp only [Option.some.injEq, Prod.mk.injEq] at hp
    exact hp.1.symm
  · rw [(consumeBuffer_config l2 t).1, k1, hw]
  · rw [(consumeBuffer_config l2 t).2.1, k2, ht]
  · exact le_trans (pending_consume l2 t) k3
  · intro h
    rw [(consumeBuffer_config l2 t).2.2]
    exact k4 h

theorem default_no_error_witness :
    (NewLexer [[32, 97, 98]]).Whitespace = some DefaultWhitespace ∧
    (NewLexer [[32, 97, 98]]).TokenTypes = DefaultTokenTypes ∧
    pending (NewLexer [[32, 97, 98]]) < 5 ∧
    Live (NewLexer [[32, 97, 98]]).reader ∧
    ((∃ l1, skipWhitespace 5 (NewLexer [[32, 97, 98]]) = some l1) ∧
    ∃ l2 t e, Peek 5 (NewLexer [[32, 97, 98]]) = some (l2, t, e) ∧
      Scan 5 (NewLexer [[32, 97, 98]]) = some (consumeBuffer l2 t, t, e) ∧
      ((Live (NewLexer [[32, 97, 98]]).reader ∨
        ∃ l1, skipWhitespace 5 (NewLexer [[32, 97, 98]]) = some l1 ∧ Settled l1) → e = none) ∧
      (∀ l1, skipWhitespace 5 (NewLexer [[32, 97, 98]]) = some l1 → Settled l1 → l2 = l1) ∧
      (consumeBuffer l2 t).Whitespace = some DefaultWhitespace ∧
      (consumeBuffer l2 t).TokenTypes = DefaultTokenTypes ∧
      pending (consumeBuffer l2 t) ≤ pending (NewLexer [[32, 97, 98]]) ∧
      (Live (NewLexer [[32, 97, 98]]).reader → Live (consumeBuffer l2 t).reader)) :=
  ⟨rfl, rfl, by decide, Live_of_chunks _ (by decide),
    default_no_error 5 (NewLexer [[32, 97, 98]]) rfl rfl (by decide)⟩

/-- C14, as stated, fails in two ways. When whitespace arrives by the refill
that follows whitespace skipping, after a read that brought nothing, the rule
is tried on it: the first read delivers nothing, the refill before the rule
attempt brings a space and x, the rule, the pattern of a single space,
matches, and Peek returns a token whose literal is the space and leaves a
buffer that begins with a space. And with an empty rule list Peek skips no
whitespace at all: once GetLastLine has filled the buffer with a space and x,
Peek leaves that buffer as it is. -/
theorem whitespace_emitted_counterexample :
    Peek 5 lateSpaceLexer =
      some ({ lateSpaceLexer with reader := [], buf := [32, 120] },
        some ⟨.Pattern 5 [[32]], [32], [], ⟨0, 0⟩⟩, none) ∧
    (DefaultWhitespace.FindToken [32, 120] ⟨0, 0⟩).isSome = true ∧
    (GetLastLine noRuleLexer).1 = { noRuleLexer with reader := [], buf := [32, 120] } ∧
    Peek 5 (GetLastLine noRuleLexer).1 =
      some ({ noRuleLexer with reader := [], buf := [32, 120] }, none,
        some ⟨[], ⟨0, 0⟩⟩) := by
  have h : (GetLastLine noRuleLexer).1 = { noRuleLexer with reader := [], buf := [32, 120] } := by
    simp only [GetLastLine, readBufIfNeed_eq]
    decide
  refine ⟨by set_option maxRecDepth 100000 in decide, by decide, h, ?_⟩
  rw [h]
  set_option maxRecDepth 100000 in decide

/-- C14, amended. Whitespace is never emitted: with the default whitespace
matcher and a list of at least one rule, each a Pattern matcher or a regular
expression anchored at the beginning, whitespace skipping, which strips
whitespace repeatedly, and Peek and Scan return once the fuel exceeds the
bytes to consume; over a stream none of whose reads is idle (each read before
the end of the stream brings at least one byte that the refill keeps), as
also whenever whitespace skipping leaves the buffer settled, the whitespace
matcher does not match the buffer Peek leaves, and a token that Peek or Scan
returns has no literal beginning with a space, a tab, a carriage return or a
line feed, whatever the ids of the rules. Then Peek leaves the state
whitespace skipping left when that one is settled. This holds at every point
of a scan loop: Scan keeps the configuration, leaves the stream without idle
reads and does not add to the bytes to consume. -/
theorem whitespace_not_emitted (fuel : Nat) (l : Lexer)
    (hw : l.Whitespace = some DefaultWhitespace)
    (hrules : ∀ tt ∈ l.TokenTypes, AnchoredRule tt) (hne : l.TokenTypes ≠ [])
    (hfuel : pending l < fuel) :
    (∃ l1, skipWhitespace fuel l = some l1) ∧
    ∃ l2 r, Peek fuel l = some (l2, r) ∧
      Scan fuel l = some (consumeBuffer l2 r.1, r) ∧
      ((Live l.reader ∨ ∃ l1, skipWhitespace fuel l = some l1 ∧ Settled l1) →
        DefaultWhitespace.FindToken l2.buf l2.nextPos = none ∧
        ∀ t, r.1 = some t → ∀ b rest, t.Literal = b :: rest →
          b ≠ 32 ∧ b ≠ 9 ∧ b ≠ 13 ∧ b ≠ 10) ∧
      (∀ l1, skipWhitespace fuel l = some l1 → Settled l1 → l2 = l1) ∧
      (consumeBuffer l2 r.1).Whitespace = some DefaultWhitespace ∧
      (consumeBuffer l2 r.1).TokenTypes = l.TokenTypes ∧
      pending (consumeBuffer l2 r.1) ≤ pending l ∧
      (Live l.reader → Live (consumeBuffer l2 r.1).reader) := by
  obtain ⟨hsk, l2, t, e, hp⟩ := Peek_default_terminates fuel l hw hfuel
  obtain ⟨k1, k2, k3, k4⟩ := Peek_keeps fuel l l2 (t, e) hp
  refine ⟨hsk, l2, (t, e), hp, by simp [Scan, hp], ?_, ?_, ?_, ?_, ?_, ?_⟩
  · intro hs
    obtain ⟨g1, g2, _⟩ := Peek_clean fuel l l2 t e hw hne hs hp
    refine ⟨g1, ?_⟩
    intro tok htok b rest hlit
    obtain ⟨tt, htt, hf⟩ := g2 tok htok
    have hpre := PrefixMatcher_of_anchored tt (hrules tt htt) _ _ tok hf
    rw [hlit] at hpre
    obtain ⟨tail, htail⟩ := hpre
    rw [← htail] at g1
    exact DefaultWhitespace_chars b _ _ g1
  · intro l1 hs hq
    rw [Peek_of_settled fuel l l1 hs hq hne] at hp
    simp only [Option.some.injEq, Prod.mk.injEq] at hp
    exact hp.1.symm
  · rw [(consumeBuffer_config l2 t).1, k1, hw]
  · rw [(consumeBuffer_config l2 t).2.1, k2]
  · exact le_trans (pending_consume l2 t) k3
  · intro h
    rw [(consumeBuffer_config l2 t).2.2]
    exact k4 h

theorem whitespace_not_emitted_witness :
    abcLexer.Whitespace = some DefaultWhitespace ∧
    (∀ tt ∈ abcLexer.TokenTypes, AnchoredRule tt) ∧ abcLexer.TokenTypes ≠ [] ∧
    pending abcLexer < 5 ∧ Live abcLexer.reader ∧
    ((∃ l1, skipWhitespace 5 abcLexer = some l1) ∧
    ∃ l2 r, Peek 5 abcLexer = some (l2, r) ∧
      Scan 5 abcLexer = some (consumeBuffer l2 r.1, r) ∧
      ((Live abcLexer.reader ∨ ∃ l1, skipWhitespace 5 abcLexer = some l1 ∧ Settled l1) →
        DefaultWhitespace.FindToken l2.buf l2.nextPos = none ∧
        ∀ t, r.1 = some t → ∀ b rest, t.Literal = b :: rest →
          b ≠ 32 ∧ b ≠ 9 ∧ b ≠ 13 ∧ b ≠ 10) ∧
      (∀ l1, skipWhitespace 5 abcLexer = some l1 → Settled l1 → l2 = l1) ∧
      (consumeBuffer l2 r.1).Whitespace = some DefaultWhitespace ∧
      (consumeBuffer l2 r.1).TokenTypes = abcLexer.TokenTypes ∧
      pending (consumeBuffer l2 r.1) ≤ pending abcLexer ∧
      (Live abcLexer.reader → Live (consumeBuffer l2 r.1).reader)) :=
  have h1 : ∀ tt ∈ abcLexer.TokenTypes, AnchoredRule tt := by
    intro tt h
    simp only [abcLexer, abcRules, List.mem_cons, List.mem_singleton, List.not_mem_nil,
      or_false] at h
    rcases h with rfl | rfl | rfl <;> exact Or.inl ⟨_, _, rfl⟩
  ⟨rfl, h1, by decide, by decide, Live_of_chunks _ (by decide),
    whitespace_not_emitted 5 abcLexer rfl h1 (by decide) (by decide)⟩

/-- C5, as stated, fails in four ways. A read that delivers nothing makes Scan
return the end of input while the stream still holds the input a: nothing
was consumed. The refill trims the zero bytes that end a read, so of the
input a followed by a zero byte only a is ever consumed. A rule that matches
past the beginning of the buffer, as the one built from ^a|b does, has its
literal b recorded while the byte x is removed: of the input xb the literals
make up bb. And with no rule at all Scan returns the end of input without
reading anything. -/
theorem lossless_counterexample :
    (scanAll 5 5 (NewLexer [[], [], [], [], [], [], [], [], [97]])).map
      (fun r => (r.1.consumed.flatten, r.1.reader, r.2)) = some ([], [[97]], none) ∧
    (scanAll 5 5 (NewLexer [[97, 0]])).map
      (fun r => (r.1.consumed.flatten, r.1.buf, r.1.reader, r.2)) = some ([97], [], [], none) ∧
    (scanAll 5 5 caretLexer).map
      (fun r => (r.1.consumed.flatten, r.1.buf, r.1.reader, r.2)) =
        some ([98, 98], [], [], none) ∧
    (scanAll 5 5 noRuleLexer).map
      (fun r => (r.1.consumed.flatten, r.1.buf, r.1.reader, r.2)) =
        some ([], [], [[32, 120]], none) := by
  refine ⟨?_, ?_, ?_, ?_⟩ <;> set_option maxRecDepth 100000 in decide

/-- C5, amended. Lossless coverage: for every input delivered by a stream none
of whose reads is idle or ends in a zero byte, and every configuration with
at least one rule whose whitespace matcher and rules only match at the very
beginning of the text they are given, a scan loop, which calls Scan until it
returns no token, conserves the input: at its end the literals passed to
consumeBuffer, concatenated in order, followed by the buffer and the unread
stream are the text consumed, buffered and unread at the start, and when the
loop ends without an error the buffer and the stream are empty and the
literals alone reproduce that text, for a new lexer the original input, byte
for byte. The loop does end, within one call more than there are bytes to
consume, when no matcher returns an empty literal; with the default
configuration it ends without an error. -/
theorem lossless (fuel n : Nat) (l : Lexer)
    (hws : ∀ ws, l.Whitespace = some ws → PrefixMatcher ws)
    (hrules : ∀ tt ∈ l.TokenTypes, PrefixMatcher tt)
    (hne : l.TokenTypes ≠ [])
    (hlive : Live l.reader) (hkept : Faithful l.reader) :
    (∀ l2 e, scanAll fuel n l = some (l2, e) →
      l2.consumed.flatten ++ l2.buf ++ l2.reader.flatten =
        l.consumed.flatten ++ l.buf ++ l.reader.flatten ∧
      (e = none → l2.buf = [] ∧ l2.reader = [] ∧
        l2.consumed.flatten = l.consumed.flatten ++ l.buf ++ l.reader.flatten)) ∧
    ((∀ ws, l.Whitespace = some ws → ∀ s p t, ws.FindToken s p = some t → t.Literal ≠ []) →
      (∀ tt ∈ l.TokenTypes, ∀ s p t, tt.FindToken s p = some t → t.Literal ≠ []) →
      pending l < fuel → pending l < n → ∃ l2 e, scanAll fuel n l = some (l2, e)) ∧
    (l.Whitespace = some DefaultWhitespace → l.TokenTypes = DefaultTokenTypes →
      pending l < fuel → pending l < n → ∃ l2, scanAll fuel n l = some (l2, none)) := by
  have hterm : (∀ ws, l.Whitespace = some ws → ∀ s p t, ws.FindToken s p = some t →
        t.Literal ≠ []) →
      (∀ tt ∈ l.TokenTypes, ∀ s p t, tt.FindToken s p = some t → t.Literal ≠ []) →
      pending l < fuel → pending l < n → ∃ l2 e, scanAll fuel n l = some (l2, e) := by
    intro hpw hpr hfuel hn
    obtain ⟨res, hres⟩ := scanAll_terminates l.Whitespace l.TokenTypes fuel
      (fun ws hw s p t hf => ⟨List.length_pos.mpr (hpw ws hw s p t hf),
        (hws ws hw s p t hf).length_le⟩)
      (fun tt htt s p t hf => ⟨List.length_pos.mpr (hpr tt htt s p t hf),
        (hrules tt htt s p t hf).length_le⟩)
      n l rfl rfl hfuel hn
    exact ⟨res.1, res.2, hres⟩
  refine ⟨?_, hterm, ?_⟩
  · intro l2 e h
    obtain ⟨lk, t, ⟨hQ1, hQ2⟩, hs, hte⟩ :=
      scanAll_last
        (fun x => Conserves l.Whitespace l.TokenTypes
          (l.consumed.flatten ++ l.buf ++ l.reader.flatten) x ∧ Live x.reader) fuel
        (fun x x1 tok hx hsx => ⟨Scan_conserves _ _ _ hws hrules fuel x x1 _ hx.1 hsx,
          (Scan_keeps fuel x x1 _ hsx).2.2.2 hx.2⟩)
        n l l2 e ⟨⟨rfl, rfl, hkept, rfl⟩, hlive⟩ h
    have hc2 := Scan_conserves _ _ _ hws hrules fuel lk l2 _ hQ1 hs
    refine ⟨hc2.2.2.2, ?_⟩
    intro he
    subst he
    have htn : t = none := by
      rcases hte with h1 | h1
      · exact h1
      · exact absurd rfl h1
    subst htn
    obtain ⟨hb, hr⟩ := Scan_end fuel lk l2 (by rw [hQ1.2.1]; exact hne) hQ2 hs
    have h4 := hc2.2.2.2
    rw [hb, hr] at h4
    exact ⟨hb, hr, by simpa using h4⟩
  · intro hw ht hfuel hn
    obtain ⟨l2, e, h⟩ := hterm
      (fun ws hws2 s p t hf => by
        rw [hw] at hws2
        simp only [Option.some.injEq] at hws2
        subst hws2
        exact List.length_pos.mp (DefaultWhitespace_pos s p t hf).1)
      (fun tt htt => DefaultTokenTypes_pos tt (by rw [← ht]; exact htt)) hfuel hn
    obtain ⟨lk, t, ⟨hQ1, hQ2, hQ3⟩, hs, _⟩ :=
      scanAll_last
        (fun x => x.Whitespace = some DefaultWhitespace ∧ x.TokenTypes = DefaultTokenTypes ∧
          Live x.reader) fuel
        (fun x x1 tok hx hsx => ⟨(Scan_keeps fuel x x1 _ hsx).1.trans hx.1,
          (Scan_keeps fuel x x1 _ hsx).2.1.trans hx.2.1,
          (Scan_keeps fuel x x1 _ hsx).2.2.2 hx.2.2⟩)
        n l l2 e ⟨hw, ht, hlive⟩ h
    obtain ⟨l1, hp⟩ := Scan_Peek fuel lk l2 t e hs
    have he := Peek_default_no_error fuel lk l1 t e hQ1 hQ2 (Or.inl hQ3) hp
    subst he
    exact ⟨l2, h⟩

theorem lossless_witness :
    (∀ ws, wordLexer.Whitespace = some ws → PrefixMatcher ws) ∧
    (∀ tt ∈ wordLexer.TokenTypes, PrefixMatcher tt) ∧
    wordLexer.TokenTypes ≠ [] ∧ Live wordLexer.reader ∧ Faithful wordLexer.reader ∧
    scanAll 5 5 wordLexer = some (wordLexerEnd, none) ∧
    wordLexerEnd.consumed.flatten = [97, 98, 32, 49] ∧
    ((∀ l2 e, scanAll 5 5 wordLexer = some (l2, e) →
      l2.consumed.flatten ++ l2.buf ++ l2.reader.flatten =
        wordLexer.consumed.flatten ++ wordLexer.buf ++ wordLexer.reader.flatten ∧
      (e = none → l2.buf = [] ∧ l2.reader = [] ∧ l2.consumed.flatten =
        wordLexer.consumed.flatten ++ wordLexer.buf ++ wordLexer.reader.flatten)) ∧
    ((∀ ws, wordLexer.Whitespace = some ws → ∀ s p t, ws.FindToken s p = some t →
        t.Literal ≠ []) →
      (∀ tt ∈ wordLexer.TokenTypes, ∀ s p t, tt.FindToken s p = some t → t.Literal ≠ []) →
      pending wordLexer < 5 → pending wordLexer < 5 →
        ∃ l2 e, scanAll 5 5 wordLexer = some (l2, e)) ∧
    (wordLexer.Whitespace = some DefaultWhitespace →
      wordLexer.TokenTypes = DefaultTokenTypes →
      pending wordLexer < 5 → pending wordLexer < 5 →
        ∃ l2, scanAll 5 5 wordLexer = some (l2, none))) :=
  have h1 : ∀ ws, wordLexer.Whitespace = some ws → PrefixMatcher ws := by
    intro ws h
    simp only [wordLexer, NewLexer, Option.some.injEq] at h
    subst h
    exact PrefixMatcher_Pattern _ _
  have h2 : ∀ tt ∈ wordLexer.TokenTypes, PrefixMatcher tt := PrefixMatcher_default
  have h5 : scanAll 5 5 wordLexer = some (wordLexerEnd, none) := by
    set_option maxRecDepth 100000 in decide
  ⟨h1, h2, by decide, Live_of_chunks _ (by decide), Faithful_of_chunks _ (by decide), h5,
    by decide,
    lossless 5 5 wordLexer h1 h2 (by decide) (Live_of_chunks _ (by decide))
      (Faithful_of_chunks _ (by decide))⟩

/-- C15, as stated, fails in three ways. While the line is only partly
buffered the text is only part of the line: over a stream that delivers the
line abcd in two reads, ab and then cd with the line feed, the new lexer has
nothing buffered and GetLastLine, which reads once, returns ab. The refill
trims the zero bytes that end a read: of the line a, zero byte, b the second
GetLastLine returns ab although the buffer then holds the line feed. And a
rule that matches past the beginning of the buffer, as the one built from
^a|b does, has its literal b recorded while the byte x is removed: after one
Scan of the line xb GetLastLine returns bb. -/
theorem GetLastLine_counterexample :
    splitLineLexer.loadedLine ++ splitLineLexer.buf.takeWhile (fun b => b != 10) = [] ∧
    (GetLastLine splitLineLexer).2 = [97, 98] ∧
    currentLine [] (splitLineLexer.reader.flatten) = [97, 98, 99, 100] ∧
    (GetLastLine (GetLastLine (NewLexer [[97, 0], [98, 10]])).1).2 = [97, 98] ∧
    10 ∈ (GetLastLine (GetLastLine (NewLexer [[97, 0], [98, 10]])).1).1.buf ∧
    currentLine [] ([[97, 0], [98, 10]] : Reader).flatten = [97, 0, 98] ∧
    (Scan 5 caretLineLexer).map (fun r => ((GetLastLine r.1).2, r.1.buf)) =
      some ([98, 98], [98, 10]) ∧
    currentLine [120] [98, 10] = [120, 98] := by
  refine ⟨by decide, ?_, by decide, ?_, ?_, by decide,
    by set_option maxRecDepth 100000 in decide, by decide⟩
  · simp only [GetLastLine, readBufIfNeed_eq]
    decide
  · simp only [GetLastLine, readBufIfNeed_eq]
    decide
  · simp only [GetLastLine, readBufIfNeed_eq]
    decide

/-- C15, amended. Current-line invariant: in every state reached by calls of
Peek, Scan and GetLastLine from a new lexer over a stream none of whose reads
ends in a zero byte, with a whitespace matcher and rules that only match at
the very beginning of the text they are given, the literals consumed, the
buffer and the unread stream make up the input, loadedLine is the text
consumed since the last line terminator, and loadedLine followed by the
buffer prefix up to, not including, the next line terminator (the whole
buffer when it holds none) is the line of the input that contains the cursor
as far as it is buffered; it is the full text of that line exactly when the
buffer holds a line terminator or the unread stream does not continue the
line (it is empty or begins with a line terminator). GetLastLine refills the
buffer once, returns exactly that text for the buffer it leaves, and consumes
nothing: cursor, loadedLine and the literals consumed are unchanged, the
buffer is only extended at its end and the text after the cursor is the
same. -/
theorem GetLastLine_line (r : Reader) (W : Option TokenType) (R : List TokenType) (l : Lexer)
    (hkept : Faithful r)
    (hws : ∀ ws, W = some ws → PrefixMatcher ws) (hrules : ∀ tt ∈ R, PrefixMatcher tt)
    (hreach : Reaches { NewLexer r with Whitespace := W, TokenTypes := R } l) :
    l.consumed.flatten ++ (l.buf ++ l.reader.flatten) = r.flatten ∧
    l.loadedLine = textAfterLastTerminator l.consumed.flatten ∧
    l.loadedLine ++ l.buf.takeWhile (fun b => b != 10) = currentLine l.consumed.flatten l.buf ∧
    (l.loadedLine ++ l.buf.takeWhile (fun b => b != 10) =
        currentLine l.consumed.flatten (l.buf ++ l.reader.flatten) ↔
      (10 ∈ l.buf ∨ ∀ b, l.reader.flatten.head? = some b → b = 10)) ∧
    (GetLastLine l).2 = (GetLastLine l).1.loadedLine ++
      (GetLastLine l).1.buf.takeWhile (fun b => b != 10) ∧
    ((GetLastLine l).2 = currentLine l.consumed.flatten (l.buf ++ l.reader.flatten) ↔
      (10 ∈ (GetLastLine l).1.buf ∨
        ∀ b, (GetLastLine l).1.reader.flatten.head? = some b → b = 10)) ∧
    (GetLastLine l).1.nextPos = l.nextPos ∧ (GetLastLine l).1.loadedLine = l.loadedLine ∧
    (GetLastLine l).1.consumed = l.consumed ∧ l.buf <+: (GetLastLine l).1.buf ∧
    (GetLastLine l).1.buf ++ (GetLastLine l).1.reader.flatten = l.buf ++ l.reader.flatten := by
  have key : ∀ x : Lexer, Reaches { NewLexer r with Whitespace := W, TokenTypes := R } x →
      x.consumed.flatten ++ (x.buf ++ x.reader.flatten) = r.flatten ∧
      x.loadedLine = textAfterLastTerminator x.consumed.flatten ∧
      x.loadedLine ++ x.buf.takeWhile (fun b => b != 10) =
        currentLine x.consumed.flatten x.buf ∧
      (x.loadedLine ++ x.buf.takeWhile (fun b => b != 10) =
          currentLine x.consumed.flatten (x.buf ++ x.reader.flatten) ↔
        (10 ∈ x.buf ∨ ∀ b, x.reader.flatten.head? = some b → b = 10)) := by
    intro x hx
    obtain ⟨hc, hl⟩ := Reaches_inv r W R x hkept hws hrules hx
    refine ⟨by rw [← List.append_assoc]; exact hc.2.2.2, hl, by rw [hl]; rfl, ?_⟩
    rw [hl, ← takeWhile_append_iff]
    simp only [currentLine, List.append_cancel_left_eq]
  obtain ⟨k1, k2, k3, k4⟩ := key l hreach
  obtain ⟨g1, g2, g3, g4⟩ := key (GetLastLine l).1 (Reaches.line l hreach)
  have hcons : (GetLastLine l).1.consumed = l.consumed := by
    rw [GetLastLine_fst]; exact (readBufIfNeed_config l).2.2.2.2
  have hll : (GetLastLine l).1.loadedLine = l.loadedLine := by
    rw [GetLastLine_fst]; exact (readBufIfNeed_config l).2.2.2.1
  have hsnd : (GetLastLine l).2 = (GetLastLine l).1.loadedLine ++
      (GetLastLine l).1.buf.takeWhile (fun b => b != 10) := by
    rw [GetLastLine_fst]; exact GetLastLine_snd l
  have hrest : (GetLastLine l).1.buf ++ (GetLastLine l).1.reader.flatten =
      l.buf ++ l.reader.flatten := by
    have h := g1
    rw [hcons, ← k1] at h
    exact List.append_cancel_left h
  refine ⟨k1, k2, k3, k4, hsnd, ?_, ?_, hll, hcons, ?_, hrest⟩
  · rw [hsnd, ← g4, hcons, hrest]
  · rw [GetLastLine_fst]; exact (readBufIfNeed_config l).2.2.1
  · rw [GetLastLine_fst]; exact readBufIfNeed_buf l

theorem GetLastLine_line_witness :
    Faithful [[97, 98, 10, 99, 100]] ∧
    (∀ ws, some DefaultWhitespace = some ws → PrefixMatcher ws) ∧
    (∀ tt ∈ [letterRule], PrefixMatcher tt) ∧
    Reaches { NewLexer [[97, 98, 10, 99, 100]] with
      Whitespace := some DefaultWhitespace, TokenTypes := [letterRule] } letterLexer3 ∧
    (GetLastLine letterLexer3).2 = [99, 100] ∧
    currentLine letterLexer3.consumed.flatten
      (letterLexer3.buf ++ letterLexer3.reader.flatten) = [99, 100] ∧
    (letterLexer3.consumed.flatten ++ (letterLexer3.buf ++ letterLexer3.reader.flatten) =
      ([[97, 98, 10, 99, 100]] : Reader).flatten ∧
    letterLexer3.loadedLine = textAfterLastTerminator letterLexer3.consumed.flatten ∧
    letterLexer3.loadedLine ++ letterLexer3.buf.takeWhile (fun b => b != 10) =
      currentLine letterLexer3.consumed.flatten letterLexer3.buf ∧
    (letterLexer3.loadedLine ++ letterLexer3.buf.takeWhile (fun b => b != 10) =
        currentLine letterLexer3.consumed.flatten
          (letterLexer3.buf ++ letterLexer3.reader.flatten) ↔
      (10 ∈ letterLexer3.buf ∨ ∀ b, letterLexer3.reader.flatten.head? = some b → b = 10)) ∧
    (GetLastLine letterLexer3).2 = (GetLastLine letterLexer3).1.loadedLine ++
      (GetLastLine letterLexer3).1.buf.takeWhile (fun b => b != 10) ∧
    ((GetLastLine letterLexer3).2 = currentLine letterLexer3.consumed.flatten
        (letterLexer3.buf ++ letterLexer3.reader.flatten) ↔
      (10 ∈ (GetLastLine letterLexer3).1.buf ∨
        ∀ b, (GetLastLine letterLexer3).1.reader.flatten.head? = some b → b = 10)) ∧
    (GetLastLine letterLexer3).1.nextPos = letterLexer3.nextPos ∧
    (GetLastLine letterLexer3).1.loadedLine = letterLexer3.loadedLine ∧
    (GetLastLine letterLexer3).1.consumed = letterLexer3.consumed ∧
    letterLexer3.buf <+: (GetLastLine letterLexer3).1.buf ∧
    (GetLastLine letterLexer3).1.buf ++ (GetLastLine letterLexer3).1.reader.flatten =
      letterLexer3.buf ++ letterLexer3.reader.flatten) :=
  have h1 : ∀ ws, some DefaultWhitespace = some ws → PrefixMatcher ws := by
    intro ws h
    simp only [Option.some.injEq] at h
    subst h
    exact PrefixMatcher_Pattern _ _
  have h2 : ∀ tt ∈ [letterRule], PrefixMatcher tt := by
    intro tt h
    simp only [List.mem_singleton] at h
    subst h
    exact PrefixMatcher_anchored _ _
  have s1 : Scan 5 { NewLexer [[97, 98, 10, 99, 100]] with
      Whitespace := some DefaultWhitespace, TokenTypes := [letterRule] } =
      some (letterLexer1, some ⟨letterRule, [97], [], ⟨0, 0⟩⟩, none) := by
    set_option maxRecDepth 100000 in decide
  have s2 : Scan 5 letterLexer1 =
      some (letterLexer2, some ⟨letterRule, [98], [], ⟨0, 1⟩⟩, none) := by
    set_option maxRecDepth 100000 in decide
  have s3 : Scan 5 letterLexer2 =
      some (letterLexer3, some ⟨letterRule, [99], [], ⟨1, 0⟩⟩, none) := by
    set_option maxRecDepth 100000 in decide
  have hr : Reaches { NewLexer [[97, 98, 10, 99, 100]] with
      Whitespace := some DefaultWhitespace, TokenTypes := [letterRule] } letterLexer3 :=
    Reaches.scan 5 _ _ _ (Reaches.scan 5 _ _ _ (Reaches.scan 5 _ _ _ Reaches.start s1) s2) s3
  have h3 : (GetLastLine letterLexer3).2 = [99, 100] := by
    simp only [GetLastLine, readBufIfNeed_eq]
    decide
  ⟨Faithful_of_chunks _ (by decide), h1, h2, hr, h3, by decide,
    GetLastLine_line [[97, 98, 10, 99, 100]] (some DefaultWhitespace) [letterRule] letterLexer3
      (Faithful_of_chunks _ (by decide)) h1 h2 hr⟩

/-- C8. Error string format: Error() is the decimal rendering of line+1, a
colon, the decimal rendering of column+1, the text :UnknownTokenError: and a
space, then the literal as strconv.Quote writes it. The rendering of a
number that is not negative holds decimal digits only, has no leading zero
and reads back as the number; that of a negative number is a minus sign and
the rendering of its opposite. The quoted literal begins and ends with a
double quote, holds no control character, and, read as a string literal
with its escapes interpreted, denotes the literal, byte for byte. Printable
ASCII text without a double quote or a backslash is quoted as it stands; a
double quote and a backslash are written with a backslash before them, a
line feed, a tab and a carriage return as the escapes n, t and r, the zero
byte, the byte 7F and the invalid byte FF as the escapes x00, x7f and xff,
the soft hyphen as the escape u00ad; the letter e with acute accent is
kept, and the character U+1F600 is kept when printable and else written as
the escape U0001f600. The error of literal test at line 0, column 1 renders
as 1:2:UnknownTokenError: "test". -/
theorem Error_format (wide : Nat → Bool) (s : Str) (line column : Int) :
    UnknownTokenError.Error wide ⟨s, ⟨line, column⟩⟩ =
        Itoa (line + 1) ++ [58] ++ Itoa (column + 1) ++ ascii ":UnknownTokenError: " ++
          Quote wide s ∧
    (∀ n : Int, 0 ≤ n → (decimalValue (Itoa n) : Int) = n ∧ Itoa n ≠ [] ∧
      (∀ d ∈ Itoa n, 48 ≤ d ∧ d ≤ 57) ∧ ((Itoa n).head? = some 48 → n = 0)) ∧
    (∀ n : Int, n < 0 → Itoa n = 45 :: Itoa (-n)) ∧
    ((Quote wide s).head? = some 34 ∧ (Quote wide s).getLast? = some 34 ∧
      2 ≤ (Quote wide s).length) ∧
    ((∀ b ∈ s, b < 256) → Unquote (Quote wide s) = some s) ∧
    ((∀ b ∈ s, b < 256) → ∀ c ∈ Quote wide s, 32 ≤ c ∧ c ≠ 127) ∧
    ((∀ b ∈ s, 32 ≤ b ∧ b ≤ 126 ∧ b ≠ 34 ∧ b ≠ 92) → Quote wide s = [34] ++ s ++ [34]) ∧
    (Quote wide [34] = [34, 92, 34, 34] ∧ Quote wide [92] = [34, 92, 92, 34] ∧
      Quote wide [10] = [34, 92, 110, 34] ∧ Quote wide [9] = [34, 92, 116, 34] ∧
      Quote wide [13] = [34, 92, 114, 34] ∧ Quote wide [0] = [34, 92, 120, 48, 48, 34] ∧
      Quote wide [0x7F] = [34, 92, 120, 55, 102, 34] ∧
      Quote wide [0xFF] = [34, 92, 120, 102, 102, 34] ∧
      Quote wide [0xC3, 0xA9] = [34, 0xC3, 0xA9, 34] ∧
      Quote wide [0xC2, 0xAD] = [34, 92, 117, 48, 48, 97, 100, 34]) ∧
    (wide 0x1F600 = true →
      Quote wide [0xF0, 0x9F, 0x98, 0x80] = [34, 0xF0, 0x9F, 0x98, 0x80, 34]) ∧
    (wide 0x1F600 = false →
      Quote wide [0xF0, 0x9F, 0x98, 0x80] =
        [34, 92, 85, 48, 48, 48, 49, 102, 54, 48, 48, 34]) ∧
    UnknownTokenError.Error wide ⟨ascii "test", ⟨0, 1⟩⟩ =
        ascii "1:2:UnknownTokenError: \"test\"" := by
  have hq : Quote wide s = 34 :: (quoteBody wide s.length s ++ [34]) := by simp [Quote]
  have hd : DecodeRune [0xF0, 0x9F, 0x98, 0x80] = (0x1F600, 4) := by decide
  refine ⟨rfl, ?_, fun n hn => Itoa_neg n hn, ?_, Unquote_Quote wide s, ?_, ?_,
    ⟨rfl, rfl, rfl, rfl, rfl, rfl, rfl, rfl, rfl, rfl⟩, ?_, ?_, rfl⟩
  · intro n hn
    have hlt : ¬ n < 0 := by omega
    obtain ⟨h1, h2, h3⟩ := decimalDigits_spec (n.natAbs + 1) n.natAbs (by omega)
    have h4 := decimalDigits_head (n.natAbs + 1) n.natAbs (by omega)
    simp only [Itoa, hlt, if_false]
    refine ⟨?_, h3, h2, ?_⟩
    · rw [h1]
      omega
    · intro hh
      have := h4 hh
      omega
  · rw [hq]
    refine ⟨rfl, ?_, ?_⟩
    · rw [← List.cons_append]
      exact List.getLast?_concat _
    · simp only [List.length_cons, List.length_append, List.length_singleton]
      omega
  · intro hb c hc
    rw [hq] at hc
    simp only [List.mem_cons, List.mem_append, List.mem_singleton, List.not_mem_nil,
      or_false] at hc
    rcases hc with rfl | hc | rfl
    · omega
    · exact quoteBody_clean wide s.length s hb c hc
    · omega
  · intro hp
    simp only [Quote, quoteBody_plain wide s s.length (le_refl _) hp]
  · intro hw
    have hp : IsPrint wide 0x1F600 = true := by simp [IsPrint, hw]
    simp [Quote, quoteBody, hd, escapeRune, hp]
  · intro hw
    have hp : IsPrint wide 0x1F600 = false := by simp [IsPrint, hw]
    simp [Quote, quoteBody, hd, escapeRune, hp, lowerhex]

end EasyLexer
